import Mathlib

/-!
# Search server: a shallow embedding and its verified properties

The development follows `search_server.h` / `search_server.cpp` (the copy in
`iterators_lesson-9/main.cpp` is the same code and also holds `SplitIntoWords`).

Modelling conventions.

* `std::string` is `List Char`; `char` codes are `Char.toNat`.
* `std::set<K>` and `std::map<K, V>` are lists kept in ascending key order
  (`StdSet`, `StdMap`): iterating the container is iterating the list.
* `int` is `Int`; `size_t` is `Nat`.  The sum of `ComputeAverageRating` is kept in
  a 32-bit `int`: each addition is reduced modulo 2^32 (`wrapInt32`).
* `double` is an arbitrary linearly ordered field `R` (exact arithmetic), and
  `std::log` is a parameter `log : R → R`.  Every theorem holds for each such
  `R` and `log`, in particular for the real numbers with the natural logarithm.
  Where the rounding of `double` additions decides a property, `Binary64` gives
  the rounded arithmetic of the statements concerned.
* A C++ exception is an `Except Error` result; the one mutating member function
  (`AddDocument`) returns the outcome together with the state it leaves behind.
* `std::sort` is insertion sort as run by libstdc++ on short ranges (`stdSort`).
* `RequestQueue` (`request_queue.h`, `request_queue.cpp`) holds a reference to a
  server; its member functions take the state of the server as an argument.
* An iterator of `paginator.h` is a position in the container; the loop of
  `Paginator` runs on fuel.
-/

namespace SearchEngine

/-! ## Containers -/

/-- The exceptions thrown by the code. -/
inductive Error where
  | invalid_argument
  | out_of_range
  deriving DecidableEq, Repr

namespace StdSet

variable {K : Type} [LinearOrder K]

/-- Ordered insertion: `std::set::insert`. -/
def insert (k : K) : List K → List K
  | [] => [k]
  | x :: rest =>
    if k < x then k :: x :: rest
    else if k = x then x :: rest
    else x :: insert k rest

/-- Number of elements equal to the key (0 or 1): `std::set::count`. -/
def count (s : List K) (k : K) : Nat :=
  if k ∈ s then 1 else 0

end StdSet

namespace StdMap

variable {K V : Type} [LinearOrder K]

/-- Lookup in key order: `std::map::find`. -/
def find : List (K × V) → K → Option V
  | [], _ => none
  | (k0, v0) :: rest, k =>
    if k < k0 then none
    else if k = k0 then some v0
    else find rest k

/-- Number of entries under the key (0 or 1): `std::map::count`. -/
def count (m : List (K × V)) (k : K) : Nat :=
  if (find m k).isSome then 1 else 0

/-- Checked access: `std::map::at`, which throws `std::out_of_range`. -/
def atKey (m : List (K × V)) (k : K) : Except Error V :=
  match find m k with
  | some v => .ok v
  | none => .error .out_of_range

/-- The entry under `k` becomes `f (old value, if any)`; a missing entry is
created in key order.  `m[k] += x` is `update k (fun o => o.getD 0 + x) m`. -/
def update (k : K) (f : Option V → V) : List (K × V) → List (K × V)
  | [] => [(k, f none)]
  | (k0, v0) :: rest =>
    if k < k0 then (k, f none) :: (k0, v0) :: rest
    else if k = k0 then (k0, f (some v0)) :: rest
    else (k0, v0) :: update k f rest

/-- Insert unless the key is present: `std::map::emplace`. -/
def emplace (k : K) (v : V) (m : List (K × V)) : List (K × V) :=
  update k (fun o => o.getD v) m

/-- Remove the entry under the key: `std::map::erase(key)`. -/
def erase (k : K) (m : List (K × V)) : List (K × V) :=
  m.filter (fun e => decide (e.1 ≠ k))

/-- The keys in iteration order. -/
def keys (m : List (K × V)) : List K :=
  m.map Prod.fst

/-- The representation invariant of a map: strictly ascending keys. -/
def Ordered (m : List (K × V)) : Prop :=
  (keys m).Pairwise (· < ·)

end StdMap

/-! ## Documents -/

inductive DocumentStatus where
  | ACTUAL
  | IRRELEVANT
  | BANNED
  | REMOVED
  deriving DecidableEq, Repr

structure Document (R : Type) where
  id : Int
  relevance : R
  rating : Int

structure DocumentData where
  rating : Int
  status : DocumentStatus
  deriving DecidableEq, Repr

structure QueryWord where
  data : List Char
  is_minus : Bool
  is_stop : Bool
  deriving DecidableEq, Repr

structure Query where
  plus_words : List (List Char)
  minus_words : List (List Char)
  deriving DecidableEq, Repr

def MAX_RESULT_DOCUMENT_COUNT : Nat := 5

/-- The constant `1e-6`. -/
def EPSILON {R : Type} [LinearOrderedField R] : R := 1 / 1000000

/-! ## Free functions -/

/-- One step of the loop of `SplitIntoWords` over the characters of the text;
the state is `(words, word)`. -/
def splitStep (st : List (List Char) × List Char) (c : Char) :
    List (List Char) × List Char :=
  if c = ' ' then
    if st.2 ≠ [] then (st.1 ++ [st.2], []) else (st.1, st.2)
  else (st.1, st.2 ++ [c])

def SplitIntoWords (text : List Char) : List (List Char) :=
  let st := text.foldl splitStep ([], [])
  if st.2 ≠ [] then st.1 ++ [st.2] else st.1

def MakeUniqueNonEmptyStrings (strings : List (List Char)) : List (List Char) :=
  strings.foldl (fun non_empty_strings str =>
    if str ≠ [] then StdSet.insert str non_empty_strings else non_empty_strings) []

/-- The integer `x` is a value of the 32-bit type `int`. -/
def FitsInt32 (x : Int) : Prop := -2147483648 ≤ x ∧ x ≤ 2147483647

instance (x : Int) : Decidable (FitsInt32 x) := by
  unfold FitsInt32
  infer_instance

/-- The value a 32-bit `int` holds after an arithmetic result `x`: `x` reduced
modulo 2^32 into the range from -2147483648 to 2147483647 (two-complement
wrap-around; the value is `x` itself whenever `x` fits). -/
def wrapInt32 (x : Int) : Int := (x + 2147483648) % 4294967296 - 2147483648

/-- The ratings are the elements of a `std::vector<int>`.  `std::accumulate`
with the initial value `0` keeps the running sum in an `int`, so every addition
is reduced by `wrapInt32`; the divisor is `static_cast<int>(ratings.size())`
and the division of two `int`s truncates toward zero. -/
def ComputeAverageRating (ratings : List Int) : Int :=
  if ratings = [] then 0
  else
    let sum := ratings.foldl (fun acc rating => wrapInt32 (acc + rating)) 0
    Int.tdiv sum (wrapInt32 (ratings.length : Int))

def IsValidWord (word : List Char) : Bool :=
  !word.isEmpty && word.head? != some '-' && word.getLast? != some '-' &&
    word.all (fun c => !(decide (0 ≤ c.toNat) && decide (c.toNat < 32)))

/-- A term is invalid when it is empty, starts or ends with `-`, or holds a
character with a code below that of the space. -/
def InvalidTerm (word : List Char) : Prop :=
  word = [] ∨ word.head? = some '-' ∨ word.getLast? = some '-' ∨ ∃ c ∈ word, c.toNat < 32

instance (word : List Char) : Decidable (InvalidTerm word) := by
  unfold InvalidTerm
  infer_instance

/-- A query token without its minus marker: at most one leading `-` is removed. -/
def stripMinus (token : List Char) : List Char :=
  match token with
  | '-' :: rest => rest
  | _ => token

/-- Insertion of `val` into a sorted range scanned from its back
(`__unguarded_linear_insert`); the range is given last element first. -/
def linearInsert {α : Type} (comp : α → α → Bool) (val : α) : List α → List α
  | [] => [val]
  | x :: rest =>
    if comp val x then x :: linearInsert comp val rest else val :: x :: rest

/-- One iteration of `__insertion_sort`: an element that goes before the first
one is moved to the front, any other is inserted from the back.  The sorted
prefix is held last element first. -/
def insertionStep {α : Type} (comp : α → α → Bool) (sortedRev : List α) (val : α) :
    List α :=
  match sortedRev.getLast? with
  | none => [val]
  | some first =>
    if comp val first then sortedRev ++ [val] else linearInsert comp val sortedRev

/-- Insertion sort, the algorithm `std::sort` of libstdc++ runs on ranges of at
most 16 elements and as the final pass on longer ones. -/
def stdSort {α : Type} (comp : α → α → Bool) (l : List α) : List α :=
  (l.foldl (insertionStep comp) []).reverse

/-- The comparator passed to `std::sort` in `FindTopDocuments`. -/
def compareDocuments {R : Type} [LinearOrderedField R] (lhs rhs : Document R) : Bool :=
  if |lhs.relevance - rhs.relevance| < EPSILON then decide (lhs.rating > rhs.rating)
  else decide (lhs.relevance > rhs.relevance)

/-! ## The search server -/

structure SearchServer (R : Type) where
  stop_words_ : List (List Char)
  word_to_document_freqs_ : List (List Char × List (Int × R))
  documents_ : List (Int × DocumentData)
  document_ids_ : List Int

namespace SearchServer

variable {R : Type} [LinearOrderedField R]

/-- The constructor from a container of stop words. -/
def construct (stop_words : List (List Char)) : Except Error (SearchServer R) :=
  let stop_words_ := MakeUniqueNonEmptyStrings stop_words
  if stop_words_.any (fun word => !IsValidWord word) then .error .invalid_argument
  else .ok ⟨stop_words_, [], [], []⟩

/-- The constructor from a text of space-separated stop words. -/
def constructFromText (stop_words_text : List Char) : Except Error (SearchServer R) :=
  construct (SplitIntoWords stop_words_text)

/-- The constructor without arguments. -/
def constructDefault : Except Error (SearchServer R) :=
  constructFromText []

def IsStopWord (s : SearchServer R) (word : List Char) : Bool :=
  decide (StdSet.count s.stop_words_ word > 0)

def SplitIntoWordsNoStop (s : SearchServer R) (text : List Char) : List (List Char) :=
  (SplitIntoWords text).filter (fun word => !s.IsStopWord word)

def GetDocumentCount (s : SearchServer R) : Int :=
  (s.documents_.length : Int)

/-- The statement `word_to_document_freqs_[word][document_id] += inv_word_count`. -/
def addTermFrequency (freqs : List (List Char × List (Int × R))) (word : List Char)
    (document_id : Int) (inv_word_count : R) : List (List Char × List (Int × R)) :=
  StdMap.update word
    (fun postings => StdMap.update document_id (fun tf => tf.getD 0 + inv_word_count)
      (postings.getD [])) freqs

/-- The outcome of the call and the state after it. -/
def AddDocument (s : SearchServer R) (document_id : Int) (document : List Char)
    (status : DocumentStatus) (ratings : List Int) :
    Except Error Unit × SearchServer R :=
  if document_id < 0 then (.error .invalid_argument, s)
  else if StdMap.count s.documents_ document_id ≠ 0 then (.error .invalid_argument, s)
  else
    let words := s.SplitIntoWordsNoStop document
    if words.any (fun word => !IsValidWord word) then (.error .invalid_argument, s)
    else
      let inv_word_count : R := 1 / (words.length : R)
      let s1 := { s with
        word_to_document_freqs_ :=
          words.foldl (fun freqs word => addTermFrequency freqs word document_id inv_word_count)
            s.word_to_document_freqs_ }
      let s2 := { s1 with
        documents_ :=
          StdMap.emplace document_id ⟨ComputeAverageRating ratings, status⟩ s1.documents_ }
      (.ok (), { s2 with document_ids_ := s2.document_ids_ ++ [document_id] })

def ParseQueryWord (s : SearchServer R) (text : List Char) : Except Error QueryWord :=
  if text = [] then .error .invalid_argument
  else
    let is_minus := decide (text.head? = some '-')
    let text := if is_minus then text.tail else text
    if !IsValidWord text then .error .invalid_argument
    else .ok ⟨text, is_minus, s.IsStopWord text⟩

/-- The body of the loop of `ParseQuery` for one word. -/
def parseQueryStep (s : SearchServer R) (query : Query) (word : List Char) :
    Except Error Query :=
  match s.ParseQueryWord word with
  | .error e => .error e
  | .ok query_word =>
    if !query_word.is_stop then
      if query_word.is_minus then
        .ok { query with minus_words := StdSet.insert query_word.data query.minus_words }
      else
        .ok { query with plus_words := StdSet.insert query_word.data query.plus_words }
    else .ok query

/-- The loop of `ParseQuery` over the words still to be read. -/
def parseQueryLoop (s : SearchServer R) : List (List Char) → Query → Except Error Query
  | [], query => .ok query
  | word :: rest, query =>
    match s.parseQueryStep query word with
    | .error e => .error e
    | .ok query => parseQueryLoop s rest query

def ParseQuery (s : SearchServer R) (text : List Char) : Except Error Query :=
  s.parseQueryLoop (SplitIntoWords text) ⟨[], []⟩

def ComputeWordInverseDocumentFreq (s : SearchServer R) (log : R → R) (word : List Char) :
    Except Error R :=
  match StdMap.atKey s.word_to_document_freqs_ word with
  | .error e => .error e
  | .ok postings => .ok (log ((s.GetDocumentCount : R) * 1 / (postings.length : R)))

/-- The inner loop of the plus-word pass of `FindAllDocuments`, over the
postings of one word. -/
def accumulatePostings (s : SearchServer R) (predicate : Int → DocumentStatus → Int → Bool)
    (inverse_document_freq : R) :
    List (Int × R) → List (Int × R) → Except Error (List (Int × R))
  | [], document_to_relevance => .ok document_to_relevance
  | (document_id, term_freq) :: rest, document_to_relevance =>
    match StdMap.atKey s.documents_ document_id with
    | .error e => .error e
    | .ok doc =>
      accumulatePostings s predicate inverse_document_freq rest
        (if predicate document_id doc.status doc.rating then
          StdMap.update document_id (fun r => r.getD 0 + term_freq * inverse_document_freq)
            document_to_relevance
        else document_to_relevance)

/-- The plus-word pass of `FindAllDocuments`. -/
def accumulatePlusWords (s : SearchServer R) (log : R → R)
    (predicate : Int → DocumentStatus → Int → Bool) :
    List (List Char) → List (Int × R) → Except Error (List (Int × R))
  | [], document_to_relevance => .ok document_to_relevance
  | word :: rest, document_to_relevance =>
    if StdMap.count s.word_to_document_freqs_ word = 0 then
      accumulatePlusWords s log predicate rest document_to_relevance
    else
      match s.ComputeWordInverseDocumentFreq log word with
      | .error e => .error e
      | .ok inverse_document_freq =>
        match StdMap.atKey s.word_to_document_freqs_ word with
        | .error e => .error e
        | .ok postings =>
          match s.accumulatePostings predicate inverse_document_freq postings
              document_to_relevance with
          | .error e => .error e
          | .ok document_to_relevance =>
            accumulatePlusWords s log predicate rest document_to_relevance

/-- The minus-word pass of `FindAllDocuments`. -/
def eraseMinusWords (s : SearchServer R) :
    List (List Char) → List (Int × R) → Except Error (List (Int × R))
  | [], document_to_relevance => .ok document_to_relevance
  | word :: rest, document_to_relevance =>
    if StdMap.count s.word_to_document_freqs_ word = 0 then
      eraseMinusWords s rest document_to_relevance
    else
      match StdMap.atKey s.word_to_document_freqs_ word with
      | .error e => .error e
      | .ok postings =>
        eraseMinusWords s rest
          (postings.foldl (fun rel posting => StdMap.erase posting.1 rel)
            document_to_relevance)

/-- The final loop of `FindAllDocuments`, which builds the result vector. -/
def collectDocuments (s : SearchServer R) : List (Int × R) → Except Error (List (Document R))
  | [] => .ok []
  | (document_id, relevance) :: rest =>
    match StdMap.atKey s.documents_ document_id with
    | .error e => .error e
    | .ok doc =>
      match collectDocuments s rest with
      | .error e => .error e
      | .ok matched_documents => .ok (⟨document_id, relevance, doc.rating⟩ :: matched_documents)

def FindAllDocuments (s : SearchServer R) (log : R → R) (query : Query)
    (predicate : Int → DocumentStatus → Int → Bool) : Except Error (List (Document R)) :=
  match s.accumulatePlusWords log predicate query.plus_words [] with
  | .error e => .error e
  | .ok document_to_relevance =>
    match s.eraseMinusWords query.minus_words document_to_relevance with
    | .error e => .error e
    | .ok document_to_relevance => s.collectDocuments document_to_relevance

def FindTopDocuments (s : SearchServer R) (log : R → R) (raw_query : List Char)
    (predicate : Int → DocumentStatus → Int → Bool) : Except Error (List (Document R)) :=
  match s.ParseQuery raw_query with
  | .error e => .error e
  | .ok query =>
    match s.FindAllDocuments log query predicate with
    | .error e => .error e
    | .ok matched_documents =>
      .ok ((stdSort compareDocuments matched_documents).take MAX_RESULT_DOCUMENT_COUNT)

/-- The overload of `FindTopDocuments` that takes a status. -/
def FindTopDocumentsByStatus (s : SearchServer R) (log : R → R) (raw_query : List Char)
    (expected_status : DocumentStatus) : Except Error (List (Document R)) :=
  s.FindTopDocuments log raw_query (fun _ status _ => decide (status = expected_status))

/-- The overload of `FindTopDocuments` that takes the query only. -/
def FindTopDocumentsActual (s : SearchServer R) (log : R → R) (raw_query : List Char) :
    Except Error (List (Document R)) :=
  s.FindTopDocumentsByStatus log raw_query .ACTUAL

def MatchDocument (s : SearchServer R) (raw_query : List Char) (document_id : Int) :
    Except Error (List (List Char) × DocumentStatus) :=
  match s.ParseQuery raw_query with
  | .error e => .error e
  | .ok query =>
    let matched_words := query.plus_words.filter (fun word =>
      match StdMap.find s.word_to_document_freqs_ word with
      | none => false
      | some postings => decide (StdMap.count postings document_id ≠ 0))
    let matched_words :=
      if query.minus_words.any (fun word =>
        match StdMap.find s.word_to_document_freqs_ word with
        | none => false
        | some postings => decide (StdMap.count postings document_id ≠ 0))
      then [] else matched_words
    match StdMap.atKey s.documents_ document_id with
    | .error e => .error e
    | .ok doc => .ok (matched_words, doc.status)

def GetDocumentId (s : SearchServer R) (index : Int) : Except Error Int :=
  if index < 0 then .error .out_of_range
  else
    match s.document_ids_.get? index.toNat with
    | some id => .ok id
    | none => .error .out_of_range

/-- The states a server can be in: built by a constructor, then any number of
calls of `AddDocument`, accepted or rejected. -/
inductive Reachable : SearchServer R → Prop
  | construct (stop_words : List (List Char)) (s : SearchServer R) :
      SearchServer.construct stop_words = .ok s → Reachable s
  | AddDocument (s : SearchServer R) (document_id : Int) (document : List Char)
      (status : DocumentStatus) (ratings : List Int) :
      Reachable s → Reachable (s.AddDocument document_id document status ratings).2

/-- The posting list of a word; empty for a word that is not a key of the index. -/
def postingsOf (s : SearchServer R) (word : List Char) : List (Int × R) :=
  (StdMap.find s.word_to_document_freqs_ word).getD []

/-- The term frequency stored for a word and a document (0 when there is none). -/
def termFreqOf (s : SearchServer R) (word : List Char) (document_id : Int) : R :=
  (StdMap.find (s.postingsOf word) document_id).getD 0

/-- The inverse document frequency of a word: the logarithm of the document
count over the number of postings of the word. -/
def idfOf (s : SearchServer R) (log : R → R) (word : List Char) : R :=
  log ((s.GetDocumentCount : R) * 1 / ((s.postingsOf word).length : R))

/-- The document has a posting under the word. -/
def hasWord (s : SearchServer R) (document_id : Int) (word : List Char) : Bool :=
  decide (document_id ∈ StdMap.keys (s.postingsOf word))

/-- The predicate applied to the stored status and rating of a document. -/
def admits (s : SearchServer R) (predicate : Int → DocumentStatus → Int → Bool)
    (document_id : Int) : Bool :=
  match StdMap.find s.documents_ document_id with
  | some doc => predicate document_id doc.status doc.rating
  | none => false

/-- The sum of term frequency times inverse document frequency over the words
of the list that the document has. -/
def relevanceOf (s : SearchServer R) (log : R → R) (words : List (List Char))
    (document_id : Int) : R :=
  ((words.filter (fun word => s.hasWord document_id word)).map
    (fun word => s.termFreqOf word document_id * s.idfOf log word)).sum

/-- The stored rating of a document (0 when there is none). -/
def ratingOf (s : SearchServer R) (document_id : Int) : Int :=
  match StdMap.find s.documents_ document_id with
  | some doc => doc.rating
  | none => 0

/-- The document matches the query under the predicate: it has a plus-word,
the predicate admits it, and it has no minus-word. -/
def isMatch (s : SearchServer R) (query : Query)
    (predicate : Int → DocumentStatus → Int → Bool) (document_id : Int) : Bool :=
  s.admits predicate document_id &&
    query.plus_words.any (fun word => s.hasWord document_id word) &&
    !query.minus_words.any (fun word => s.hasWord document_id word)

/-- The documents `FindAllDocuments` returns in a well-formed state: the stored
documents that match, in ascending order of id. -/
def matchedDocuments (s : SearchServer R) (log : R → R) (query : Query)
    (predicate : Int → DocumentStatus → Int → Bool) : List (Document R) :=
  ((StdMap.keys s.documents_).filter (s.isMatch query predicate)).map
    (fun d => ⟨d, s.relevanceOf log query.plus_words d, s.ratingOf d⟩)

/-- The representation invariant of the index: the maps are in key order, no
posting list is empty, and every posting belongs to a stored document. -/
structure WellFormed (s : SearchServer R) : Prop where
  documents_ordered : StdMap.Ordered s.documents_
  freqs_ordered : StdMap.Ordered s.word_to_document_freqs_
  postings_ordered : ∀ e ∈ s.word_to_document_freqs_, StdMap.Ordered e.2
  postings_nonempty : ∀ e ∈ s.word_to_document_freqs_, e.2 ≠ []
  postings_stored :
    ∀ e ∈ s.word_to_document_freqs_, ∀ p ∈ e.2, p.1 ∈ StdMap.keys s.documents_

/-- The part of the invariant that concerns the inverted index, relative to a
list of document ids. -/
def FreqsWellFormed (freqs : List (List Char × List (Int × R))) (ids : List Int) : Prop :=
  StdMap.Ordered freqs ∧ (∀ e ∈ freqs, StdMap.Ordered e.2) ∧ (∀ e ∈ freqs, e.2 ≠ []) ∧
    ∀ e ∈ freqs, ∀ p ∈ e.2, p.1 ∈ ids

/-- The state after a sequence of `AddDocument` calls. -/
def addDocuments (s : SearchServer R) :
    List (Int × List Char × DocumentStatus × List Int) → SearchServer R
  | [] => s
  | (document_id, document, status, ratings) :: rest =>
    addDocuments (s.AddDocument document_id document status ratings).2 rest

/-- The ids of the calls of a sequence that `AddDocument` accepts, in the order
of the calls; the sequence runs from the given state. -/
def acceptedIds (s : SearchServer R) :
    List (Int × List Char × DocumentStatus × List Int) → List Int
  | [] => []
  | (document_id, document, status, ratings) :: rest =>
    match (s.AddDocument document_id document status ratings).1 with
    | .ok _ =>
      document_id :: acceptedIds (s.AddDocument document_id document status ratings).2 rest
    | .error _ => acceptedIds (s.AddDocument document_id document status ratings).2 rest

end SearchServer

/-! ## Example servers -/

section Examples

variable (R : Type) [LinearOrderedField R]

/-- The state after the constructor without arguments. -/
def emptyServer : SearchServer R :=
  ⟨[], [], [], []⟩

/-- The state after the constructor called with the stop words `in the`. -/
def inTheServer : SearchServer R :=
  ⟨["in".toList, "the".toList], [], [], []⟩

/-- The server of `TestExcludeDocumentsWithMinusWordsFromSearchResult`. -/
def minusWordsServer : SearchServer R :=
  (inTheServer R).addDocuments
    [(0, "cat in the city".toList, .ACTUAL, [1, 2, 3]),
     (1, "cat in the garden".toList, .ACTUAL, [1, 2, 3])]

/-- The server of `TestCalculateDocumentRelevance`. -/
def relevanceServer : SearchServer R :=
  (emptyServer R).addDocuments
    [(0, "qwe ewq dsa".toList, .ACTUAL, [1, 2, 3]),
     (1, "qwe asd zxc dsa".toList, .ACTUAL, [1, 2, 3])]

/-- The server of the second part of `TestSortingByRelevanceAndByRating`. -/
def ratingServer : SearchServer R :=
  (emptyServer R).addDocuments
    [(0, "black cat".toList, .ACTUAL, [1]), (1, "red cat".toList, .ACTUAL, [2]),
     (2, "yellow cat".toList, .ACTUAL, [3]), (3, "gray cat".toList, .ACTUAL, [4])]

/-- The server of `TestFilterResultByStatus`. -/
def statusServer : SearchServer R :=
  (inTheServer R).addDocuments
    [(0, "black cat".toList, .ACTUAL, [1, 2, 3]),
     (1, "cat in the city".toList, .ACTUAL, [1, 2, 3]),
     (2, "city black cat".toList, .BANNED, [1, 2, 3])]

/-- Six one-word documents with the same word and ratings 1 to 6. -/
def sixCatsServer : SearchServer R :=
  (emptyServer R).addDocuments
    [(0, "cat".toList, .ACTUAL, [1]), (1, "cat".toList, .ACTUAL, [2]),
     (2, "cat".toList, .ACTUAL, [3]), (3, "cat".toList, .ACTUAL, [4]),
     (4, "cat".toList, .ACTUAL, [5]), (5, "cat".toList, .ACTUAL, [6])]

/-- The text `cat dog dog ... dog` with `n` times the word `dog`. -/
def catAndDogs (n : Nat) : List Char :=
  "cat".toList ++ (List.replicate n " dog".toList).flatten

/-- Five documents of 1001 words with rating 5, one of 1000 words with rating 1,
each with the word `cat` once, and a document without it. -/
def tieServer : SearchServer R :=
  (emptyServer R).addDocuments
    [(0, catAndDogs 1000, .ACTUAL, [5]), (1, catAndDogs 1000, .ACTUAL, [5]),
     (2, catAndDogs 1000, .ACTUAL, [5]), (3, catAndDogs 1000, .ACTUAL, [5]),
     (4, catAndDogs 1000, .ACTUAL, [5]), (5, catAndDogs 999, .ACTUAL, [1]),
     (6, "dog".toList, .ACTUAL, [1])]

/-- The rating stored with a document of the example server. -/
def tieRating (d : Int) : Int :=
  if d = 5 then 1 else 5

/-- The term frequency of `cat` in a document of the example server. -/
def tieFreq (d : Int) : R :=
  if d = 5 then 1 / 1000 else 1 / 1001

/-- The document of the example server with the given id, as the query `cat`
scores it. -/
def tieDocument (log : R → R) (d : Int) : Document R :=
  ⟨d, tieFreq R d * log (7 / 6), tieRating d⟩

/-- A predicate on the id alone: every document but the one with id 0. -/
def idPositive : Int → DocumentStatus → Int → Bool :=
  fun document_id _ _ => decide (1 ≤ document_id)

/-- The predicate of the overload of `FindTopDocuments` without a second argument. -/
def isActual : Int → DocumentStatus → Int → Bool :=
  fun _ status _ => decide (status = DocumentStatus.ACTUAL)

end Examples

/-! ## The request queue -/

/-- An entry of the deque of `RequestQueue`. -/
structure QueryResult where
  is_empty : Bool
  timestamp : Int
  deriving DecidableEq, Repr

def MIN_IN_DAY : Int := 1440

/-- The data members of `RequestQueue` that it owns.  The member `search_server_`
is a reference to a server that lives outside the queue: the member functions
below take the state of that server at the time of the call as an argument. -/
structure RequestQueue where
  requests_ : List QueryResult
  no_result_requests_ : Int
  current_time : Int
  deriving DecidableEq, Repr

namespace RequestQueue

variable {R : Type} [LinearOrderedField R]

/-- The constructor: an empty deque and both counters at 0. -/
def construct : RequestQueue :=
  ⟨[], 0, 0⟩

/-- The `while` loop of `AddQueryResult`, which pops the entries at the front
of the deque that are `MIN_IN_DAY` or more ticks old. -/
def removeOldRequests (current_time : Int) : List QueryResult → Int → List QueryResult × Int
  | [], no_result_requests_ => ([], no_result_requests_)
  | front :: rest, no_result_requests_ =>
    if current_time - front.timestamp ≥ MIN_IN_DAY then
      removeOldRequests current_time rest
        (if front.is_empty && decide (no_result_requests_ > 0) then no_result_requests_ - 1
          else no_result_requests_)
    else (front :: rest, no_result_requests_)

def AddQueryResult (q : RequestQueue) (empty : Bool) : RequestQueue :=
  let current_time := q.current_time + 1
  let requests_ := q.requests_ ++ [⟨empty, current_time⟩]
  let no_result_requests_ :=
    if empty then q.no_result_requests_ + 1 else q.no_result_requests_
  let cleaned := removeOldRequests current_time requests_ no_result_requests_
  ⟨cleaned.1, cleaned.2, current_time⟩

/-- The overload with a predicate: the value returned (or the exception of
`FindTopDocuments`, which leaves the queue as it was) and the queue after. -/
def AddFindRequest (q : RequestQueue) (search_server : SearchServer R) (log : R → R)
    (raw_query : List Char) (document_predicate : Int → DocumentStatus → Int → Bool) :
    Except Error (List (Document R)) × RequestQueue :=
  match search_server.FindTopDocuments log raw_query document_predicate with
  | .error e => (.error e, q)
  | .ok documents => (.ok documents, q.AddQueryResult documents.isEmpty)

/-- The overload with a status. -/
def AddFindRequestByStatus (q : RequestQueue) (search_server : SearchServer R) (log : R → R)
    (raw_query : List Char) (status : DocumentStatus) :
    Except Error (List (Document R)) × RequestQueue :=
  match search_server.FindTopDocumentsByStatus log raw_query status with
  | .error e => (.error e, q)
  | .ok documents => (.ok documents, q.AddQueryResult documents.isEmpty)

/-- The overload with the query only. -/
def AddFindRequestActual (q : RequestQueue) (search_server : SearchServer R) (log : R → R)
    (raw_query : List Char) : Except Error (List (Document R)) × RequestQueue :=
  match search_server.FindTopDocumentsActual log raw_query with
  | .error e => (.error e, q)
  | .ok documents => (.ok documents, q.AddQueryResult documents.isEmpty)

def GetNoResultRequests (q : RequestQueue) : Int :=
  q.no_result_requests_

/-- The queue after a sequence of `AddFindRequest` calls; each call comes with
the state of the search server at its time. -/
def addFindRequests (log : R → R) (q : RequestQueue) :
    List (SearchServer R × List Char × (Int → DocumentStatus → Int → Bool)) → RequestQueue
  | [] => q
  | (search_server, raw_query, document_predicate) :: rest =>
    addFindRequests log (q.AddFindRequest search_server log raw_query document_predicate).2 rest

/-- Whether the search of a call returned the empty sequence; `none` for a
call that threw. -/
def requestOutcome (log : R → R)
    (call : SearchServer R × List Char × (Int → DocumentStatus → Int → Bool)) : Option Bool :=
  match call.1.FindTopDocuments log call.2.1 call.2.2 with
  | .error _ => none
  | .ok documents => some documents.isEmpty

/-- The outcomes of the calls of a sequence that returned, in order. -/
def requestOutcomes (log : R → R)
    (calls : List (SearchServer R × List Char × (Int → DocumentStatus → Int → Bool))) :
    List Bool :=
  calls.filterMap (requestOutcome log)

/-- The entries for a list of outcomes, stamped with consecutive times. -/
def stamped (first : Int) : List Bool → List QueryResult
  | [] => []
  | empty :: rest => ⟨empty, first⟩ :: stamped (first + 1) rest

end RequestQueue

/-! ## The paginator -/

/-- A pair of iterators into a container, held as positions, with the distance
between them. -/
structure IteratorRange where
  begin_ : Nat
  end_ : Nat
  size_ : Nat
  deriving DecidableEq, Repr

/-- The elements a range goes through, from `begin()` up to `end()`. -/
def IteratorRange.elements {α : Type} (c : List α) (range : IteratorRange) : List α :=
  (c.drop range.begin_).take (range.end_ - range.begin_)

/-- The loop of the constructor of `Paginator`, over the positions `begin_`
and `end_`; `fuel` bounds the number of iterations, and `none` is a loop that
has not ended within the bound. -/
def Paginator.loop (end_ page_size : Nat) :
    Nat → Nat → List IteratorRange → Option (List IteratorRange)
  | 0, _, _ => none
  | fuel + 1, begin_, pages_ =>
    if begin_ ≠ end_ then
      let temp := begin_
      let begin_ := if end_ - begin_ < page_size then end_ else begin_ + page_size
      Paginator.loop end_ page_size fuel begin_ (pages_ ++ [⟨temp, begin_, begin_ - temp⟩])
    else some pages_

/-- The pages of `Paginate(c, page_size)`. -/
def Paginate {α : Type} (fuel : Nat) (c : List α) (page_size : Nat) :
    Option (List IteratorRange) :=
  Paginator.loop c.length page_size fuel 0 []

/-! ## Binary64 arithmetic -/

/-- A finite `double` that is not negative, held exactly: the value is `scaled`
times 2^-192.  Every binary64 value from 2^-128 up to 2^63 is such a multiple,
which covers 1.0 / n for a `size_t` n and the sums of such quotients. -/
structure Binary64 where
  scaled : Nat
  deriving DecidableEq, Repr

namespace Binary64

/-- The position of the leading bit of `n` (0 for `n < 2`); `fuel` bounds the
number of bits looked at. -/
def topBit : Nat → Nat → Nat
  | 0, _ => 0
  | fuel + 1, n => if n < 2 then 0 else topBit fuel (n / 2) + 1

/-- The binary64 value nearest to the quotient `num / den`, ties to the even
significand (the rounding mode of C++ `double` arithmetic): the quotient is
taken with 64 more bits and a sticky bit, and cut to the 53 bits of the
significand. -/
def roundToNearest (num den : Nat) : Binary64 :=
  let t := (num * 2 ^ 256) / den
  let sticky : Bool := (num * 2 ^ 256) % den != 0
  if t = 0 then ⟨0⟩
  else
    let drop := topBit 320 t - 52
    let q := t / 2 ^ drop
    let r := t % 2 ^ drop
    let half := 2 ^ (drop - 1)
    let up : Bool := decide (r > half) || (decide (r = half) && (sticky || q % 2 == 1))
    ⟨((if up then q + 1 else q) * 2 ^ drop) / 2 ^ 64⟩

/-- The value `0.0`. -/
def zero : Binary64 := ⟨0⟩

/-- The value `1.0`. -/
def one : Binary64 := ⟨2 ^ 192⟩

/-- The conversion of an unsigned integer to `double`. -/
def ofNat (n : Nat) : Binary64 := roundToNearest n 1

/-- The sum `a + b` of two `double`s. -/
def add (a b : Binary64) : Binary64 := roundToNearest (a.scaled + b.scaled) (2 ^ 192)

/-- The quotient `a / b` of two `double`s. -/
def div (a b : Binary64) : Binary64 := roundToNearest a.scaled b.scaled

end Binary64

/-- The statement `word_to_document_freqs_[word][document_id] += inv_word_count`
of `AddDocument` with the arithmetic of `double`. -/
def addTermFrequency64 (freqs : List (List Char × List (Int × Binary64))) (word : List Char)
    (document_id : Int) (inv_word_count : Binary64) : List (List Char × List (Int × Binary64)) :=
  StdMap.update word
    (fun postings => StdMap.update document_id
      (fun tf => Binary64.add (tf.getD Binary64.zero) inv_word_count) (postings.getD [])) freqs

/-- The statements of `AddDocument` that compute `inv_word_count` and store the
term frequencies of the words of a document, with the arithmetic of `double`. -/
def storeTermFrequencies64 (freqs : List (List Char × List (Int × Binary64)))
    (words : List (List Char)) (document_id : Int) : List (List Char × List (Int × Binary64)) :=
  words.foldl
    (fun freqs word => addTermFrequency64 freqs word document_id
      (Binary64.div (Binary64.ofNat 1) (Binary64.ofNat words.length)))
    freqs

set_option linter.unusedSectionVars false
set_option linter.unusedVariables false

/-! ## Lemmas on the containers -/

namespace StdMap

variable {K V : Type} [LinearOrder K]

theorem find_update (k k' : K) (f : Option V → V) (m : List (K × V)) :
    find (update k f m) k' = if k' = k then some (f (find m k)) else find m k' := by
  induction m with
  | nil =>
    by_cases h : k' = k
    · simp [update, find, h]
    · simp [update, find, h]
  | cons e rest ih =>
    obtain ⟨k0, v0⟩ := e
    rcases lt_trichotomy k k0 with hlt | heq | hgt
    · by_cases h : k' = k
      · subst h; simp [update, find, hlt]
      · simp only [update, hlt, if_true, find, h, if_false]
        by_cases h1 : k' < k
        · simp [h1, lt_trans h1 hlt]
        · simp [h1]
    · subst heq
      by_cases h : k' = k
      · subst h; simp [update, find]
      · simp [update, find, h]
    · have h1 : ¬ k < k0 := not_lt.mpr hgt.le
      have h2 : ¬ k = k0 := ne_of_gt hgt
      simp only [update, h1, h2, if_false, find, ih]
      by_cases h : k' = k
      · subst h; simp [h1, h2]
      · simp [h]

theorem keys_update (k : K) (f : Option V → V) (m : List (K × V)) :
    ∀ k', k' ∈ keys (update k f m) ↔ k' = k ∨ k' ∈ keys m := by
  induction m with
  | nil => intro k'; simp [update, keys]
  | cons e rest ih =>
    obtain ⟨k0, v0⟩ := e
    intro k'
    simp only [update]
    split_ifs with h1 h2
    · simp [keys]
    · subst h2; simp [keys]
    · have := ih k'
      simp only [keys] at this
      simp only [keys, List.map_cons, List.mem_cons, this]
      tauto

theorem ordered_update (k : K) (f : Option V → V) (m : List (K × V)) (h : Ordered m) :
    Ordered (update k f m) := by
  induction m with
  | nil => simp [update, Ordered, keys]
  | cons e rest ih =>
    obtain ⟨k0, v0⟩ := e
    have hc : (∀ a ∈ keys rest, k0 < a) ∧ Ordered rest := by
      simpa [Ordered, keys] using h
    simp only [update]
    split_ifs with h1 h2
    · simp only [Ordered, keys, List.map_cons, List.pairwise_cons]
      refine ⟨?_, ?_⟩
      · intro a ha
        rcases List.mem_cons.mp ha with rfl | ha
        · exact h1
        · exact lt_trans h1 (hc.1 a ha)
      · simpa [Ordered, keys] using h
    · simpa [Ordered, keys] using h
    · have h3 : k0 < k := lt_of_le_of_ne (not_lt.mp h1) (Ne.symm h2)
      simp only [Ordered, keys, List.map_cons, List.pairwise_cons]
      refine ⟨?_, ih hc.2⟩
      intro a ha
      rcases (keys_update k f rest a).mp ha with rfl | ha
      · exact h3
      · exact hc.1 a ha

theorem find_eq_none_of_lt (m : List (K × V)) (k : K) (h : ∀ a ∈ keys m, k < a) :
    find m k = none := by
  cases m with
  | nil => rfl
  | cons e rest =>
    obtain ⟨k0, v0⟩ := e
    have : k < k0 := h k0 (by simp [keys])
    simp [find, this]

theorem find_eq_some_iff (m : List (K × V)) (h : Ordered m) (k : K) (v : V) :
    find m k = some v ↔ (k, v) ∈ m := by
  induction m with
  | nil => simp [find]
  | cons e rest ih =>
    obtain ⟨k0, v0⟩ := e
    have hc : (∀ a ∈ keys rest, k0 < a) ∧ Ordered rest := by
      simpa [Ordered, keys] using h
    simp only [find, List.mem_cons, Prod.mk.injEq]
    split_ifs with h1 h2
    · constructor
      · intro h; cases h
      · rintro (⟨rfl, _⟩ | hm)
        · exact absurd h1 (lt_irrefl _)
        · have := hc.1 k (List.mem_map_of_mem Prod.fst hm)
          exact absurd (lt_trans h1 this) (lt_irrefl _)
    · subst h2
      constructor
      · intro h; left; exact ⟨rfl, (Option.some.inj h).symm⟩
      · rintro (⟨_, rfl⟩ | hm)
        · rfl
        · have := hc.1 k (List.mem_map_of_mem Prod.fst hm)
          exact absurd this (lt_irrefl _)
    · rw [ih hc.2]
      constructor
      · intro h; right; exact h
      · rintro (⟨rfl, _⟩ | hm)
        · exact absurd rfl h2
        · exact hm

theorem find_isSome_iff (m : List (K × V)) (h : Ordered m) (k : K) :
    (find m k).isSome ↔ k ∈ keys m := by
  constructor
  · intro hs
    obtain ⟨v, hv⟩ := Option.isSome_iff_exists.mp hs
    exact List.mem_map_of_mem Prod.fst ((find_eq_some_iff m h k v).mp hv)
  · intro hk
    obtain ⟨⟨k1, v⟩, hm, rfl⟩ := List.mem_map.mp hk
    rw [(find_eq_some_iff m h _ v).mpr hm]; rfl

end StdMap

namespace StdMap

variable {K V : Type} [LinearOrder K]

theorem update_ne_nil (k : K) (f : Option V → V) (m : List (K × V)) : update k f m ≠ [] := by
  cases m with
  | nil => simp [update]
  | cons e rest =>
    obtain ⟨k0, v0⟩ := e
    simp only [update]
    split_ifs <;> simp

theorem mem_update (k : K) (f : Option V → V) (m : List (K × V)) (e : K × V)
    (h : e ∈ update k f m) :
    e ∈ m ∨ e = (k, f none) ∨ ∃ v, (k, v) ∈ m ∧ e = (k, f (some v)) := by
  induction m with
  | nil =>
    right; left
    simpa [update] using h
  | cons e0 rest ih =>
    obtain ⟨k0, v0⟩ := e0
    simp only [update] at h
    split_ifs at h with h1 h2
    · rcases List.mem_cons.mp h with h | h
      · right; left; exact h
      · left; exact h
    · subst h2
      rcases List.mem_cons.mp h with h | h
      · right; right; exact ⟨v0, by simp, h⟩
      · left; exact List.mem_cons_of_mem _ h
    · rcases List.mem_cons.mp h with h | h
      · left; rw [h]; exact List.mem_cons_self _ _
      · rcases ih h with h | h | ⟨v, hv, h⟩
        · left; exact List.mem_cons_of_mem _ h
        · right; left; exact h
        · right; right; exact ⟨v, List.mem_cons_of_mem _ hv, h⟩

theorem count_ne_zero_iff (m : List (K × V)) (h : Ordered m) (k : K) :
    count m k ≠ 0 ↔ k ∈ keys m := by
  rw [← find_isSome_iff m h k]
  unfold count
  split_ifs with h1 <;> simp [h1]

theorem count_eq_zero_iff (m : List (K × V)) (k : K) :
    count m k = 0 ↔ find m k = none := by
  unfold count
  cases find m k <;> simp

end StdMap

namespace SearchServer

variable {R : Type} [LinearOrderedField R]

/-! ## The representation invariant holds in every reachable state -/

theorem addTermFrequency_wellFormed (freqs : List (List Char × List (Int × R)))
    (ids : List Int) (word : List Char) (document_id : Int) (inv_word_count : R)
    (h : FreqsWellFormed freqs ids) (hid : document_id ∈ ids) :
    FreqsWellFormed (addTermFrequency freqs word document_id inv_word_count) ids := by
  obtain ⟨h1, h2, h3, h4⟩ := h
  have key : ∀ e ∈ addTermFrequency freqs word document_id inv_word_count,
      e ∈ freqs ∨ ∃ postings : List (Int × R), StdMap.Ordered postings ∧
        (∀ p ∈ postings, p.1 ∈ ids) ∧
        e.2 = StdMap.update document_id (fun tf => tf.getD 0 + inv_word_count) postings := by
    intro e he
    rcases StdMap.mem_update _ _ _ _ he with he | he | ⟨v, hv, he⟩
    · left; exact he
    · right
      refine ⟨[], by simp [StdMap.Ordered, StdMap.keys], by simp, ?_⟩
      rw [he]; rfl
    · right
      refine ⟨v, h2 _ hv, h4 _ hv, ?_⟩
      rw [he]; rfl
  refine ⟨StdMap.ordered_update _ _ _ h1, ?_, ?_, ?_⟩
  · intro e he
    rcases key e he with he | ⟨postings, ho, _, heq⟩
    · exact h2 e he
    · rw [heq]; exact StdMap.ordered_update _ _ _ ho
  · intro e he
    rcases key e he with he | ⟨postings, _, _, heq⟩
    · exact h3 e he
    · rw [heq]; exact StdMap.update_ne_nil _ _ _
  · intro e he p hp
    rcases key e he with he | ⟨postings, _, hs, heq⟩
    · exact h4 e he p hp
    · rw [heq] at hp
      rcases (StdMap.keys_update _ _ _ p.1).mp (List.mem_map_of_mem Prod.fst hp) with h | h
      · rw [h]; exact hid
      · obtain ⟨q, hq, hqp⟩ := List.mem_map.mp h
        rw [← hqp]; exact hs q hq

theorem foldl_addTermFrequency_wellFormed (words : List (List Char))
    (freqs : List (List Char × List (Int × R))) (ids : List Int) (document_id : Int)
    (inv_word_count : R) (h : FreqsWellFormed freqs ids) (hid : document_id ∈ ids) :
    FreqsWellFormed
      (words.foldl (fun freqs word => addTermFrequency freqs word document_id inv_word_count)
        freqs) ids := by
  induction words generalizing freqs with
  | nil => exact h
  | cons w rest ih =>
    exact ih _ (addTermFrequency_wellFormed freqs ids w document_id inv_word_count h hid)

theorem FreqsWellFormed.mono {freqs : List (List Char × List (Int × R))} {ids ids2 : List Int}
    (h : FreqsWellFormed freqs ids) (hsub : ∀ i ∈ ids, i ∈ ids2) : FreqsWellFormed freqs ids2 :=
  ⟨h.1, h.2.1, h.2.2.1, fun e he p hp => hsub _ (h.2.2.2 e he p hp)⟩

theorem WellFormed.freqs {s : SearchServer R} (h : s.WellFormed) :
    FreqsWellFormed s.word_to_document_freqs_ (StdMap.keys s.documents_) :=
  ⟨h.freqs_ordered, h.postings_ordered, h.postings_nonempty, h.postings_stored⟩

/-- The four ways through `AddDocument`. -/
theorem AddDocument_def (s : SearchServer R) (document_id : Int)
    (document : List Char) (status : DocumentStatus) (ratings : List Int) :
    s.AddDocument document_id document status ratings =
      if document_id < 0 then (.error .invalid_argument, s)
      else if StdMap.count s.documents_ document_id ≠ 0 then (.error .invalid_argument, s)
      else if (s.SplitIntoWordsNoStop document).any (fun word => !IsValidWord word) then
        (.error .invalid_argument, s)
      else
        (.ok (),
          ⟨s.stop_words_,
            (s.SplitIntoWordsNoStop document).foldl
              (fun freqs word => addTermFrequency freqs word document_id
                (1 / ((s.SplitIntoWordsNoStop document).length : R)))
              s.word_to_document_freqs_,
            StdMap.emplace document_id ⟨ComputeAverageRating ratings, status⟩ s.documents_,
            s.document_ids_ ++ [document_id]⟩) := rfl

/-- A rejected call of `AddDocument` leaves the state as it was. -/
theorem AddDocument_state_of_error (s : SearchServer R) (document_id : Int)
    (document : List Char) (status : DocumentStatus) (ratings : List Int)
    (h : (s.AddDocument document_id document status ratings).1 ≠ .ok ()) :
    (s.AddDocument document_id document status ratings).2 = s := by
  rw [AddDocument_def] at h ⊢
  split_ifs at h ⊢
  · rfl
  · rfl
  · rfl
  · exact absurd rfl h

theorem AddDocument_wellFormed (s : SearchServer R) (document_id : Int)
    (document : List Char) (status : DocumentStatus) (ratings : List Int)
    (h : s.WellFormed) : (s.AddDocument document_id document status ratings).2.WellFormed := by
  rw [AddDocument_def]
  split_ifs
  · exact h
  · exact h
  · exact h
  · have hkeys : ∀ i, i ∈ StdMap.keys (StdMap.emplace document_id
        (⟨ComputeAverageRating ratings, status⟩ : DocumentData) s.documents_) ↔
        i = document_id ∨ i ∈ StdMap.keys s.documents_ := fun i =>
      StdMap.keys_update _ _ _ i
    have hf := foldl_addTermFrequency_wellFormed (s.SplitIntoWordsNoStop document)
      s.word_to_document_freqs_ _ document_id
      (1 / ((s.SplitIntoWordsNoStop document).length : R))
      (h.freqs.mono (fun i hi => (hkeys i).mpr (Or.inr hi))) ((hkeys _).mpr (Or.inl rfl))
    exact ⟨StdMap.ordered_update _ _ _ h.documents_ordered, hf.1, hf.2.1, hf.2.2.1, hf.2.2.2⟩

theorem construct_def (stop_words : List (List Char)) :
    (construct stop_words : Except Error (SearchServer R)) =
      if (MakeUniqueNonEmptyStrings stop_words).any (fun word => !IsValidWord word) then
        .error .invalid_argument
      else .ok ⟨MakeUniqueNonEmptyStrings stop_words, [], [], []⟩ := rfl

theorem construct_wellFormed (stop_words : List (List Char)) (s : SearchServer R)
    (h : construct stop_words = .ok s) : s.WellFormed := by
  rw [construct_def] at h
  split_ifs at h
  cases h
  constructor <;> simp [StdMap.Ordered, StdMap.keys]

theorem Reachable.wellFormed {s : SearchServer R} (h : Reachable s) : s.WellFormed := by
  induction h with
  | construct stop_words s hs => exact construct_wellFormed stop_words s hs
  | AddDocument s document_id document status ratings _ ih =>
    exact AddDocument_wellFormed s document_id document status ratings ih

end SearchServer

/-! ## Words and query parsing -/

theorem splitStep_nonempty (st : List (List Char) × List Char) (c : Char)
    (h : ∀ w ∈ st.1, w ≠ []) : ∀ w ∈ (splitStep st c).1, w ≠ [] := by
  unfold splitStep
  split_ifs with h1 h2
  · intro w hw
    rcases List.mem_append.mp hw with hw | hw
    · exact h w hw
    · rw [List.mem_singleton.mp hw]; exact h2
  · exact h
  · exact h

theorem foldl_splitStep_nonempty (text : List Char) (st : List (List Char) × List Char)
    (h : ∀ w ∈ st.1, w ≠ []) : ∀ w ∈ (text.foldl splitStep st).1, w ≠ [] := by
  induction text generalizing st with
  | nil => exact h
  | cons c rest ih => exact ih _ (splitStep_nonempty st c h)

/-- Every word produced by `SplitIntoWords` is non-empty. -/
theorem SplitIntoWords_nonempty (text : List Char) : ∀ w ∈ SplitIntoWords text, w ≠ [] := by
  have h := foldl_splitStep_nonempty text ([], []) (by simp)
  unfold SplitIntoWords
  simp only
  split_ifs with h1
  · intro w hw
    rcases List.mem_append.mp hw with hw | hw
    · exact h w hw
    · rw [List.mem_singleton.mp hw]; exact h1
  · exact h

theorem IsValidWord_eq_false_iff (word : List Char) :
    IsValidWord word = false ↔ InvalidTerm word := by
  unfold IsValidWord InvalidTerm
  cases word with
  | nil => simp
  | cons c rest =>
    simp only [List.isEmpty_cons, Bool.not_false, Bool.true_and, Bool.and_eq_false_iff,
      bne_eq_false_iff_eq, List.all_eq_false, Bool.not_eq_true', Bool.not_eq_false,
      Bool.and_eq_true, decide_eq_true_eq, Nat.zero_le, true_and]
    constructor
    · rintro ((h | h) | ⟨x, hx, h⟩)
      · right; left; exact h
      · right; right; left; exact h
      · right; right; right; exact ⟨x, hx, by simpa using h⟩
    · rintro (h | h | h | ⟨x, hx, h⟩)
      · cases h
      · left; left; exact h
      · left; right; exact h
      · right; exact ⟨x, hx, by simpa using h⟩

theorem IsValidWord_eq_true_iff (word : List Char) :
    IsValidWord word = true ↔ ¬ InvalidTerm word := by
  rw [← IsValidWord_eq_false_iff]
  cases IsValidWord word <;> simp

namespace SearchServer

variable {R : Type} [LinearOrderedField R]

theorem ParseQueryWord_def (s : SearchServer R) (text : List Char) :
    s.ParseQueryWord text =
      if text = [] then .error .invalid_argument
      else if !IsValidWord (stripMinus text) then .error .invalid_argument
      else .ok ⟨stripMinus text, decide (text.head? = some '-'), s.IsStopWord (stripMinus text)⟩ := by
  unfold ParseQueryWord
  cases text with
  | nil => rfl
  | cons c rest =>
    by_cases hc : c = '-'
    · subst hc; simp [stripMinus]
    · have : stripMinus (c :: rest) = c :: rest := by
        unfold stripMinus
        split
        · rename_i h; cases h; exact absurd rfl hc
        · rfl
      simp [this, hc]

theorem ParseQueryWord_error_iff (s : SearchServer R) (text : List Char) (e : Error) :
    s.ParseQueryWord text = .error e ↔ e = .invalid_argument ∧ InvalidTerm (stripMinus text) := by
  rw [ParseQueryWord_def]
  split_ifs with h1 h2
  · subst h1
    simp [stripMinus, InvalidTerm, eq_comm]
  · have : InvalidTerm (stripMinus text) := by
      rw [← IsValidWord_eq_false_iff]; simpa using h2
    simp [this, eq_comm]
  · have : ¬ InvalidTerm (stripMinus text) := by
      rw [← IsValidWord_eq_true_iff]; simpa using h2
    simp [this]

theorem parseQueryStep_error_iff (s : SearchServer R) (query : Query) (word : List Char)
    (e : Error) :
    s.parseQueryStep query word = .error e ↔
      e = .invalid_argument ∧ InvalidTerm (stripMinus word) := by
  rw [← ParseQueryWord_error_iff s]
  unfold parseQueryStep
  cases h : s.ParseQueryWord word with
  | error e2 => simp
  | ok qw =>
    simp only
    split_ifs <;> simp

theorem parseQueryLoop_error_iff (s : SearchServer R) (words : List (List Char)) (query : Query)
    (e : Error) :
    s.parseQueryLoop words query = .error e ↔
      e = .invalid_argument ∧ ∃ w ∈ words, InvalidTerm (stripMinus w) := by
  induction words generalizing query with
  | nil => simp [parseQueryLoop]
  | cons w rest ih =>
    unfold parseQueryLoop
    cases h : s.parseQueryStep query w with
    | error e2 =>
      have h2 := (parseQueryStep_error_iff s query w e2).mp h
      simp only [Except.error.injEq, List.mem_cons, exists_eq_or_imp]
      constructor
      · intro he; subst he; exact ⟨h2.1, Or.inl h2.2⟩
      · intro he; rw [he.1, h2.1]
    | ok q2 =>
      have h2 : ¬ InvalidTerm (stripMinus w) := by
        intro hi
        have := (parseQueryStep_error_iff s query w .invalid_argument).mpr ⟨rfl, hi⟩
        rw [h] at this; cases this
      simp only [ih, List.mem_cons, exists_eq_or_imp, h2, false_or]

/-- `ParseQuery` throws, and then `invalid_argument`, exactly when a token of the query
is invalid once its minus marker is removed. -/
theorem ParseQuery_error_iff (s : SearchServer R) (text : List Char) (e : Error) :
    s.ParseQuery text = .error e ↔
      e = .invalid_argument ∧ ∃ w ∈ SplitIntoWords text, InvalidTerm (stripMinus w) :=
  parseQueryLoop_error_iff s _ _ e

end SearchServer

/-! ## The passes of `FindAllDocuments` -/

namespace StdMap

variable {K V : Type} [LinearOrder K]

theorem Ordered.tail {e : K × V} {m : List (K × V)} (h : Ordered (e :: m)) :
    (∀ a ∈ keys m, e.1 < a) ∧ Ordered m := by
  simpa [Ordered, keys] using h

theorem ordered_nil : Ordered ([] : List (K × V)) := by
  simp [Ordered, keys]

theorem ordered_erase (k : K) (m : List (K × V)) (h : Ordered m) : Ordered (erase k m) := by
  unfold Ordered keys erase at *
  exact h.sublist ((List.filter_sublist m).map Prod.fst)

theorem keys_erase (k : K) (m : List (K × V)) (k' : K) :
    k' ∈ keys (erase k m) ↔ k' ≠ k ∧ k' ∈ keys m := by
  unfold keys erase
  simp only [List.mem_map, List.mem_filter, decide_eq_true_eq]
  constructor
  · rintro ⟨e, ⟨he, hne⟩, rfl⟩
    exact ⟨hne, e, he, rfl⟩
  · rintro ⟨hne, e, he, rfl⟩
    exact ⟨e, ⟨he, hne⟩, rfl⟩

theorem find_eq_none_iff (m : List (K × V)) (h : Ordered m) (k : K) :
    find m k = none ↔ k ∉ keys m := by
  rw [← find_isSome_iff m h k]
  cases find m k <;> simp

theorem find_erase (k : K) (m : List (K × V)) (h : Ordered m) (k' : K) :
    find (erase k m) k' = if k' = k then none else find m k' := by
  split_ifs with hk
  · rw [find_eq_none_iff _ (ordered_erase k m h), keys_erase]
    exact fun hh => hh.1 hk
  · cases hf : find m k' with
    | none =>
      rw [find_eq_none_iff _ (ordered_erase k m h), keys_erase]
      rw [find_eq_none_iff _ h] at hf
      exact fun hh => hf hh.2
    | some v =>
      rw [find_eq_some_iff _ (ordered_erase k m h)]
      rw [find_eq_some_iff _ h] at hf
      unfold erase
      simp only [List.mem_filter, decide_eq_true_eq]
      exact ⟨hf, hk⟩

/-- Two maps in key order with the same lookups are the same list. -/
theorem ext_of_find (m1 m2 : List (K × V)) (h1 : Ordered m1) (h2 : Ordered m2)
    (h : ∀ k, find m1 k = find m2 k) : m1 = m2 := by
  induction m1 generalizing m2 with
  | nil =>
    cases m2 with
    | nil => rfl
    | cons e rest =>
      have := h e.1
      simp [find] at this
  | cons e1 rest1 ih =>
    cases m2 with
    | nil =>
      have := h e1.1
      simp [find] at this
    | cons e2 rest2 =>
      obtain ⟨k1, v1⟩ := e1
      obtain ⟨k2, v2⟩ := e2
      have t1 := h1.tail
      have t2 := h2.tail
      have hk : k1 = k2 := by
        rcases lt_trichotomy k1 k2 with hlt | heq | hgt
        · have := h k1
          simp [find, hlt] at this
        · exact heq
        · have := h k2
          simp [find, hgt] at this
      subst hk
      have hv : v1 = v2 := by
        have := h k1
        simpa [find] using this
      subst hv
      congr 1
      apply ih _ t1.2 t2.2
      intro k
      by_cases hk : k ∈ keys rest1 ∨ k ∈ keys rest2
      · have hlt : k1 < k := by
          rcases hk with hk | hk
          · exact t1.1 k hk
          · exact t2.1 k hk
        have := h k
        simpa [find, not_lt.mpr hlt.le, ne_of_gt hlt] using this
      · rw [not_or] at hk
        rw [(find_eq_none_iff _ t1.2 k).mpr hk.1, (find_eq_none_iff _ t2.2 k).mpr hk.2]

end StdMap

namespace SearchServer

variable {R : Type} [LinearOrderedField R]

theorem atKey_eq_ok {K V : Type} [LinearOrder K] (m : List (K × V)) (k : K) (v : V)
    (h : StdMap.find m k = some v) : StdMap.atKey m k = .ok v := by
  unfold StdMap.atKey; rw [h]

theorem find_documents_of_mem (s : SearchServer R) (hdocs : StdMap.Ordered s.documents_)
    (d : Int) (h : d ∈ StdMap.keys s.documents_) :
    ∃ doc, StdMap.find s.documents_ d = some doc :=
  Option.isSome_iff_exists.mp ((StdMap.find_isSome_iff _ hdocs d).mpr h)

theorem accumulatePostings_spec (s : SearchServer R)
    (predicate : Int → DocumentStatus → Int → Bool) (idf : R)
    (hdocs : StdMap.Ordered s.documents_) (postings : List (Int × R)) :
    ∀ (rel : List (Int × R)), StdMap.Ordered postings →
      (∀ p ∈ postings, p.1 ∈ StdMap.keys s.documents_) → StdMap.Ordered rel →
      ∃ rel2, s.accumulatePostings predicate idf postings rel = .ok rel2 ∧
        StdMap.Ordered rel2 ∧
        ∀ d, StdMap.find rel2 d =
          if d ∈ StdMap.keys postings ∧ s.admits predicate d = true then
            some ((StdMap.find rel d).getD 0 + (StdMap.find postings d).getD 0 * idf)
          else StdMap.find rel d := by
  induction postings with
  | nil =>
    intro rel _ _ hrel
    exact ⟨rel, rfl, hrel, fun d => by simp [StdMap.keys]⟩
  | cons e rest ih =>
    obtain ⟨d0, tf0⟩ := e
    intro rel hord hstored hrel
    have ht := hord.tail
    obtain ⟨doc, hdoc⟩ := find_documents_of_mem s hdocs d0 (hstored (d0, tf0) (by simp))
    have hadm : s.admits predicate d0 = predicate d0 doc.status doc.rating := by
      unfold admits; rw [hdoc]
    have hrel1 : StdMap.Ordered (if predicate d0 doc.status doc.rating = true then
        StdMap.update d0 (fun r => r.getD 0 + tf0 * idf) rel else rel) := by
      split_ifs
      · exact StdMap.ordered_update _ _ _ hrel
      · exact hrel
    obtain ⟨rel2, h1, h2, h3⟩ := ih _ ht.2
      (fun p hp => hstored p (List.mem_cons_of_mem _ hp)) hrel1
    refine ⟨rel2, ?_, h2, ?_⟩
    · unfold accumulatePostings
      rw [atKey_eq_ok _ _ _ hdoc]
      exact h1
    · intro d
      rw [h3 d]
      by_cases hd : d = d0
      · subst hd
        have hnot : d ∉ StdMap.keys rest := fun hm => lt_irrefl _ (ht.1 d hm)
        have hk : d ∈ StdMap.keys ((d, tf0) :: rest) := by simp [StdMap.keys]
        have hfd : StdMap.find ((d, tf0) :: rest) d = some tf0 := by simp [StdMap.find]
        rw [if_neg (fun hh => hnot hh.1), hfd, hadm]
        by_cases hp : predicate d doc.status doc.rating = true
        · rw [if_pos hp, if_pos ⟨hk, hp⟩, StdMap.find_update]; simp
        · rw [if_neg hp, if_neg (fun hh => hp hh.2)]
      · have hfind1 : StdMap.find (if predicate d0 doc.status doc.rating = true then
            StdMap.update d0 (fun r => r.getD 0 + tf0 * idf) rel else rel) d =
            StdMap.find rel d := by
          split_ifs
          · rw [StdMap.find_update]; simp [hd]
          · rfl
        have hkeys : d ∈ StdMap.keys ((d0, tf0) :: rest) ↔ d ∈ StdMap.keys rest := by
          simp [StdMap.keys, hd]
        rw [hfind1]
        by_cases hm : d ∈ StdMap.keys rest
        · have hlt : d0 < d := ht.1 d hm
          simp [hkeys, hm, StdMap.find, not_lt.mpr hlt.le, hd]
        · simp [hkeys, hm]

theorem postingsOf_wellFormed (s : SearchServer R) (h : s.WellFormed) (word : List Char) :
    StdMap.Ordered (s.postingsOf word) ∧
      ∀ p ∈ s.postingsOf word, p.1 ∈ StdMap.keys s.documents_ := by
  unfold postingsOf
  cases hf : StdMap.find s.word_to_document_freqs_ word with
  | none => simp [StdMap.ordered_nil]
  | some ps =>
    have hm := (StdMap.find_eq_some_iff _ h.freqs_ordered word ps).mp hf
    exact ⟨h.postings_ordered _ hm, h.postings_stored _ hm⟩

theorem relevanceOf_cons (s : SearchServer R) (log : R → R) (word : List Char)
    (words : List (List Char)) (d : Int) :
    s.relevanceOf log (word :: words) d =
      (if s.hasWord d word = true then s.termFreqOf word d * s.idfOf log word else 0) +
        s.relevanceOf log words d := by
  unfold relevanceOf
  by_cases h : s.hasWord d word = true
  · simp [List.filter_cons, h]
  · simp [List.filter_cons, h]

theorem relevanceOf_eq_zero (s : SearchServer R) (log : R → R) (words : List (List Char))
    (d : Int) (h : words.any (fun w => s.hasWord d w) = false) :
    s.relevanceOf log words d = 0 := by
  unfold relevanceOf
  have : words.filter (fun word => s.hasWord d word) = [] := by
    rw [List.filter_eq_nil_iff]
    intro w hw hh
    have := List.any_eq_true.mpr ⟨w, hw, hh⟩
    rw [h] at this; cases this
  rw [this]; rfl

theorem accumulatePlusWords_spec (s : SearchServer R) (log : R → R)
    (predicate : Int → DocumentStatus → Int → Bool) (h : s.WellFormed)
    (words : List (List Char)) :
    ∀ (rel : List (Int × R)), StdMap.Ordered rel →
      ∃ rel2, s.accumulatePlusWords log predicate words rel = .ok rel2 ∧
        StdMap.Ordered rel2 ∧
        ∀ d, StdMap.find rel2 d =
          if s.admits predicate d = true ∧ words.any (fun w => s.hasWord d w) = true then
            some ((StdMap.find rel d).getD 0 + s.relevanceOf log words d)
          else StdMap.find rel d := by
  induction words with
  | nil =>
    intro rel hrel
    exact ⟨rel, rfl, hrel, fun d => by simp⟩
  | cons w rest ih =>
    intro rel hrel
    by_cases hc : StdMap.count s.word_to_document_freqs_ w = 0
    · have hnone := (StdMap.count_eq_zero_iff _ _).mp hc
      have hno : ∀ d, s.hasWord d w = false := by
        intro d; unfold hasWord postingsOf; rw [hnone]; simp [StdMap.keys]
      obtain ⟨rel2, h1, h2, h3⟩ := ih rel hrel
      refine ⟨rel2, ?_, h2, ?_⟩
      · unfold accumulatePlusWords; rw [if_pos hc]; exact h1
      · intro d
        rw [h3 d, relevanceOf_cons]
        simp [hno d]
    · obtain ⟨ps, hps⟩ : ∃ ps, StdMap.find s.word_to_document_freqs_ w = some ps := by
        cases hf : StdMap.find s.word_to_document_freqs_ w with
        | none => exact absurd ((StdMap.count_eq_zero_iff _ _).mpr hf) hc
        | some ps => exact ⟨ps, rfl⟩
      have hpost : s.postingsOf w = ps := by unfold postingsOf; rw [hps]; rfl
      have hwf := postingsOf_wellFormed s h w
      rw [hpost] at hwf
      obtain ⟨rel1, a1, a2, a3⟩ := accumulatePostings_spec s predicate (s.idfOf log w)
        h.documents_ordered ps rel hwf.1 hwf.2 hrel
      obtain ⟨rel2, h1, h2, h3⟩ := ih rel1 a2
      refine ⟨rel2, ?_, h2, ?_⟩
      · unfold accumulatePlusWords
        rw [if_neg hc]
        unfold ComputeWordInverseDocumentFreq
        rw [atKey_eq_ok _ _ _ hps]
        simp only
        have : log ((s.GetDocumentCount : R) * 1 / (ps.length : R)) = s.idfOf log w := by
          unfold idfOf; rw [hpost]
        rw [this, a1]
        exact h1
      · intro d
        rw [h3 d, a3 d, relevanceOf_cons]
        have hw : s.hasWord d w = true ↔ d ∈ StdMap.keys ps := by
          unfold hasWord; rw [hpost]; simp
        have htf : s.termFreqOf w d = (StdMap.find ps d).getD 0 := by
          unfold termFreqOf; rw [hpost]
        by_cases hadm : s.admits predicate d = true
        · by_cases hd : d ∈ StdMap.keys ps
          · cases hany : rest.any (fun w => s.hasWord d w) with
            | true =>
              simp only [hadm, hd, hw.mpr hd, htf, hany, List.any_cons, Bool.true_or, and_self,
                if_true, Option.getD_some, add_assoc]
            | false =>
              simp only [hadm, hd, hw.mpr hd, htf, hany, List.any_cons, Bool.true_or, and_self,
                if_true, Option.getD_some, and_false, if_false, Bool.false_eq_true,
                relevanceOf_eq_zero s log rest d hany, add_zero]
          · have hw2 : s.hasWord d w = false := by
              rw [← Bool.not_eq_true, hw]; exact hd
            simp [hadm, hd, hw2]
        · simp [hadm]

end SearchServer

namespace SearchServer

variable {R : Type} [LinearOrderedField R]

theorem foldl_erase_spec (postings : List (Int × R)) :
    ∀ (rel : List (Int × R)), StdMap.Ordered rel →
      StdMap.Ordered (postings.foldl (fun rel posting => StdMap.erase posting.1 rel) rel) ∧
      ∀ d, StdMap.find (postings.foldl (fun rel posting => StdMap.erase posting.1 rel) rel) d =
        if d ∈ StdMap.keys postings then none else StdMap.find rel d := by
  induction postings with
  | nil => intro rel hrel; exact ⟨hrel, fun d => by simp [StdMap.keys]⟩
  | cons p rest ih =>
    intro rel hrel
    obtain ⟨h1, h2⟩ := ih (StdMap.erase p.1 rel) (StdMap.ordered_erase _ _ hrel)
    refine ⟨h1, fun d => ?_⟩
    simp only [List.foldl_cons]
    rw [h2 d, StdMap.find_erase _ _ hrel]
    by_cases hd : d = p.1
    · simp [hd, StdMap.keys]
    · have hiff : d ∈ StdMap.keys (p :: rest) ↔ d ∈ StdMap.keys rest := by
        simp [StdMap.keys, hd]
      rw [if_neg hd]
      by_cases hm : d ∈ StdMap.keys rest
      · rw [if_pos hm, if_pos (hiff.mpr hm)]
      · rw [if_neg hm, if_neg (fun hh => hm (hiff.mp hh))]

theorem eraseMinusWords_spec (s : SearchServer R) (words : List (List Char)) :
    ∀ (rel : List (Int × R)), StdMap.Ordered rel →
      ∃ rel2, s.eraseMinusWords words rel = .ok rel2 ∧ StdMap.Ordered rel2 ∧
        ∀ d, StdMap.find rel2 d =
          if words.any (fun w => s.hasWord d w) = true then none else StdMap.find rel d := by
  induction words with
  | nil => intro rel hrel; exact ⟨rel, rfl, hrel, fun d => by simp⟩
  | cons w rest ih =>
    intro rel hrel
    by_cases hc : StdMap.count s.word_to_document_freqs_ w = 0
    · have hnone := (StdMap.count_eq_zero_iff _ _).mp hc
      have hno : ∀ d, s.hasWord d w = false := by
        intro d; unfold hasWord postingsOf; rw [hnone]; simp [StdMap.keys]
      obtain ⟨rel2, h1, h2, h3⟩ := ih rel hrel
      refine ⟨rel2, ?_, h2, ?_⟩
      · unfold eraseMinusWords; rw [if_pos hc]; exact h1
      · intro d; rw [h3 d]; simp [hno d]
    · obtain ⟨ps, hps⟩ : ∃ ps, StdMap.find s.word_to_document_freqs_ w = some ps := by
        cases hf : StdMap.find s.word_to_document_freqs_ w with
        | none => exact absurd ((StdMap.count_eq_zero_iff _ _).mpr hf) hc
        | some ps => exact ⟨ps, rfl⟩
      have hpost : s.postingsOf w = ps := by unfold postingsOf; rw [hps]; rfl
      obtain ⟨e1, e2⟩ := foldl_erase_spec ps rel hrel
      obtain ⟨rel2, h1, h2, h3⟩ := ih _ e1
      refine ⟨rel2, ?_, h2, ?_⟩
      · unfold eraseMinusWords
        rw [if_neg hc, atKey_eq_ok _ _ _ hps]
        exact h1
      · intro d
        rw [h3 d, e2 d]
        have hw : s.hasWord d w = true ↔ d ∈ StdMap.keys ps := by
          unfold hasWord; rw [hpost]; simp
        by_cases hd : d ∈ StdMap.keys ps
        · simp [hd, hw.mpr hd]
        · have hw2 : s.hasWord d w = false := by
            rw [← Bool.not_eq_true, hw]; exact hd
          simp [hd, hw2]

theorem collectDocuments_spec (s : SearchServer R) (hdocs : StdMap.Ordered s.documents_)
    (rel : List (Int × R)) (h : ∀ e ∈ rel, e.1 ∈ StdMap.keys s.documents_) :
    s.collectDocuments rel = .ok (rel.map (fun e => ⟨e.1, e.2, s.ratingOf e.1⟩)) := by
  induction rel with
  | nil => rfl
  | cons e rest ih =>
    obtain ⟨d, r⟩ := e
    obtain ⟨doc, hdoc⟩ := find_documents_of_mem s hdocs d (h (d, r) (by simp))
    unfold collectDocuments
    rw [atKey_eq_ok _ _ _ hdoc, ih (fun e he => h e (List.mem_cons_of_mem _ he))]
    simp only [List.map_cons, ratingOf, hdoc]

theorem admits_mem_keys (s : SearchServer R) (hdocs : StdMap.Ordered s.documents_)
    (predicate : Int → DocumentStatus → Int → Bool) (d : Int)
    (h : s.admits predicate d = true) : d ∈ StdMap.keys s.documents_ := by
  unfold admits at h
  cases hf : StdMap.find s.documents_ d with
  | none => rw [hf] at h; cases h
  | some doc => exact (StdMap.find_isSome_iff _ hdocs d).mp (by rw [hf]; rfl)

/-- The relevance map as a list: the stored ids that match, in ascending order,
each with its relevance. -/
theorem matchList_spec (s : SearchServer R) (log : R → R) (query : Query)
    (predicate : Int → DocumentStatus → Int → Bool) (hdocs : StdMap.Ordered s.documents_) :
    StdMap.Ordered (((StdMap.keys s.documents_).filter (s.isMatch query predicate)).map
        (fun d => (d, s.relevanceOf log query.plus_words d))) ∧
      ∀ d, StdMap.find (((StdMap.keys s.documents_).filter (s.isMatch query predicate)).map
        (fun d => (d, s.relevanceOf log query.plus_words d))) d =
          if s.isMatch query predicate d = true then some (s.relevanceOf log query.plus_words d)
          else none := by
  have hord : StdMap.Ordered (((StdMap.keys s.documents_).filter (s.isMatch query predicate)).map
        (fun d => (d, s.relevanceOf log query.plus_words d))) := by
    unfold StdMap.Ordered
    have : StdMap.keys (((StdMap.keys s.documents_).filter (s.isMatch query predicate)).map
        (fun d => (d, s.relevanceOf log query.plus_words d))) =
        (StdMap.keys s.documents_).filter (s.isMatch query predicate) := by
      unfold StdMap.keys
      rw [List.map_map]
      exact List.map_id _
    rw [this]
    exact hdocs.sublist (List.filter_sublist _)
  refine ⟨hord, fun d => ?_⟩
  split_ifs with hm
  · rw [StdMap.find_eq_some_iff _ hord]
    refine List.mem_map.mpr ⟨d, List.mem_filter.mpr ⟨?_, hm⟩, rfl⟩
    unfold isMatch at hm
    simp only [Bool.and_eq_true] at hm
    exact admits_mem_keys s hdocs predicate d hm.1.1
  · rw [StdMap.find_eq_none_iff _ hord]
    intro hk
    obtain ⟨e, he, hed⟩ := List.mem_map.mp hk
    obtain ⟨d2, hd2, rfl⟩ := List.mem_map.mp he
    simp only at hed
    subst hed
    exact hm (List.mem_filter.mp hd2).2

/-- In a well-formed state `FindAllDocuments` returns, in ascending order of id,
the stored documents that match, each with its relevance and rating. -/
theorem FindAllDocuments_eq (s : SearchServer R) (log : R → R) (query : Query)
    (predicate : Int → DocumentStatus → Int → Bool) (h : s.WellFormed) :
    s.FindAllDocuments log query predicate =
      .ok (((StdMap.keys s.documents_).filter (s.isMatch query predicate)).map
        (fun d => ⟨d, s.relevanceOf log query.plus_words d, s.ratingOf d⟩)) := by
  obtain ⟨rel1, a1, a2, a3⟩ :=
    accumulatePlusWords_spec s log predicate h query.plus_words [] StdMap.ordered_nil
  obtain ⟨rel2, b1, b2, b3⟩ := eraseMinusWords_spec s query.minus_words rel1 a2
  obtain ⟨m1, m2⟩ := matchList_spec s log query predicate h.documents_ordered
  have hrel : rel2 = ((StdMap.keys s.documents_).filter (s.isMatch query predicate)).map
        (fun d => (d, s.relevanceOf log query.plus_words d)) := by
    apply StdMap.ext_of_find _ _ b2 m1
    intro d
    rw [m2 d, b3 d, a3 d]
    unfold isMatch
    cases h1 : s.admits predicate d <;>
      cases h2 : query.plus_words.any (fun w => s.hasWord d w) <;>
      cases h3 : query.minus_words.any (fun w => s.hasWord d w) <;>
      simp [StdMap.find]
  unfold FindAllDocuments
  rw [a1]
  simp only
  rw [b1]
  simp only
  rw [collectDocuments_spec s h.documents_ordered]
  · rw [hrel, List.map_map]
    rfl
  · intro e he
    rw [hrel] at he
    obtain ⟨d, hd, rfl⟩ := List.mem_map.mp he
    exact (List.mem_filter.mp hd).1

end SearchServer

/-! ## Insertion sort -/

section Sorting

variable {α : Type}

theorem linearInsert_perm (comp : α → α → Bool) (val : α) (l : List α) :
    (linearInsert comp val l).Perm (val :: l) := by
  induction l with
  | nil => exact List.Perm.refl _
  | cons x rest ih =>
    unfold linearInsert
    split_ifs
    · exact (List.Perm.cons x ih).trans (List.Perm.swap val x rest)
    · exact List.Perm.refl _

theorem insertionStep_perm (comp : α → α → Bool) (sortedRev : List α) (val : α) :
    (insertionStep comp sortedRev val).Perm (val :: sortedRev) := by
  unfold insertionStep
  cases h : sortedRev.getLast? with
  | none =>
    have : sortedRev = [] := List.getLast?_eq_none_iff.mp h
    subst this
    exact List.Perm.refl _
  | some first =>
    simp only
    split_ifs
    · exact List.perm_append_singleton val sortedRev
    · exact linearInsert_perm comp val sortedRev

theorem foldl_insertionStep_perm (comp : α → α → Bool) (l : List α) :
    ∀ acc : List α, (l.foldl (insertionStep comp) acc).Perm (l ++ acc) := by
  induction l with
  | nil => intro acc; exact List.Perm.refl _
  | cons x rest ih =>
    intro acc
    simp only [List.foldl_cons, List.cons_append]
    refine (ih _).trans ?_
    refine (List.Perm.append_left rest (insertionStep_perm comp acc x)).trans ?_
    exact List.perm_middle

/-- The sorted sequence is a rearrangement of the given one. -/
theorem stdSort_perm (comp : α → α → Bool) (l : List α) : (stdSort comp l).Perm l := by
  unfold stdSort
  refine (List.reverse_perm _).trans ?_
  simpa using foldl_insertionStep_perm comp l []

theorem head?_linearInsert (comp : α → α → Bool) (val : α) (l : List α) :
    ∀ y ∈ (linearInsert comp val l).head?, y = val ∨ y ∈ l.head? := by
  cases l with
  | nil => intro y hy; left; simpa [linearInsert, eq_comm] using hy
  | cons x rest =>
    intro y hy
    unfold linearInsert at hy
    split_ifs at hy
    · right; simpa using hy
    · left; simpa [eq_comm] using hy

theorem linearInsert_chain (comp : α → α → Bool)
    (hasym : ∀ a b, comp a b = true → comp b a = false) (val : α) (l : List α)
    (h : l.Chain' (fun x y => comp x y = false)) :
    (linearInsert comp val l).Chain' (fun x y => comp x y = false) := by
  induction l with
  | nil => exact List.chain'_singleton val
  | cons x rest ih =>
    have hc := List.chain'_cons'.mp h
    unfold linearInsert
    split_ifs with hv
    · refine List.chain'_cons'.mpr ⟨?_, ih hc.2⟩
      intro y hy
      rcases head?_linearInsert comp val rest y hy with rfl | hy
      · exact hasym _ _ hv
      · exact hc.1 y hy
    · refine List.chain'_cons'.mpr ⟨?_, h⟩
      intro y hy
      have : y = x := by simpa [eq_comm] using hy
      rw [this]
      simpa using hv

theorem insertionStep_chain (comp : α → α → Bool)
    (hasym : ∀ a b, comp a b = true → comp b a = false) (sortedRev : List α) (val : α)
    (h : sortedRev.Chain' (fun x y => comp x y = false)) :
    (insertionStep comp sortedRev val).Chain' (fun x y => comp x y = false) := by
  unfold insertionStep
  cases hl : sortedRev.getLast? with
  | none => exact List.chain'_singleton val
  | some first =>
    simp only
    split_ifs with hv
    · refine List.chain'_append.mpr ⟨h, List.chain'_singleton val, ?_⟩
      intro x hx y hy
      have hx2 : x = first := by
        rw [hl] at hx; simpa [eq_comm] using hx
      have hy2 : y = val := by simpa [eq_comm] using hy
      rw [hx2, hy2]
      exact hasym _ _ hv
    · exact linearInsert_chain comp hasym val sortedRev h

theorem foldl_insertionStep_chain (comp : α → α → Bool)
    (hasym : ∀ a b, comp a b = true → comp b a = false) (l : List α) :
    ∀ acc : List α, acc.Chain' (fun x y => comp x y = false) →
      (l.foldl (insertionStep comp) acc).Chain' (fun x y => comp x y = false) := by
  induction l with
  | nil => intro acc h; exact h
  | cons x rest ih =>
    intro acc h
    exact ih _ (insertionStep_chain comp hasym acc x h)

/-- In the sorted sequence no element goes before its predecessor, whatever the
comparison is, as long as it is asymmetric. -/
theorem stdSort_chain (comp : α → α → Bool)
    (hasym : ∀ a b, comp a b = true → comp b a = false) (l : List α) :
    (stdSort comp l).Chain' (fun a b => comp b a = false) := by
  unfold stdSort
  rw [List.chain'_reverse]
  exact foldl_insertionStep_chain comp hasym l [] List.chain'_nil

theorem linearInsert_pairwise (comp : α → α → Bool) (P : α → Prop)
    (hasym : ∀ a b, comp a b = true → comp b a = false)
    (htrans : ∀ a b c, P a → P b → P c → comp a b = false → comp b c = false →
      comp a c = false)
    (val : α) (hval : P val) (l : List α) (hl : ∀ x ∈ l, P x)
    (h : l.Pairwise (fun x y => comp x y = false)) :
    (linearInsert comp val l).Pairwise (fun x y => comp x y = false) := by
  induction l with
  | nil => simp [linearInsert]
  | cons x rest ih =>
    have hc := List.pairwise_cons.mp h
    have hx : P x := hl x (List.mem_cons_self _ _)
    have hrest : ∀ y ∈ rest, P y := fun y hy => hl y (List.mem_cons_of_mem _ hy)
    unfold linearInsert
    split_ifs with hv
    · refine List.pairwise_cons.mpr ⟨?_, ih hrest hc.2⟩
      intro y hy
      rcases List.mem_cons.mp ((linearInsert_perm comp val rest).subset hy) with rfl | hy
      · exact hasym _ _ hv
      · exact hc.1 y hy
    · refine List.pairwise_cons.mpr ⟨?_, h⟩
      intro y hy
      have hvx : comp val x = false := by simpa using hv
      rcases List.mem_cons.mp hy with rfl | hy
      · exact hvx
      · exact htrans val x y hval hx (hrest y hy) hvx (hc.1 y hy)

theorem insertionStep_pairwise (comp : α → α → Bool) (P : α → Prop)
    (hasym : ∀ a b, comp a b = true → comp b a = false)
    (htrans : ∀ a b c, P a → P b → P c → comp a b = false → comp b c = false →
      comp a c = false)
    (sortedRev : List α) (val : α) (hval : P val) (hl : ∀ x ∈ sortedRev, P x)
    (h : sortedRev.Pairwise (fun x y => comp x y = false)) :
    (insertionStep comp sortedRev val).Pairwise (fun x y => comp x y = false) := by
  unfold insertionStep
  cases hlast : sortedRev.getLast? with
  | none => simp
  | some first =>
    simp only
    split_ifs with hv
    · refine List.pairwise_append.mpr ⟨h, List.pairwise_singleton _ _, ?_⟩
      intro x hx y hy
      rw [List.mem_singleton.mp hy]
      have hfv : comp first val = false := hasym _ _ hv
      obtain ⟨init, hinit⟩ : ∃ init, sortedRev = init ++ [first] := by
        have hne : sortedRev ≠ [] := by
          intro hnil; rw [hnil] at hlast; cases hlast
        refine ⟨sortedRev.dropLast, ?_⟩
        have h1 := List.dropLast_append_getLast hne
        have h2 : sortedRev.getLast hne = first := by
          have := List.getLast?_eq_getLast sortedRev hne
          rw [hlast] at this
          exact (Option.some.inj this).symm
        rw [h2] at h1
        exact h1.symm
      have hfirst : P first := hl first (by rw [hinit]; simp)
      rw [hinit] at hx h
      rcases List.mem_append.mp hx with hx1 | hx1
      · have hxf : comp x first = false :=
          (List.pairwise_append.mp h).2.2 x hx1 first (List.mem_singleton_self _)
        exact htrans x first val (hl x (by rw [hinit]; exact List.mem_append_left _ hx1))
          hfirst hval hxf hfv
      · rw [List.mem_singleton.mp hx1]; exact hfv
    · exact linearInsert_pairwise comp P hasym htrans val hval sortedRev hl h

theorem foldl_insertionStep_pairwise (comp : α → α → Bool) (P : α → Prop)
    (hasym : ∀ a b, comp a b = true → comp b a = false)
    (htrans : ∀ a b c, P a → P b → P c → comp a b = false → comp b c = false →
      comp a c = false)
    (l : List α) (hl : ∀ x ∈ l, P x) :
    ∀ acc : List α, (∀ x ∈ acc, P x) → acc.Pairwise (fun x y => comp x y = false) →
      (l.foldl (insertionStep comp) acc).Pairwise (fun x y => comp x y = false) := by
  induction l with
  | nil => intro acc _ h; exact h
  | cons x rest ih =>
    intro acc hacc h
    have hx : P x := hl x (List.mem_cons_self _ _)
    refine ih (fun y hy => hl y (List.mem_cons_of_mem _ hy)) _ ?_
      (insertionStep_pairwise comp P hasym htrans acc x hx hacc h)
    intro y hy
    rcases List.mem_cons.mp ((insertionStep_perm comp acc x).subset hy) with rfl | hy
    · exact hx
    · exact hacc y hy

/-- When "does not go before" is transitive on the elements sorted (the
comparison is a strict weak ordering on them), no element of the sorted
sequence goes before an earlier one. -/
theorem stdSort_pairwise (comp : α → α → Bool)
    (hasym : ∀ a b, comp a b = true → comp b a = false) (l : List α)
    (htrans : ∀ a b c, a ∈ l → b ∈ l → c ∈ l → comp a b = false → comp b c = false →
      comp a c = false) :
    (stdSort comp l).Pairwise (fun a b => comp b a = false) := by
  unfold stdSort
  rw [List.pairwise_reverse]
  exact foldl_insertionStep_pairwise comp (fun x => x ∈ l) hasym htrans l (fun x hx => hx) []
    (by simp) List.Pairwise.nil

end Sorting

/-! ## The comparison of `FindTopDocuments` -/

section Comparison

variable {R : Type} [LinearOrderedField R]

theorem EPSILON_pos : (0 : R) < EPSILON := by
  unfold EPSILON; positivity

theorem compareDocuments_eq_false_iff (a b : Document R) :
    compareDocuments a b = false ↔
      (|a.relevance - b.relevance| < EPSILON ∧ a.rating ≤ b.rating) ∨
      (¬ |a.relevance - b.relevance| < EPSILON ∧ a.relevance ≤ b.relevance) := by
  unfold compareDocuments
  split_ifs with h
  · simp [h]
  · simp [h]

theorem compareDocuments_asymm (a b : Document R) (h : compareDocuments a b = true) :
    compareDocuments b a = false := by
  rw [compareDocuments_eq_false_iff]
  unfold compareDocuments at h
  rw [abs_sub_comm b.relevance a.relevance]
  split_ifs at h with hc
  · left; exact ⟨hc, le_of_lt (by simpa using h)⟩
  · right; exact ⟨hc, le_of_lt (by simpa using h)⟩

/-- When closeness of relevances is transitive on a set of documents, "does not
go before" is transitive on it. -/
theorem compareDocuments_negTrans (P : Document R → Prop)
    (hclose : ∀ a b c, P a → P b → P c → |a.relevance - b.relevance| < EPSILON →
      |b.relevance - c.relevance| < EPSILON → |a.relevance - c.relevance| < EPSILON)
    (a b c : Document R) (ha : P a) (hb : P b) (hc : P c)
    (hab : compareDocuments a b = false) (hbc : compareDocuments b c = false) :
    compareDocuments a c = false := by
  rw [compareDocuments_eq_false_iff] at hab hbc ⊢
  rcases hab with ⟨c1, r1⟩ | ⟨c1, r1⟩ <;> rcases hbc with ⟨c2, r2⟩ | ⟨c2, r2⟩
  · left; exact ⟨hclose a b c ha hb hc c1 c2, le_trans r1 r2⟩
  · right
    have hfar : ¬ |a.relevance - c.relevance| < EPSILON := by
      intro hac
      apply c2
      have := hclose b a c hb ha hc (by rw [abs_sub_comm]; exact c1) hac
      exact this
    refine ⟨hfar, ?_⟩
    by_contra hlt
    rw [not_le] at hlt
    rw [not_lt] at c2
    rw [abs_lt] at c1
    have h2 : b.relevance - c.relevance ≤ 0 := by linarith
    rw [abs_of_nonpos h2] at c2
    linarith [c1.1, c1.2]
  · right
    have hfar : ¬ |a.relevance - c.relevance| < EPSILON := by
      intro hac
      apply c1
      exact hclose a c b ha hc hb hac (by rw [abs_sub_comm]; exact c2)
    refine ⟨hfar, ?_⟩
    by_contra hlt
    rw [not_le] at hlt
    rw [not_lt] at c1
    rw [abs_lt] at c2
    have h2 : a.relevance - b.relevance ≤ 0 := by linarith
    rw [abs_of_nonpos h2] at c1
    linarith [c2.1, c2.2]
  · right
    rw [not_lt] at c1 c2
    have h1 : a.relevance - b.relevance ≤ 0 := by linarith
    have h2 : b.relevance - c.relevance ≤ 0 := by linarith
    rw [abs_of_nonpos h1] at c1
    rw [abs_of_nonpos h2] at c2
    have h3 : a.relevance - c.relevance ≤ 0 := by linarith
    have hpos : (0 : R) < EPSILON := EPSILON_pos
    refine ⟨?_, by linarith⟩
    rw [not_lt, abs_of_nonpos h3]
    linarith

end Comparison

namespace SearchServer

variable {R : Type} [LinearOrderedField R]

/-- In a reachable state a query that parses is answered: the matching
documents, sorted, at most five of them. -/
theorem FindTopDocuments_eq (s : SearchServer R) (hs : Reachable s) (log : R → R)
    (raw_query : List Char) (predicate : Int → DocumentStatus → Int → Bool) (query : Query)
    (hq : s.ParseQuery raw_query = .ok query) :
    s.FindTopDocuments log raw_query predicate =
      .ok ((stdSort compareDocuments (s.matchedDocuments log query predicate)).take
        MAX_RESULT_DOCUMENT_COUNT) := by
  unfold FindTopDocuments
  rw [hq]
  simp only
  rw [FindAllDocuments_eq s log query predicate hs.wellFormed]
  rfl

theorem mem_matchedDocuments (s : SearchServer R) (log : R → R) (query : Query)
    (predicate : Int → DocumentStatus → Int → Bool) (doc : Document R) :
    doc ∈ s.matchedDocuments log query predicate ↔
      doc.id ∈ StdMap.keys s.documents_ ∧ s.isMatch query predicate doc.id = true ∧
      doc.relevance = s.relevanceOf log query.plus_words doc.id ∧
      doc.rating = s.ratingOf doc.id := by
  unfold matchedDocuments
  simp only [List.mem_map, List.mem_filter]
  constructor
  · rintro ⟨d, ⟨h1, h2⟩, rfl⟩
    exact ⟨h1, h2, rfl, rfl⟩
  · rintro ⟨h1, h2, h3, h4⟩
    refine ⟨doc.id, ⟨h1, h2⟩, ?_⟩
    cases doc
    simp only at h3 h4
    simp [h3, h4]

theorem mem_of_mem_top (s : SearchServer R) (log : R → R) (query : Query)
    (predicate : Int → DocumentStatus → Int → Bool) (doc : Document R)
    (h : doc ∈ (stdSort compareDocuments (s.matchedDocuments log query predicate)).take
        MAX_RESULT_DOCUMENT_COUNT) :
    doc ∈ s.matchedDocuments log query predicate :=
  (stdSort_perm _ _).subset (List.mem_of_mem_take h)

theorem hasWord_iff (s : SearchServer R) (h : s.WellFormed) (d : Int) (word : List Char) :
    s.hasWord d word = true ↔
      ∃ postings tf, (word, postings) ∈ s.word_to_document_freqs_ ∧ (d, tf) ∈ postings := by
  unfold hasWord postingsOf
  rw [decide_eq_true_iff]
  constructor
  · intro hd
    cases hf : StdMap.find s.word_to_document_freqs_ word with
    | none => rw [hf] at hd; simp [StdMap.keys] at hd
    | some ps =>
      rw [hf] at hd
      obtain ⟨⟨d2, tf⟩, hm, rfl⟩ := List.mem_map.mp hd
      exact ⟨ps, tf, (StdMap.find_eq_some_iff _ h.freqs_ordered _ _).mp hf, hm⟩
  · rintro ⟨ps, tf, hw, hd⟩
    rw [(StdMap.find_eq_some_iff _ h.freqs_ordered _ _).mpr hw]
    exact List.mem_map_of_mem Prod.fst hd

theorem admits_iff (s : SearchServer R) (h : s.WellFormed)
    (predicate : Int → DocumentStatus → Int → Bool) (d : Int) :
    s.admits predicate d = true ↔
      ∃ data, (d, data) ∈ s.documents_ ∧ predicate d data.status data.rating = true := by
  unfold admits
  constructor
  · intro hd
    cases hf : StdMap.find s.documents_ d with
    | none => rw [hf] at hd; cases hd
    | some data =>
      rw [hf] at hd
      exact ⟨data, (StdMap.find_eq_some_iff _ h.documents_ordered _ _).mp hf, hd⟩
  · rintro ⟨data, hm, hp⟩
    rw [(StdMap.find_eq_some_iff _ h.documents_ordered _ _).mpr hm]
    exact hp

theorem isMatch_iff (s : SearchServer R) (query : Query)
    (predicate : Int → DocumentStatus → Int → Bool) (d : Int) :
    s.isMatch query predicate d = true ↔
      s.admits predicate d = true ∧ (∃ w ∈ query.plus_words, s.hasWord d w = true) ∧
      ∀ w ∈ query.minus_words, s.hasWord d w = false := by
  unfold isMatch
  simp only [Bool.and_eq_true, List.any_eq_true, Bool.not_eq_true', List.any_eq_false,
    Bool.not_eq_true, and_assoc]

end SearchServer

namespace SearchServer

variable {R : Type} [LinearOrderedField R]

theorem addDocuments_reachable (s : SearchServer R) (hs : Reachable s)
    (docs : List (Int × List Char × DocumentStatus × List Int)) : Reachable (s.addDocuments docs) := by
  induction docs generalizing s with
  | nil => exact hs
  | cons d rest ih =>
    obtain ⟨id, text, status, ratings⟩ := d
    exact ih _ (Reachable.AddDocument s id text status ratings hs)

theorem emptyServer_reachable : Reachable (emptyServer R) :=
  Reachable.construct [] _ rfl

theorem inTheServer_reachable : Reachable (inTheServer R) :=
  Reachable.construct ["in".toList, "the".toList] _ rfl

end SearchServer

/-! ## The claims on `FindTopDocuments` -/

namespace SearchServer

variable {R : Type} [LinearOrderedField R]

/-- C3. In a reachable state, for a query that parses: a document that has a
posting under a minus-term of the query is not among the documents returned by
`FindTopDocuments`, whatever plus-terms it has and whatever the predicate. -/
theorem C3_minus_term_excludes (s : SearchServer R) (hs : Reachable s) (log : R → R)
    (raw_query : List Char) (predicate : Int → DocumentStatus → Int → Bool) (query : Query)
    (hq : s.ParseQuery raw_query = .ok query)
    (m : List Char) (hm : m ∈ query.minus_words)
    (d : Int) (postings : List (Int × R)) (tf : R)
    (hpost : (m, postings) ∈ s.word_to_document_freqs_) (hd : (d, tf) ∈ postings) :
    ∃ docs, s.FindTopDocuments log raw_query predicate = .ok docs ∧
      ∀ doc ∈ docs, doc.id ≠ d := by
  refine ⟨_, FindTopDocuments_eq s hs log raw_query predicate query hq, ?_⟩
  intro doc hdoc hid
  have hmem := (mem_matchedDocuments s log query predicate doc).mp
    (mem_of_mem_top s log query predicate doc hdoc)
  have hmatch := (isMatch_iff s query predicate doc.id).mp hmem.2.1
  have hhas : s.hasWord doc.id m = true :=
    (hasWord_iff s hs.wellFormed doc.id m).mpr ⟨postings, tf, hpost, by rw [hid]; exact hd⟩
  rw [hmatch.2.2 m hm] at hhas
  cases hhas

/-- C4. In a reachable state, for a query that parses: every document returned
by `FindTopDocuments` has a posting under at least one plus-term of the query,
and the predicate holds of its id and its stored status and rating. -/
theorem C4_results_match (s : SearchServer R) (hs : Reachable s) (log : R → R)
    (raw_query : List Char) (predicate : Int → DocumentStatus → Int → Bool) (query : Query)
    (hq : s.ParseQuery raw_query = .ok query) :
    ∃ docs, s.FindTopDocuments log raw_query predicate = .ok docs ∧
      ∀ doc ∈ docs,
        (∃ t ∈ query.plus_words, ∃ postings tf,
          (t, postings) ∈ s.word_to_document_freqs_ ∧ (doc.id, tf) ∈ postings) ∧
        ∃ data, (doc.id, data) ∈ s.documents_ ∧
          predicate doc.id data.status data.rating = true := by
  refine ⟨_, FindTopDocuments_eq s hs log raw_query predicate query hq, ?_⟩
  intro doc hdoc
  have hmem := (mem_matchedDocuments s log query predicate doc).mp
    (mem_of_mem_top s log query predicate doc hdoc)
  have hmatch := (isMatch_iff s query predicate doc.id).mp hmem.2.1
  obtain ⟨t, ht, hw⟩ := hmatch.2.1
  exact ⟨⟨t, ht, (hasWord_iff s hs.wellFormed doc.id t).mp hw⟩,
    (admits_iff s hs.wellFormed predicate doc.id).mp hmatch.1⟩

/-- C5. In a reachable state, for a query that parses: `FindTopDocuments`
returns min(5, |M|) documents, M being the stored documents that the
predicate admits, that have a posting under a plus-term and that have none
under a minus-term (the stored ids are pairwise distinct, so the filtered list
of ids counts M); in particular the result never has more than 5 entries. -/
theorem C5_result_count (s : SearchServer R) (hs : Reachable s) (log : R → R)
    (raw_query : List Char) (predicate : Int → DocumentStatus → Int → Bool) (query : Query)
    (hq : s.ParseQuery raw_query = .ok query) :
    ∃ docs, s.FindTopDocuments log raw_query predicate = .ok docs ∧
      docs.length =
        min 5 ((StdMap.keys s.documents_).filter (s.isMatch query predicate)).length ∧
      docs.length ≤ 5 ∧
      (StdMap.keys s.documents_).Nodup ∧
      ∀ d, s.isMatch query predicate d = true ↔
        (∃ data, (d, data) ∈ s.documents_ ∧ predicate d data.status data.rating = true) ∧
        (∃ t ∈ query.plus_words, ∃ postings tf,
          (t, postings) ∈ s.word_to_document_freqs_ ∧ (d, tf) ∈ postings) ∧
        ∀ m ∈ query.minus_words, ¬ ∃ postings tf,
          (m, postings) ∈ s.word_to_document_freqs_ ∧ (d, tf) ∈ postings := by
  refine ⟨_, FindTopDocuments_eq s hs log raw_query predicate query hq, ?_, ?_, ?_, ?_⟩
  · rw [List.length_take, (stdSort_perm _ _).length_eq]
    unfold matchedDocuments MAX_RESULT_DOCUMENT_COUNT
    rw [List.length_map]
  · rw [List.length_take]
    exact min_le_left _ _
  · exact (hs.wellFormed.documents_ordered).imp (fun h => ne_of_lt h)
  · intro d
    rw [isMatch_iff, admits_iff s hs.wellFormed]
    refine and_congr Iff.rfl (and_congr ?_ ?_)
    · constructor
      · rintro ⟨t, ht, hw⟩
        exact ⟨t, ht, (hasWord_iff s hs.wellFormed d t).mp hw⟩
      · rintro ⟨t, ht, hw⟩
        exact ⟨t, ht, (hasWord_iff s hs.wellFormed d t).mpr hw⟩
    · constructor
      · intro h m hm hex
        have := (hasWord_iff s hs.wellFormed d m).mpr hex
        rw [h m hm] at this
        cases this
      · intro h m hm
        rw [← Bool.not_eq_true, hasWord_iff s hs.wellFormed d m]
        exact h m hm

/-- The sorted and truncated sequence: no element goes before its predecessor. -/
theorem top_chain (l : List (Document R)) :
    ((stdSort compareDocuments l).take MAX_RESULT_DOCUMENT_COUNT).Chain'
      (fun earlier later => compareDocuments later earlier = false) :=
  (stdSort_chain compareDocuments compareDocuments_asymm l).take _

/-- C7, as amended. In a reachable state, for a query that parses: of two
adjacent results of `FindTopDocuments` the earlier has a relevance greater than
or equal to that of the later, or the two relevances differ by less than
`EPSILON`. -/
theorem C7_relevance_order_up_to_epsilon (s : SearchServer R) (hs : Reachable s) (log : R → R)
    (raw_query : List Char) (predicate : Int → DocumentStatus → Int → Bool) (query : Query)
    (hq : s.ParseQuery raw_query = .ok query) :
    ∃ docs, s.FindTopDocuments log raw_query predicate = .ok docs ∧
      docs.Chain' (fun earlier later =>
        later.relevance ≤ earlier.relevance ∨
          |earlier.relevance - later.relevance| < EPSILON) := by
  refine ⟨_, FindTopDocuments_eq s hs log raw_query predicate query hq, ?_⟩
  refine (top_chain _).imp ?_
  intro earlier later h
  rcases (compareDocuments_eq_false_iff later earlier).mp h with ⟨h1, _⟩ | ⟨_, h2⟩
  · right; rw [abs_sub_comm]; exact h1
  · left; exact h2

/-- C8. In a reachable state, for a query that parses: whenever two adjacent
results of `FindTopDocuments` have relevances that differ by less than
`EPSILON`, the rating of the earlier is greater than or equal to the rating of
the later. -/
theorem C8_rating_breaks_ties (s : SearchServer R) (hs : Reachable s) (log : R → R)
    (raw_query : List Char) (predicate : Int → DocumentStatus → Int → Bool) (query : Query)
    (hq : s.ParseQuery raw_query = .ok query) :
    ∃ docs, s.FindTopDocuments log raw_query predicate = .ok docs ∧
      docs.Chain' (fun earlier later =>
        |earlier.relevance - later.relevance| < EPSILON → later.rating ≤ earlier.rating) := by
  refine ⟨_, FindTopDocuments_eq s hs log raw_query predicate query hq, ?_⟩
  refine (top_chain _).imp ?_
  intro earlier later h hclose
  rcases (compareDocuments_eq_false_iff later earlier).mp h with ⟨_, h2⟩ | ⟨h1, _⟩
  · exact h2
  · rw [abs_sub_comm] at hclose
    exact absurd hclose h1

/-- C9, as amended. In a reachable state, for a query that parses, when
"differ by less than `EPSILON`" is transitive on the relevances of the matching
documents (the comparison is then a strict weak ordering on them): a matching
document that is not returned has a relevance less than or equal to that of
every returned document, or within `EPSILON` of it with a rating that is not
higher. -/
theorem C9_top_up_to_epsilon (s : SearchServer R) (hs : Reachable s) (log : R → R)
    (raw_query : List Char) (predicate : Int → DocumentStatus → Int → Bool) (query : Query)
    (hq : s.ParseQuery raw_query = .ok query)
    (hclose : ∀ a b c : Int, s.isMatch query predicate a = true →
      s.isMatch query predicate b = true → s.isMatch query predicate c = true →
      |s.relevanceOf log query.plus_words a - s.relevanceOf log query.plus_words b| < EPSILON →
      |s.relevanceOf log query.plus_words b - s.relevanceOf log query.plus_words c| < EPSILON →
      |s.relevanceOf log query.plus_words a - s.relevanceOf log query.plus_words c| < EPSILON) :
    ∃ docs, s.FindTopDocuments log raw_query predicate = .ok docs ∧
      ∀ d ∈ StdMap.keys s.documents_, s.isMatch query predicate d = true →
        (∀ doc ∈ docs, doc.id ≠ d) →
        ∀ returned ∈ docs,
          s.relevanceOf log query.plus_words d ≤ returned.relevance ∨
          (|s.relevanceOf log query.plus_words d - returned.relevance| < EPSILON ∧
            s.ratingOf d ≤ returned.rating) := by
  refine ⟨_, FindTopDocuments_eq s hs log raw_query predicate query hq, ?_⟩
  intro d hd hmatch homit returned hret
  have hsorted := stdSort_pairwise compareDocuments compareDocuments_asymm
    (s.matchedDocuments log query predicate)
    (fun a b c ha hb hc =>
      compareDocuments_negTrans (fun x => x ∈ s.matchedDocuments log query predicate)
        (fun x y z hx hy hz => by
          have mx := (mem_matchedDocuments s log query predicate x).mp hx
          have my := (mem_matchedDocuments s log query predicate y).mp hy
          have mz := (mem_matchedDocuments s log query predicate z).mp hz
          rw [mx.2.2.1, my.2.2.1, mz.2.2.1]
          exact hclose x.id y.id z.id mx.2.1 my.2.1 mz.2.1)
        a b c ha hb hc)
  have hdoc : (⟨d, s.relevanceOf log query.plus_words d, s.ratingOf d⟩ : Document R) ∈
      s.matchedDocuments log query predicate :=
    (mem_matchedDocuments s log query predicate _).mpr ⟨hd, hmatch, rfl, rfl⟩
  have hin := (stdSort_perm compareDocuments _).mem_iff.mpr hdoc
  rw [← List.take_append_drop MAX_RESULT_DOCUMENT_COUNT
    (stdSort compareDocuments (s.matchedDocuments log query predicate))] at hin hsorted
  rcases List.mem_append.mp hin with h1 | h1
  · exact absurd rfl (homit _ h1)
  · have := (List.pairwise_append.mp hsorted).2.2 returned hret _ h1
    rcases (compareDocuments_eq_false_iff _ _).mp this with ⟨c1, c2⟩ | ⟨_, c2⟩
    · right; exact ⟨c1, c2⟩
    · left; exact c2

end SearchServer

/-! ## The claims on rejected calls -/

namespace SearchServer

variable {R : Type} [LinearOrderedField R]

theorem IsStopWord_iff (s : SearchServer R) (word : List Char) :
    s.IsStopWord word = true ↔ word ∈ s.stop_words_ := by
  unfold IsStopWord StdSet.count
  split_ifs with h <;> simp [h]

theorem any_invalid_SplitIntoWordsNoStop_iff (s : SearchServer R) (text : List Char) :
    (s.SplitIntoWordsNoStop text).any (fun word => !IsValidWord word) = true ↔
      ∃ w ∈ SplitIntoWords text, w ∉ s.stop_words_ ∧
        (w.head? = some '-' ∨ w.getLast? = some '-' ∨ ∃ c ∈ w, c.toNat < 32) := by
  unfold SplitIntoWordsNoStop
  simp only [List.any_eq_true, List.mem_filter, Bool.not_eq_true']
  constructor
  · rintro ⟨w, ⟨hw, hstop⟩, hinv⟩
    have hne := SplitIntoWords_nonempty text w hw
    have hns : w ∉ s.stop_words_ := by
      rw [← IsStopWord_iff, hstop]; simp
    rcases (IsValidWord_eq_false_iff w).mp hinv with h | h
    · exact absurd h hne
    · exact ⟨w, hw, hns, h⟩
  · rintro ⟨w, hw, hns, hinv⟩
    refine ⟨w, ⟨hw, ?_⟩, (IsValidWord_eq_false_iff w).mpr (Or.inr hinv)⟩
    rw [← IsStopWord_iff] at hns
    simpa using hns

/-- C1. In a reachable state, `AddDocument` throws `invalid_argument` exactly
when the id is negative, or the id is that of a stored document, or some word
of the text that is not a stop word starts with `-`, ends with `-` or holds a
character with a code below that of the space; in every other case it returns
normally. -/
theorem C1_AddDocument_rejects_iff (s : SearchServer R) (hs : Reachable s)
    (document_id : Int) (document : List Char) (status : DocumentStatus) (ratings : List Int) :
    ((s.AddDocument document_id document status ratings).1 = .error .invalid_argument ↔
      (document_id < 0 ∨ document_id ∈ StdMap.keys s.documents_ ∨
        ∃ w ∈ SplitIntoWords document, w ∉ s.stop_words_ ∧
          (w.head? = some '-' ∨ w.getLast? = some '-' ∨ ∃ c ∈ w, c.toNat < 32))) ∧
    ((s.AddDocument document_id document status ratings).1 = .error .invalid_argument ∨
      (s.AddDocument document_id document status ratings).1 = .ok ()) := by
  have hcount := StdMap.count_ne_zero_iff s.documents_ hs.wellFormed.documents_ordered document_id
  have hwords := any_invalid_SplitIntoWordsNoStop_iff s document
  rw [AddDocument_def]
  split_ifs with h1 h2 h3
  · exact ⟨⟨fun _ => Or.inl h1, fun _ => rfl⟩, Or.inl rfl⟩
  · exact ⟨⟨fun _ => Or.inr (Or.inl (hcount.mp h2)), fun _ => rfl⟩, Or.inl rfl⟩
  · exact ⟨⟨fun _ => Or.inr (Or.inr (hwords.mp h3)), fun _ => rfl⟩, Or.inl rfl⟩
  · refine ⟨⟨(fun h => by cases h), ?_⟩, Or.inr rfl⟩
    rintro (h | h | h)
    · exact absurd h h1
    · exact absurd (hcount.mpr h) h2
    · exact absurd (hwords.mpr h) h3

/-- C2. A call of `AddDocument` that does not return normally leaves the whole
state as it was: the inverted index, the document records, the document order,
and with them `GetDocumentCount`. -/
theorem C2_rejected_AddDocument_is_atomic (s : SearchServer R)
    (document_id : Int) (document : List Char) (status : DocumentStatus) (ratings : List Int)
    (h : (s.AddDocument document_id document status ratings).1 ≠ .ok ()) :
    (s.AddDocument document_id document status ratings).2.word_to_document_freqs_ =
        s.word_to_document_freqs_ ∧
      (s.AddDocument document_id document status ratings).2.documents_ = s.documents_ ∧
      (s.AddDocument document_id document status ratings).2.document_ids_ = s.document_ids_ ∧
      (s.AddDocument document_id document status ratings).2.GetDocumentCount =
        s.GetDocumentCount ∧
      (s.AddDocument document_id document status ratings).2 = s := by
  have := AddDocument_state_of_error s document_id document status ratings h
  rw [this]
  exact ⟨rfl, rfl, rfl, rfl, rfl⟩

theorem atKey_error {K V : Type} [LinearOrder K] (m : List (K × V)) (k : K) (e : Error)
    (h : StdMap.atKey m k = .error e) : e = .out_of_range := by
  unfold StdMap.atKey at h
  cases hf : StdMap.find m k with
  | none => rw [hf] at h; cases h; rfl
  | some v => rw [hf] at h; cases h

theorem accumulatePostings_error (s : SearchServer R)
    (predicate : Int → DocumentStatus → Int → Bool) (idf : R) (postings : List (Int × R)) :
    ∀ (rel : List (Int × R)) (e : Error),
      s.accumulatePostings predicate idf postings rel = .error e → e = .out_of_range := by
  induction postings with
  | nil => intro rel e h; cases h
  | cons p rest ih =>
    obtain ⟨d, tf⟩ := p
    intro rel e h
    unfold accumulatePostings at h
    cases ha : StdMap.atKey s.documents_ d with
    | error e2 =>
      rw [ha] at h
      cases h
      exact atKey_error _ _ _ ha
    | ok doc =>
      rw [ha] at h
      exact ih _ e h

theorem accumulatePlusWords_error (s : SearchServer R) (log : R → R)
    (predicate : Int → DocumentStatus → Int → Bool) (words : List (List Char)) :
    ∀ (rel : List (Int × R)) (e : Error),
      s.accumulatePlusWords log predicate words rel = .error e → e = .out_of_range := by
  induction words with
  | nil => intro rel e h; cases h
  | cons w rest ih =>
    intro rel e h
    unfold accumulatePlusWords at h
    split_ifs at h with hc
    · exact ih _ e h
    · unfold ComputeWordInverseDocumentFreq at h
      cases ha : StdMap.atKey s.word_to_document_freqs_ w with
      | error e2 =>
        rw [ha] at h
        cases h
        exact atKey_error _ _ _ ha
      | ok postings =>
        rw [ha] at h
        simp only at h
        cases hb : s.accumulatePostings predicate
            (log ((s.GetDocumentCount : R) * 1 / (postings.length : R))) postings rel with
        | error e2 =>
          rw [hb] at h
          cases h
          exact accumulatePostings_error s predicate _ postings rel _ hb
        | ok rel2 =>
          rw [hb] at h
          exact ih _ e h

theorem eraseMinusWords_error (s : SearchServer R) (words : List (List Char)) :
    ∀ (rel : List (Int × R)) (e : Error),
      s.eraseMinusWords words rel = .error e → e = .out_of_range := by
  induction words with
  | nil => intro rel e h; cases h
  | cons w rest ih =>
    intro rel e h
    unfold eraseMinusWords at h
    split_ifs at h with hc
    · exact ih _ e h
    · cases ha : StdMap.atKey s.word_to_document_freqs_ w with
      | error e2 =>
        rw [ha] at h
        cases h
        exact atKey_error _ _ _ ha
      | ok postings =>
        rw [ha] at h
        exact ih _ e h

theorem collectDocuments_error (s : SearchServer R) (rel : List (Int × R)) :
    ∀ (e : Error), s.collectDocuments rel = .error e → e = .out_of_range := by
  induction rel with
  | nil => intro e h; cases h
  | cons p rest ih =>
    obtain ⟨d, r⟩ := p
    intro e h
    unfold collectDocuments at h
    cases ha : StdMap.atKey s.documents_ d with
    | error e2 =>
      rw [ha] at h
      cases h
      exact atKey_error _ _ _ ha
    | ok doc =>
      rw [ha] at h
      cases hb : s.collectDocuments rest with
      | error e2 =>
        rw [hb] at h
        cases h
        exact ih _ hb
      | ok docs =>
        rw [hb] at h
        cases h

/-- `FindAllDocuments` can only fail in a checked map access. -/
theorem FindAllDocuments_error (s : SearchServer R) (log : R → R) (query : Query)
    (predicate : Int → DocumentStatus → Int → Bool) (e : Error)
    (h : s.FindAllDocuments log query predicate = .error e) : e = .out_of_range := by
  unfold FindAllDocuments at h
  cases ha : s.accumulatePlusWords log predicate query.plus_words [] with
  | error e2 =>
    rw [ha] at h
    cases h
    exact accumulatePlusWords_error s log predicate _ _ _ ha
  | ok rel =>
    rw [ha] at h
    simp only at h
    cases hb : s.eraseMinusWords query.minus_words rel with
    | error e2 =>
      rw [hb] at h
      cases h
      exact eraseMinusWords_error s _ _ _ hb
    | ok rel2 =>
      rw [hb] at h
      exact collectDocuments_error s rel2 e h

theorem FindTopDocuments_invalid_iff (s : SearchServer R) (log : R → R)
    (raw_query : List Char) (predicate : Int → DocumentStatus → Int → Bool) :
    s.FindTopDocuments log raw_query predicate = .error .invalid_argument ↔
      ∃ token ∈ SplitIntoWords raw_query, InvalidTerm (stripMinus token) := by
  unfold FindTopDocuments
  cases hq : s.ParseQuery raw_query with
  | error e =>
    have := (ParseQuery_error_iff s raw_query e).mp hq
    simp only [this.1, this.2]
  | ok query =>
    have hno : ¬ ∃ token ∈ SplitIntoWords raw_query, InvalidTerm (stripMinus token) := by
      intro hex
      have := (ParseQuery_error_iff s raw_query .invalid_argument).mpr ⟨rfl, hex⟩
      rw [hq] at this; cases this
    simp only [hno, iff_false]
    cases ha : s.FindAllDocuments log query predicate with
    | error e =>
      have := FindAllDocuments_error s log query predicate e ha
      subst this
      simp
    | ok docs => simp

theorem MatchDocument_invalid_iff (s : SearchServer R) (raw_query : List Char)
    (document_id : Int) :
    s.MatchDocument raw_query document_id = .error .invalid_argument ↔
      ∃ token ∈ SplitIntoWords raw_query, InvalidTerm (stripMinus token) := by
  unfold MatchDocument
  cases hq : s.ParseQuery raw_query with
  | error e =>
    have := (ParseQuery_error_iff s raw_query e).mp hq
    simp only [this.1, this.2]
  | ok query =>
    have hno : ¬ ∃ token ∈ SplitIntoWords raw_query, InvalidTerm (stripMinus token) := by
      intro hex
      have := (ParseQuery_error_iff s raw_query .invalid_argument).mpr ⟨rfl, hex⟩
      rw [hq] at this; cases this
    simp only [hno, iff_false]
    cases ha : StdMap.atKey s.documents_ document_id with
    | error e =>
      have := atKey_error _ _ _ ha
      subst this
      simp
    | ok doc => simp

/-- C10. `FindTopDocuments` and `MatchDocument` throw `invalid_argument` exactly
when some word of the raw query, with at most one leading `-` removed, is
empty, starts with `-`, ends with `-` or holds a character with a code below
that of the space.  The queries of the tests (a bare `-`, `--asd`, `ajwfe-`, a
word with an embedded NUL) are rejected in every state.  A rejected call
returns an error value, which carries no documents. -/
theorem C10_query_rejected_iff (s : SearchServer R) (log : R → R) (raw_query : List Char)
    (predicate : Int → DocumentStatus → Int → Bool) (document_id : Int) :
    (s.FindTopDocuments log raw_query predicate = .error .invalid_argument ↔
      ∃ token ∈ SplitIntoWords raw_query, InvalidTerm (stripMinus token)) ∧
    (s.MatchDocument raw_query document_id = .error .invalid_argument ↔
      ∃ token ∈ SplitIntoWords raw_query, InvalidTerm (stripMinus token)) ∧
    ∀ rejected ∈ ["asdf -".toList, "asdf --asd".toList, "asdf ajwfe-".toList,
        "asdf ajw\x00fe".toList],
      s.FindTopDocuments log rejected predicate = .error .invalid_argument ∧
      s.MatchDocument rejected document_id = .error .invalid_argument := by
  refine ⟨FindTopDocuments_invalid_iff s log raw_query predicate,
    MatchDocument_invalid_iff s raw_query document_id, ?_⟩
  intro rejected hr
  rw [FindTopDocuments_invalid_iff, MatchDocument_invalid_iff, and_self]
  simp only [List.mem_cons, List.mem_singleton, List.not_mem_nil, or_false] at hr
  rcases hr with rfl | rfl | rfl | rfl <;> decide

end SearchServer

/-! ## The claims at the inputs of the tests -/

namespace SearchServer

theorem C1_witness :
    ((minusWordsServer ℝ).AddDocument 1 "dog".toList .ACTUAL []).1 = .error .invalid_argument ∧
    ((minusWordsServer ℝ).AddDocument 4 "awk lfe\x00as ldf".toList .ACTUAL []).1 =
      .error .invalid_argument :=
  ⟨(C1_AddDocument_rejects_iff (minusWordsServer ℝ)
      (addDocuments_reachable _ inTheServer_reachable _) 1 "dog".toList .ACTUAL []).1.mpr
      (Or.inr (Or.inl (by decide))),
   (C1_AddDocument_rejects_iff (minusWordsServer ℝ)
      (addDocuments_reachable _ inTheServer_reachable _) 4 "awk lfe\x00as ldf".toList
      .ACTUAL []).1.mpr
      (Or.inr (Or.inr ⟨"lfe\x00as".toList, by decide, by decide, by decide⟩))⟩

theorem C2_witness :
    (((emptyServer ℝ).AddDocument 0 "asd".toList .ACTUAL []).2.AddDocument 0
        "kashdf ksjdahf".toList .ACTUAL []).1 = .error .invalid_argument ∧
    (((emptyServer ℝ).AddDocument 0 "asd".toList .ACTUAL []).2.AddDocument 0
        "kashdf ksjdahf".toList .ACTUAL []).2.GetDocumentCount = 1 :=
  ⟨rfl,
    (C2_rejected_AddDocument_is_atomic ((emptyServer ℝ).AddDocument 0 "asd".toList .ACTUAL []).2
      0 "kashdf ksjdahf".toList .ACTUAL []
      (fun h => Except.noConfusion
        ((rfl : (((emptyServer ℝ).AddDocument 0 "asd".toList .ACTUAL []).2.AddDocument 0
          "kashdf ksjdahf".toList .ACTUAL []).1 = .error .invalid_argument).symm.trans h))).2.2.2.1⟩

theorem C3_witness :
    ∃ docs, (minusWordsServer ℝ).FindTopDocuments Real.log "cat -city".toList isActual =
        .ok docs ∧ ∀ doc ∈ docs, doc.id ≠ 0 := by
  have hr : Reachable (minusWordsServer ℝ) := addDocuments_reachable _ inTheServer_reachable _
  obtain ⟨postings, tf, h1, h2⟩ :=
    (hasWord_iff (minusWordsServer ℝ) hr.wellFormed 0 "city".toList).mp (by decide)
  exact C3_minus_term_excludes (minusWordsServer ℝ) hr Real.log "cat -city".toList isActual
    ⟨["cat".toList], ["city".toList]⟩ rfl "city".toList (by decide) 0 postings tf h1 h2

theorem C4_witness :
    ∃ docs, (minusWordsServer ℝ).FindTopDocuments Real.log "cat -city".toList isActual =
        .ok docs ∧
      ∀ doc ∈ docs,
        (∃ t ∈ ["cat".toList], ∃ postings tf,
          (t, postings) ∈ (minusWordsServer ℝ).word_to_document_freqs_ ∧
            (doc.id, tf) ∈ postings) ∧
        ∃ data, (doc.id, data) ∈ (minusWordsServer ℝ).documents_ ∧
          isActual doc.id data.status data.rating = true :=
  C4_results_match (minusWordsServer ℝ) (addDocuments_reachable _ inTheServer_reachable _)
    Real.log "cat -city".toList isActual ⟨["cat".toList], ["city".toList]⟩ rfl

theorem C5_witness :
    ∃ docs, (sixCatsServer ℝ).FindTopDocuments Real.log "cat".toList isActual = .ok docs ∧
      ((StdMap.keys (sixCatsServer ℝ).documents_).filter
        ((sixCatsServer ℝ).isMatch ⟨["cat".toList], []⟩ isActual)).length = 6 ∧
      docs.length = 5 := by
  obtain ⟨docs, h1, h2, _⟩ := C5_result_count (sixCatsServer ℝ)
    (addDocuments_reachable _ emptyServer_reachable _) Real.log "cat".toList isActual
    ⟨["cat".toList], []⟩ rfl
  have h6 : ((StdMap.keys (sixCatsServer ℝ).documents_).filter
      ((sixCatsServer ℝ).isMatch ⟨["cat".toList], []⟩ isActual)).length = 6 := by decide
  refine ⟨docs, h1, h6, ?_⟩
  rw [h2, h6]
  rfl

theorem C8_witness :
    ∃ docs, (ratingServer ℝ).FindTopDocuments Real.log "cat".toList isActual = .ok docs ∧
      docs.Chain' (fun earlier later =>
        |earlier.relevance - later.relevance| < EPSILON → later.rating ≤ earlier.rating) :=
  C8_rating_breaks_ties (ratingServer ℝ) (addDocuments_reachable _ emptyServer_reachable _)
    Real.log "cat".toList isActual ⟨["cat".toList], []⟩ rfl

end SearchServer

/-! ## The effect of an accepted `AddDocument` -/

theorem foldl_splitStep_word (w : List Char) (hw : ' ' ∉ w) :
    ∀ (ws : List (List Char)) (cur rest : List Char),
      (w ++ rest).foldl splitStep (ws, cur) = rest.foldl splitStep (ws, cur ++ w) := by
  induction w with
  | nil => intro ws cur rest; simp
  | cons c w ih =>
    intro ws cur rest
    have hc : c ≠ ' ' := fun h => hw (by rw [h]; exact List.mem_cons_self _ _)
    have hw2 : ' ' ∉ w := fun h => hw (List.mem_cons_of_mem _ h)
    simp only [List.cons_append, List.foldl_cons]
    have : splitStep (ws, cur) c = (ws, cur ++ [c]) := by
      unfold splitStep; rw [if_neg hc]
    rw [this, ih hw2]
    simp

/-- Splitting a first word followed by `n` times a space and a second word. -/
theorem foldl_splitStep_replicate (w : List Char) (hw : ' ' ∉ w) (hne : w ≠ []) (n : Nat) :
    ∀ (ws : List (List Char)) (cur : List Char), cur ≠ [] →
      ((List.replicate n (' ' :: w)).flatten.foldl splitStep (ws, cur)).1 ++
          [((List.replicate n (' ' :: w)).flatten.foldl splitStep (ws, cur)).2] =
        ws ++ cur :: List.replicate n w ∧
      ((List.replicate n (' ' :: w)).flatten.foldl splitStep (ws, cur)).2 ≠ [] := by
  induction n with
  | zero => intro ws cur hcur; simp [hcur]
  | succ n ih =>
    intro ws cur hcur
    have h1 : (List.replicate (n + 1) (' ' :: w)).flatten =
        ' ' :: (w ++ (List.replicate n (' ' :: w)).flatten) := by
      simp [List.replicate_succ]
    have h2 : splitStep (ws, cur) ' ' = (ws ++ [cur], []) := by
      unfold splitStep; simp [hcur]
    rw [h1, List.foldl_cons, h2, foldl_splitStep_word w hw]
    have := ih (ws ++ [cur]) ([] ++ w) (by simpa using hne)
    refine ⟨?_, this.2⟩
    rw [this.1]
    simp [List.replicate_succ]

theorem SplitIntoWords_catAndDogs (n : Nat) :
    SplitIntoWords (catAndDogs n) = "cat".toList :: List.replicate n "dog".toList := by
  unfold SplitIntoWords catAndDogs
  have h := foldl_splitStep_replicate "dog".toList (by decide) (by decide) n []
    ([] ++ "cat".toList) (by decide)
  have e : (" dog".toList : List Char) = ' ' :: "dog".toList := rfl
  rw [foldl_splitStep_word "cat".toList (by decide), e]
  simp only
  rw [if_pos h.2, h.1]
  rfl

namespace StdMap

variable {K V : Type} [LinearOrder K]

/-- Two updates of the same entry are one update. -/
theorem update_update (k : K) (f g : Option V → V) (m : List (K × V)) :
    update k g (update k f m) = update k (fun o => g (some (f o))) m := by
  induction m with
  | nil => simp [update]
  | cons e rest ih =>
    obtain ⟨k0, v0⟩ := e
    rcases lt_trichotomy k k0 with hlt | heq | hgt
    · simp [update, hlt]
    · subst heq; simp [update]
    · have h1 : ¬ k < k0 := not_lt.mpr hgt.le
      have h2 : ¬ k = k0 := ne_of_gt hgt
      simp [update, h1, h2, ih]

end StdMap

namespace SearchServer

variable {R : Type} [LinearOrderedField R]

/-- The postings of a word after the loop of `AddDocument` over the words of
the document: the entry of the document is raised by the number of
occurrences of the word times `inv_word_count`. -/
theorem find_foldl_addTermFrequency (document_id : Int) (inv_word_count : R)
    (words : List (List Char)) :
    ∀ (freqs : List (List Char × List (Int × R))) (w : List Char),
      StdMap.find (words.foldl
          (fun freqs word => addTermFrequency freqs word document_id inv_word_count) freqs) w =
        if w ∈ words then
          some (StdMap.update document_id
            (fun tf => tf.getD 0 + (words.count w : R) * inv_word_count)
            ((StdMap.find freqs w).getD []))
        else StdMap.find freqs w := by
  induction words with
  | nil => intro freqs w; simp
  | cons x rest ih =>
    intro freqs w
    simp only [List.foldl_cons]
    rw [ih]
    unfold addTermFrequency
    rw [StdMap.find_update]
    by_cases hwx : w = x
    · subst hwx
      simp only [if_true, List.mem_cons, true_or, Option.getD_some, List.count_cons_self]
      by_cases hr : w ∈ rest
      · rw [if_pos hr, StdMap.update_update]
        congr 2
        funext o
        simp only [Option.getD_some]
        push_cast
        ring
      · rw [if_neg hr, List.count_eq_zero_of_not_mem hr]
        congr 2
        funext o
        push_cast
        ring
    · have hc : List.count w (x :: rest) = List.count w rest := by
        rw [List.count_cons]
        simp [Ne.symm hwx]
      simp only [hwx, if_false, List.mem_cons, false_or, hc]

/-- The effect of an accepted call of `AddDocument` on a server without stop
words, in terms of the words of the document. -/
theorem AddDocument_effect (s : SearchServer R) (document_id : Int) (document : List Char)
    (status : DocumentStatus) (ratings : List Int) (words : List (List Char))
    (hstop : s.stop_words_ = []) (hwords : SplitIntoWords document = words)
    (hvalid : ∀ w ∈ words, IsValidWord w = true) (hid : ¬ document_id < 0)
    (hfresh : StdMap.find s.documents_ document_id = none) :
    (s.AddDocument document_id document status ratings).2.stop_words_ = [] ∧
    (s.AddDocument document_id document status ratings).2.documents_ =
      StdMap.emplace document_id ⟨ComputeAverageRating ratings, status⟩ s.documents_ ∧
    ∀ w, (s.AddDocument document_id document status ratings).2.postingsOf w =
      if w ∈ words then
        StdMap.update document_id
          (fun tf => tf.getD 0 + (words.count w : R) * (1 / (words.length : R)))
          (s.postingsOf w)
      else s.postingsOf w := by
  have hns : s.SplitIntoWordsNoStop document = words := by
    unfold SplitIntoWordsNoStop
    rw [hwords, List.filter_eq_self]
    intro w _
    have : s.IsStopWord w = false := by
      rw [← Bool.not_eq_true, IsStopWord_iff, hstop]; simp
    simp [this]
  have hcount : ¬ StdMap.count s.documents_ document_id ≠ 0 := by
    rw [not_not, StdMap.count_eq_zero_iff]; exact hfresh
  have hany : ¬ (s.SplitIntoWordsNoStop document).any (fun word => !IsValidWord word) = true := by
    rw [hns]
    simp only [List.any_eq_true, Bool.not_eq_true', not_exists, not_and]
    intro w hw
    rw [hvalid w hw]; simp
  rw [AddDocument_def, if_neg hid, if_neg hcount, if_neg hany, hns]
  refine ⟨hstop, rfl, fun w => ?_⟩
  unfold postingsOf
  simp only
  rw [find_foldl_addTermFrequency]
  split_ifs <;> rfl

end SearchServer

/-! ## A server on which relevances tie within `EPSILON` -/

namespace SearchServer

variable {R : Type} [LinearOrderedField R]

theorem add_catAndDogs (s : SearchServer R) (document_id : Int) (n : Nat)
    (status : DocumentStatus) (ratings : List Int)
    (D : List (Int × DocumentData)) (P : List (Int × R))
    (hstop : s.stop_words_ = []) (hD : s.documents_ = D)
    (hP : s.postingsOf "cat".toList = P) (hid : ¬ document_id < 0)
    (hfresh : StdMap.find D document_id = none) :
    (s.AddDocument document_id (catAndDogs n) status ratings).2.stop_words_ = [] ∧
    (s.AddDocument document_id (catAndDogs n) status ratings).2.documents_ =
      StdMap.emplace document_id ⟨ComputeAverageRating ratings, status⟩ D ∧
    (s.AddDocument document_id (catAndDogs n) status ratings).2.postingsOf "cat".toList =
      StdMap.update document_id (fun tf => tf.getD 0 + 1 / ((n : R) + 1)) P := by
  have hvalid : ∀ w ∈ "cat".toList :: List.replicate n "dog".toList, IsValidWord w = true := by
    intro w hw
    rcases List.mem_cons.mp hw with rfl | hw
    · decide
    · rw [(List.mem_replicate.mp hw).2]; decide
  obtain ⟨h1, h2, h3⟩ := AddDocument_effect s document_id (catAndDogs n) status ratings _
    hstop (SplitIntoWords_catAndDogs n) hvalid hid (by rw [hD]; exact hfresh)
  refine ⟨h1, by rw [h2, hD], ?_⟩
  rw [h3 "cat".toList, if_pos (List.mem_cons_self _ _), hP]
  have hc : List.count "cat".toList ("cat".toList :: List.replicate n "dog".toList) = 1 := by
    rw [List.count_cons_self, List.count_replicate]
    simp
  rw [hc]
  congr 1
  funext tf
  simp

theorem add_dog (s : SearchServer R) (document_id : Int)
    (status : DocumentStatus) (ratings : List Int)
    (D : List (Int × DocumentData)) (P : List (Int × R))
    (hstop : s.stop_words_ = []) (hD : s.documents_ = D)
    (hP : s.postingsOf "cat".toList = P) (hid : ¬ document_id < 0)
    (hfresh : StdMap.find D document_id = none) :
    (s.AddDocument document_id "dog".toList status ratings).2.stop_words_ = [] ∧
    (s.AddDocument document_id "dog".toList status ratings).2.documents_ =
      StdMap.emplace document_id ⟨ComputeAverageRating ratings, status⟩ D ∧
    (s.AddDocument document_id "dog".toList status ratings).2.postingsOf "cat".toList = P := by
  obtain ⟨h1, h2, h3⟩ := AddDocument_effect s document_id "dog".toList status ratings
    ["dog".toList] hstop rfl (by decide) hid (by rw [hD]; exact hfresh)
  refine ⟨h1, by rw [h2, hD], ?_⟩
  rw [h3 "cat".toList, if_neg (by decide), hP]

theorem addDocuments_cons (s : SearchServer R) (document_id : Int) (document : List Char)
    (status : DocumentStatus) (ratings : List Int)
    (rest : List (Int × List Char × DocumentStatus × List Int)) :
    s.addDocuments ((document_id, document, status, ratings) :: rest) =
      (s.AddDocument document_id document status ratings).2.addDocuments rest := rfl

theorem addDocuments_nil (s : SearchServer R) : s.addDocuments [] = s := rfl

/-- The stop words, the records and the postings of `cat` of the example server. -/
theorem tieServer_state :
    (tieServer R).stop_words_ = [] ∧
    (tieServer R).documents_ =
      [(0, ⟨5, .ACTUAL⟩), (1, ⟨5, .ACTUAL⟩), (2, ⟨5, .ACTUAL⟩), (3, ⟨5, .ACTUAL⟩),
       (4, ⟨5, .ACTUAL⟩), (5, ⟨1, .ACTUAL⟩), (6, ⟨1, .ACTUAL⟩)] ∧
    (tieServer R).postingsOf "cat".toList =
      [(0, 1 / 1001), (1, 1 / 1001), (2, 1 / 1001), (3, 1 / 1001), (4, 1 / 1001),
       (5, 1 / 1000)] := by
  have hs : tieServer R =
      ((((((((emptyServer R).AddDocument 0 (catAndDogs 1000) .ACTUAL [5]).2.AddDocument
        1 (catAndDogs 1000) .ACTUAL [5]).2.AddDocument
        2 (catAndDogs 1000) .ACTUAL [5]).2.AddDocument
        3 (catAndDogs 1000) .ACTUAL [5]).2.AddDocument
        4 (catAndDogs 1000) .ACTUAL [5]).2.AddDocument
        5 (catAndDogs 999) .ACTUAL [1]).2.AddDocument
        6 "dog".toList .ACTUAL [1]).2 := by
    unfold tieServer
    rw [addDocuments_cons, addDocuments_cons, addDocuments_cons, addDocuments_cons,
      addDocuments_cons, addDocuments_cons, addDocuments_cons, addDocuments_nil]
  obtain ⟨a0, b0, c0⟩ := add_catAndDogs (emptyServer R) 0 1000 .ACTUAL [5] [] []
    rfl rfl rfl (by decide) rfl
  obtain ⟨a1, b1, c1⟩ := add_catAndDogs _ 1 1000 .ACTUAL [5] _ _ a0 b0 c0 (by decide) rfl
  obtain ⟨a2, b2, c2⟩ := add_catAndDogs _ 2 1000 .ACTUAL [5] _ _ a1 b1 c1 (by decide) rfl
  obtain ⟨a3, b3, c3⟩ := add_catAndDogs _ 3 1000 .ACTUAL [5] _ _ a2 b2 c2 (by decide) rfl
  obtain ⟨a4, b4, c4⟩ := add_catAndDogs _ 4 1000 .ACTUAL [5] _ _ a3 b3 c3 (by decide) rfl
  obtain ⟨a5, b5, c5⟩ := add_catAndDogs _ 5 999 .ACTUAL [1] _ _ a4 b4 c4 (by decide) rfl
  obtain ⟨a6, b6, c6⟩ := add_dog _ 6 .ACTUAL [1] _ _ a5 b5 c5 (by decide) rfl
  rw [hs]
  refine ⟨a6, ?_, ?_⟩
  · rw [b6]
    rfl
  · rw [c6]
    have e : StdMap.update (5 : Int) (fun tf : Option R => tf.getD 0 + 1 / (((999 : ℕ) : R) + 1))
        (StdMap.update (4 : Int) (fun tf : Option R => tf.getD 0 + 1 / (((1000 : ℕ) : R) + 1))
        (StdMap.update (3 : Int) (fun tf : Option R => tf.getD 0 + 1 / (((1000 : ℕ) : R) + 1))
        (StdMap.update (2 : Int) (fun tf : Option R => tf.getD 0 + 1 / (((1000 : ℕ) : R) + 1))
        (StdMap.update (1 : Int) (fun tf : Option R => tf.getD 0 + 1 / (((1000 : ℕ) : R) + 1))
        (StdMap.update (0 : Int) (fun tf : Option R => tf.getD 0 + 1 / (((1000 : ℕ) : R) + 1))
          []))))) =
        [(0, 0 + 1 / (((1000 : ℕ) : R) + 1)), (1, 0 + 1 / (((1000 : ℕ) : R) + 1)),
         (2, 0 + 1 / (((1000 : ℕ) : R) + 1)), (3, 0 + 1 / (((1000 : ℕ) : R) + 1)),
         (4, 0 + 1 / (((1000 : ℕ) : R) + 1)), (5, 0 + 1 / (((999 : ℕ) : R) + 1))] := rfl
    rw [e]
    norm_num

theorem ParseQuery_congr (s t : SearchServer R) (h : s.stop_words_ = t.stop_words_)
    (text : List Char) : s.ParseQuery text = t.ParseQuery text := by
  have hstop : ∀ w, s.IsStopWord w = t.IsStopWord w := by
    intro w; unfold IsStopWord; rw [h]
  have hword : ∀ w, s.ParseQueryWord w = t.ParseQueryWord w := by
    intro w; unfold ParseQueryWord; simp only [hstop]
  have hstep : ∀ q w, s.parseQueryStep q w = t.parseQueryStep q w := by
    intro q w; unfold parseQueryStep; rw [hword]
  have hloop : ∀ ws q, s.parseQueryLoop ws q = t.parseQueryLoop ws q := by
    intro ws
    induction ws with
    | nil => intro q; rfl
    | cons w rest ih =>
      intro q
      unfold parseQueryLoop
      rw [hstep]
      cases t.parseQueryStep q w with
      | error e => rfl
      | ok q2 => exact ih q2
  exact hloop _ _

theorem tieServer_ParseQuery :
    (tieServer R).ParseQuery "cat".toList = .ok ⟨["cat".toList], []⟩ := by
  rw [ParseQuery_congr (tieServer R) (emptyServer R) tieServer_state.1]
  rfl

theorem tieServer_reachable : Reachable (tieServer R) :=
  addDocuments_reachable _ emptyServer_reachable _

theorem admits_of_documents (s : SearchServer R) (D : List (Int × DocumentData))
    (h : s.documents_ = D) (predicate : Int → DocumentStatus → Int → Bool) (d : Int) :
    s.admits predicate d =
      match StdMap.find D d with
      | some doc => predicate d doc.status doc.rating
      | none => false := by
  subst h; rfl

theorem ratingOf_of_documents (s : SearchServer R) (D : List (Int × DocumentData))
    (h : s.documents_ = D) (d : Int) :
    s.ratingOf d =
      match StdMap.find D d with
      | some doc => doc.rating
      | none => 0 := by
  subst h; rfl

theorem tieServer_hasWord (d : Int) :
    (tieServer R).hasWord d "cat".toList = decide (d ∈ [0, 1, 2, 3, 4, 5]) := by
  unfold hasWord
  rw [(@tieServer_state R _).2.2]
  rfl

theorem tieServer_isMatch (predicate : Int → DocumentStatus → Int → Bool) (d : Int)
    (hd : d ∈ [0, 1, 2, 3, 4, 5]) :
    (tieServer R).isMatch ⟨["cat".toList], []⟩ predicate d =
      predicate d .ACTUAL (tieRating d) := by
  unfold isMatch
  rw [admits_of_documents _ _ (@tieServer_state R _).2.1]
  simp only [List.any_cons, List.any_nil, tieServer_hasWord]
  simp only [List.mem_cons, List.mem_singleton, List.not_mem_nil, or_false] at hd
  rcases hd with rfl | rfl | rfl | rfl | rfl | rfl <;> simp [StdMap.find, tieRating]

theorem tieServer_isMatch_six (predicate : Int → DocumentStatus → Int → Bool) :
    (tieServer R).isMatch ⟨["cat".toList], []⟩ predicate 6 = false := by
  unfold isMatch
  simp only [List.any_cons, List.any_nil, tieServer_hasWord]
  simp

theorem tieServer_keys : StdMap.keys (tieServer R).documents_ = [0, 1, 2, 3, 4, 5] ++ [6] := by
  rw [(@tieServer_state R _).2.1]
  rfl

theorem tieServer_relevanceOf (log : R → R) (d : Int) (hd : d ∈ [0, 1, 2, 3, 4, 5]) :
    (tieServer R).relevanceOf log ["cat".toList] d = tieFreq R d * log (7 / 6) := by
  have hn : (tieServer R).GetDocumentCount = 7 := by
    unfold GetDocumentCount; rw [(@tieServer_state R _).2.1]; rfl
  have hlen : ((tieServer R).postingsOf "cat".toList).length = 6 := by
    rw [(@tieServer_state R _).2.2]; rfl
  have hhas : (tieServer R).hasWord d "cat".toList = true := by
    rw [tieServer_hasWord]; exact decide_eq_true hd
  have htf : (tieServer R).termFreqOf "cat".toList d = tieFreq R d := by
    unfold termFreqOf
    rw [(@tieServer_state R _).2.2]
    simp only [List.mem_cons, List.mem_singleton, List.not_mem_nil, or_false] at hd
    rcases hd with rfl | rfl | rfl | rfl | rfl | rfl <;> simp [StdMap.find, tieFreq]
  unfold relevanceOf idfOf
  simp only [List.filter_cons, List.filter_nil, hhas, if_true, List.map_cons, List.map_nil,
    List.sum_cons, List.sum_nil, add_zero, hn, hlen, htf]
  norm_num

theorem tieServer_ratingOf (d : Int) (hd : d ∈ [0, 1, 2, 3, 4, 5]) :
    (tieServer R).ratingOf d = tieRating d := by
  rw [ratingOf_of_documents _ _ (@tieServer_state R _).2.1]
  simp only [List.mem_cons, List.mem_singleton, List.not_mem_nil, or_false] at hd
  rcases hd with rfl | rfl | rfl | rfl | rfl | rfl <;> simp [StdMap.find, tieRating]

/-- The documents of the example server that match the query `cat`. -/
theorem tieServer_matched (log : R → R) (predicate : Int → DocumentStatus → Int → Bool) :
    (tieServer R).matchedDocuments log ⟨["cat".toList], []⟩ predicate =
      ([0, 1, 2, 3, 4, 5].filter (fun d => predicate d .ACTUAL (tieRating d))).map
        (tieDocument R log) := by
  have hlast : List.filter ((tieServer R).isMatch ⟨["cat".toList], []⟩ predicate) [6] = [] := by
    rw [List.filter_cons, tieServer_isMatch_six]
    rfl
  unfold matchedDocuments
  rw [tieServer_keys, List.filter_append, hlast, List.append_nil,
    List.filter_congr (tieServer_isMatch predicate)]
  apply List.map_congr_left
  intro d hd
  have hd2 := List.mem_of_mem_filter hd
  unfold tieDocument
  rw [tieServer_relevanceOf log d hd2, tieServer_ratingOf d hd2]

/-- Insertion sort leaves alone a sequence in which no element goes before an
earlier one. -/
theorem foldl_insertionStep_sorted {α : Type} (comp : α → α → Bool) (l : List α) :
    ∀ acc : List α, (∀ x ∈ acc, ∀ v ∈ l, comp v x = false) →
      l.Pairwise (fun a b => comp b a = false) →
      l.foldl (insertionStep comp) acc = l.reverse ++ acc := by
  induction l with
  | nil => intro acc _ _; rfl
  | cons v rest ih =>
    intro acc hacc hp
    have hc := List.pairwise_cons.mp hp
    have hstep : insertionStep comp acc v = v :: acc := by
      unfold insertionStep
      cases acc with
      | nil => rfl
      | cons x xs =>
        have hx : comp v x = false := hacc x (List.mem_cons_self _ _) v (List.mem_cons_self _ _)
        cases hl : (x :: xs).getLast? with
        | none => simp at hl
        | some first =>
          have hf : first ∈ x :: xs := List.mem_of_getLast?_eq_some hl
          have hvf : comp v first = false := hacc first hf v (List.mem_cons_self _ _)
          simp only [hvf, Bool.false_eq_true, if_false]
          unfold linearInsert
          simp [hx]
    rw [List.foldl_cons, hstep, ih (v :: acc) ?_ hc.2]
    · simp
    · intro x hx w hw
      rcases List.mem_cons.mp hx with rfl | hx
      · exact hc.1 w hw
      · exact hacc x hx w (List.mem_cons_of_mem _ hw)

theorem stdSort_sorted {α : Type} (comp : α → α → Bool) (l : List α)
    (h : l.Pairwise (fun a b => comp b a = false)) : stdSort comp l = l := by
  unfold stdSort
  rw [foldl_insertionStep_sorted comp l [] (by simp) h]
  simp

/-- On the example server the documents that match `cat` are in sorted order
already, when the logarithm of 7/6 lies between 0 and 1. -/
theorem tieDocuments_sorted (log : R → R) (h0 : 0 < log (7 / 6)) (h1 : log (7 / 6) < 1) :
    ([0, 1, 2, 3, 4, 5].map (tieDocument R log)).Pairwise
      (fun a b => compareDocuments b a = false) := by
  have hclose : ∀ i j : Int,
      |(tieDocument R log j).relevance - (tieDocument R log i).relevance| < EPSILON := by
    intro i j
    unfold tieDocument tieFreq EPSILON
    rw [abs_lt]
    constructor <;> split_ifs <;> nlinarith
  have key : ∀ i j : Int, i ≠ 5 →
      compareDocuments (tieDocument R log j) (tieDocument R log i) = false := by
    intro i j hi
    rw [compareDocuments_eq_false_iff]
    left
    refine ⟨hclose i j, ?_⟩
    unfold tieDocument tieRating
    simp only [hi, if_false]
    split_ifs <;> decide
  simp only [List.map_cons, List.map_nil, List.pairwise_cons, List.mem_cons, List.mem_singleton,
    List.not_mem_nil, forall_eq_or_imp, forall_eq, IsEmpty.forall_iff, implies_true, and_true,
    List.Pairwise.nil]
  refine ⟨⟨?_, ?_, ?_, ?_, ?_⟩, ⟨?_, ?_, ?_, ?_⟩, ⟨?_, ?_, ?_⟩, ⟨?_, ?_⟩, ?_⟩ <;>
    exact key _ _ (by decide)

/-- The answer of the example server to the query `cat`. -/
theorem tieServer_FindTopDocuments (log : R → R) (h0 : 0 < log (7 / 6)) (h1 : log (7 / 6) < 1)
    (predicate : Int → DocumentStatus → Int → Bool) :
    (tieServer R).FindTopDocuments log "cat".toList predicate =
      .ok ((([0, 1, 2, 3, 4, 5].filter (fun d => predicate d .ACTUAL (tieRating d))).map
        (tieDocument R log)).take 5) := by
  rw [FindTopDocuments_eq (tieServer R) tieServer_reachable log "cat".toList predicate _
    tieServer_ParseQuery, tieServer_matched, stdSort_sorted]
  · rfl
  · exact (tieDocuments_sorted log h0 h1).sublist
      ((List.filter_sublist _).map (tieDocument R log))

end SearchServer

/-! ## Ties within `EPSILON`: the claims on the order of the results -/

namespace SearchServer

theorem log_seven_sixths : 0 < Real.log (7 / 6) ∧ Real.log (7 / 6) < 1 := by
  constructor
  · exact Real.log_pos (by norm_num)
  · have := Real.log_le_sub_one_of_pos (show (0 : ℝ) < 7 / 6 by norm_num)
    linarith

/-- C7 fails as stated.  On the example server (reachable), with the predicate
that leaves out document 0, the query `cat` returns the documents 1 to 5 in this
order; documents 4 and 5 are adjacent, their relevances are log(7/6)/1001 and
log(7/6)/1000, within `EPSILON` of each other, so the higher rating of document
4 puts it first although its relevance is strictly less. -/
theorem C7_counterexample :
    Reachable (tieServer ℝ) ∧
    ∃ docs, (tieServer ℝ).FindTopDocuments Real.log "cat".toList idPositive = .ok docs ∧
      docs.map (fun doc => doc.id) = [1, 2, 3, 4, 5] ∧
      ¬ docs.Chain' (fun earlier later => later.relevance ≤ earlier.relevance) := by
  refine ⟨tieServer_reachable, _,
    tieServer_FindTopDocuments Real.log log_seven_sixths.1 log_seven_sixths.2 idPositive, ?_, ?_⟩
  · rfl
  · have hf : List.filter (fun d => idPositive d .ACTUAL (tieRating d)) [0, 1, 2, 3, 4, 5] =
        [1, 2, 3, 4, 5] := by decide
    rw [hf]
    intro hchain
    have h45 : (tieDocument ℝ Real.log 5).relevance ≤ (tieDocument ℝ Real.log 4).relevance := by
      simp only [List.map_cons, List.map_nil, List.take, List.chain'_cons] at hchain
      exact hchain.2.2.2.1
    have hpos := log_seven_sixths.1
    unfold tieDocument tieFreq at h45
    norm_num at h45
    nlinarith

theorem C7_witness :
    ∃ docs, (ratingServer ℝ).FindTopDocuments Real.log "cat".toList isActual = .ok docs ∧
      docs.Chain' (fun earlier later =>
        later.relevance ≤ earlier.relevance ∨
          |earlier.relevance - later.relevance| < EPSILON) :=
  C7_relevance_order_up_to_epsilon (ratingServer ℝ)
    (addDocuments_reachable _ emptyServer_reachable _)
    Real.log "cat".toList isActual ⟨["cat".toList], []⟩ rfl

/-- C9 fails as stated.  On the example server (reachable) six documents match
the query `cat`; the five returned are the documents 0 to 4, of relevance
log(7/6)/1001 and rating 5; document 5 matches and is left out, although its
relevance log(7/6)/1000 is strictly greater than that of every returned
document: the two relevances are within `EPSILON`, and its rating is 1. -/
theorem C9_counterexample :
    Reachable (tieServer ℝ) ∧
    ∃ docs, (tieServer ℝ).FindTopDocuments Real.log "cat".toList isActual = .ok docs ∧
      docs.map (fun doc => doc.id) = [0, 1, 2, 3, 4] ∧
      ((StdMap.keys (tieServer ℝ).documents_).filter
        ((tieServer ℝ).isMatch ⟨["cat".toList], []⟩ isActual)).length = 6 ∧
      (tieServer ℝ).isMatch ⟨["cat".toList], []⟩ isActual 5 = true ∧
      ∀ returned ∈ docs,
        returned.relevance < (tieServer ℝ).relevanceOf Real.log ["cat".toList] 5 := by
  have hf : List.filter (fun d => isActual d .ACTUAL (tieRating d)) [0, 1, 2, 3, 4, 5] =
      [0, 1, 2, 3, 4, 5] := by decide
  refine ⟨tieServer_reachable, _,
    tieServer_FindTopDocuments Real.log log_seven_sixths.1 log_seven_sixths.2 isActual,
    ?_, ?_, ?_, ?_⟩
  · rw [hf]; rfl
  · have hlast : List.filter ((tieServer ℝ).isMatch ⟨["cat".toList], []⟩ isActual) [6] = [] := by
      rw [List.filter_cons, tieServer_isMatch_six]
      rfl
    rw [tieServer_keys, List.filter_append, hlast, List.append_nil,
      List.filter_congr (tieServer_isMatch isActual), hf]
    rfl
  · rw [tieServer_isMatch isActual 5 (by decide)]
    rfl
  · rw [hf, tieServer_relevanceOf Real.log 5 (by decide)]
    intro returned hret
    have hpos := log_seven_sixths.1
    simp only [List.map_cons, List.map_nil, List.take, List.mem_cons, List.mem_singleton,
      List.not_mem_nil, or_false] at hret
    rcases hret with rfl | rfl | rfl | rfl | rfl <;>
    · unfold tieDocument tieFreq
      norm_num
      nlinarith

theorem C9_witness :
    ∃ docs, (tieServer ℝ).FindTopDocuments Real.log "cat".toList isActual = .ok docs ∧
      ∀ d ∈ StdMap.keys (tieServer ℝ).documents_,
        (tieServer ℝ).isMatch ⟨["cat".toList], []⟩ isActual d = true →
        (∀ doc ∈ docs, doc.id ≠ d) →
        ∀ returned ∈ docs,
          (tieServer ℝ).relevanceOf Real.log ["cat".toList] d ≤ returned.relevance ∨
          (|(tieServer ℝ).relevanceOf Real.log ["cat".toList] d - returned.relevance| <
              EPSILON ∧
            (tieServer ℝ).ratingOf d ≤ returned.rating) := by
  have hmem : ∀ d, (tieServer ℝ).isMatch ⟨["cat".toList], []⟩ isActual d = true →
      d ∈ [0, 1, 2, 3, 4, 5] := by
    intro d hd
    have := ((isMatch_iff (tieServer ℝ) _ isActual d).mp hd).2.1
    obtain ⟨w, hw, hhas⟩ := this
    rw [List.mem_singleton.mp hw, tieServer_hasWord] at hhas
    exact of_decide_eq_true hhas
  have hpos := log_seven_sixths.1
  have hlt := log_seven_sixths.2
  have hclose : ∀ a c, a ∈ [0, 1, 2, 3, 4, 5] → c ∈ [0, 1, 2, 3, 4, 5] →
      |(tieServer ℝ).relevanceOf Real.log ["cat".toList] a -
        (tieServer ℝ).relevanceOf Real.log ["cat".toList] c| < EPSILON := by
    intro a c ha hc
    rw [tieServer_relevanceOf Real.log a ha, tieServer_relevanceOf Real.log c hc]
    unfold tieFreq EPSILON
    rw [abs_lt]
    constructor <;> split_ifs <;> nlinarith
  exact C9_top_up_to_epsilon (tieServer ℝ) tieServer_reachable Real.log "cat".toList isActual
    ⟨["cat".toList], []⟩ tieServer_ParseQuery
    (fun a b c ha hb hc _ _ => hclose a c (hmem a ha) (hmem c hc))

end SearchServer

/-! ## What `ParseQuery` returns -/

namespace StdSet

variable {K : Type} [LinearOrder K]

theorem mem_insert (k : K) (s : List K) (x : K) : x ∈ insert k s ↔ x = k ∨ x ∈ s := by
  induction s with
  | nil => simp [insert]
  | cons y rest ih =>
    unfold insert
    split_ifs with h1 h2
    · simp
    · subst h2; simp
    · simp only [List.mem_cons, ih]
      tauto

theorem pairwise_insert (k : K) (s : List K) (h : s.Pairwise (· < ·)) :
    (insert k s).Pairwise (· < ·) := by
  induction s with
  | nil => simp [insert]
  | cons y rest ih =>
    have hc := List.pairwise_cons.mp h
    unfold insert
    split_ifs with h1 h2
    · refine List.pairwise_cons.mpr ⟨?_, h⟩
      intro a ha
      rcases List.mem_cons.mp ha with rfl | ha
      · exact h1
      · exact lt_trans h1 (hc.1 a ha)
    · exact h
    · have h3 : y < k := lt_of_le_of_ne (not_lt.mp h1) (Ne.symm h2)
      refine List.pairwise_cons.mpr ⟨?_, ih hc.2⟩
      intro a ha
      rcases (mem_insert k rest a).mp ha with rfl | ha
      · exact h3
      · exact hc.1 a ha

end StdSet

namespace SearchServer

variable {R : Type} [LinearOrderedField R]

theorem stripMinus_cons_minus (w : List Char) : stripMinus ('-' :: w) = w := rfl

theorem stripMinus_of_head (token : List Char) (h : token.head? ≠ some '-') :
    stripMinus token = token := by
  unfold stripMinus
  split
  · rename_i rest
    exact absurd rfl h
  · rfl

/-- The sets of a query after one more word has been read. -/
theorem parseQueryStep_ok (s : SearchServer R) (query query2 : Query) (word : List Char)
    (h : s.parseQueryStep query word = .ok query2) :
    (∀ w, w ∈ query2.plus_words ↔
      w ∈ query.plus_words ∨ (w = word ∧ w.head? ≠ some '-' ∧ w ∉ s.stop_words_)) ∧
    (∀ w, w ∈ query2.minus_words ↔
      w ∈ query.minus_words ∨ ('-' :: w = word ∧ w ∉ s.stop_words_)) ∧
    (query.plus_words.Pairwise (· < ·) → query2.plus_words.Pairwise (· < ·)) ∧
    (query.minus_words.Pairwise (· < ·) → query2.minus_words.Pairwise (· < ·)) := by
  unfold parseQueryStep at h
  rw [ParseQueryWord_def] at h
  by_cases hnil : word = []
  · rw [if_pos hnil] at h; cases h
  rw [if_neg hnil] at h
  by_cases hval : (!IsValidWord (stripMinus word)) = true
  · rw [if_pos hval] at h; cases h
  rw [if_neg hval] at h
  simp only at h
  have hvalid : ¬ InvalidTerm (stripMinus word) := by
    rw [← IsValidWord_eq_true_iff]; simpa using hval
  by_cases hminus : word.head? = some '-'
  · -- a minus-word
    obtain ⟨rest, hrest⟩ : ∃ rest, word = '-' :: rest := by
      cases word with
      | nil => exact absurd rfl hnil
      | cons c rest =>
        simp only [List.head?_cons, Option.some.injEq] at hminus
        exact ⟨rest, by rw [hminus]⟩
    subst hrest
    rw [stripMinus_cons_minus] at h hvalid
    have hplus : ∀ w : List Char, ¬ (w = '-' :: rest ∧ w.head? ≠ some '-' ∧ w ∉ s.stop_words_) := by
      rintro w ⟨rfl, hh, _⟩
      exact hh rfl
    have hmin : ∀ w : List Char, ('-' :: w = '-' :: rest ∧ w ∉ s.stop_words_) ↔
        (w = rest ∧ rest ∉ s.stop_words_) := by
      intro w
      constructor
      · rintro ⟨he, hs⟩
        have : w = rest := List.tail_eq_of_cons_eq he
        exact ⟨this, this ▸ hs⟩
      · rintro ⟨rfl, hs⟩
        exact ⟨rfl, hs⟩
    by_cases hstop : s.IsStopWord rest = true
    · have hin : rest ∈ s.stop_words_ := (IsStopWord_iff s rest).mp hstop
      simp only [hstop, Bool.not_true, Bool.false_eq_true, if_false, List.head?_cons,
        decide_True] at h
      cases h
      refine ⟨fun w => by simp [hplus w], fun w => ?_, id, id⟩
      rw [hmin]
      constructor
      · exact Or.inl
      · rintro (h | ⟨_, h⟩)
        · exact h
        · exact absurd hin h
    · have hin : rest ∉ s.stop_words_ := fun hh => hstop ((IsStopWord_iff s rest).mpr hh)
      simp only [hstop, Bool.not_false, if_true, List.head?_cons, decide_True] at h
      cases h
      refine ⟨fun w => by simp [hplus w], fun w => ?_, id, fun hp => StdSet.pairwise_insert _ _ hp⟩
      simp only [StdSet.mem_insert, hmin, hin, not_false_eq_true, and_true]
      tauto
  · -- a plus-word
    rw [stripMinus_of_head word hminus] at h hvalid
    have hmin : ∀ w : List Char, ¬ ('-' :: w = word ∧ w ∉ s.stop_words_) := by
      rintro w ⟨rfl, _⟩
      exact hminus rfl
    have hplus : ∀ w : List Char, (w = word ∧ w.head? ≠ some '-' ∧ w ∉ s.stop_words_) ↔
        (w = word ∧ word ∉ s.stop_words_) := by
      intro w
      constructor
      · rintro ⟨rfl, _, hs⟩
        exact ⟨rfl, hs⟩
      · rintro ⟨rfl, hs⟩
        exact ⟨rfl, hminus, hs⟩
    by_cases hstop : s.IsStopWord word = true
    · have hin : word ∈ s.stop_words_ := (IsStopWord_iff s word).mp hstop
      simp only [hstop, Bool.not_true, Bool.false_eq_true, if_false] at h
      cases h
      refine ⟨fun w => ?_, fun w => by simp [hmin w], id, id⟩
      rw [hplus]
      constructor
      · exact Or.inl
      · rintro (h | ⟨_, h⟩)
        · exact h
        · exact absurd hin h
    · have hin : word ∉ s.stop_words_ := fun hh => hstop ((IsStopWord_iff s word).mpr hh)
      simp only [hstop, Bool.not_false, if_true, hminus, decide_False, Bool.false_eq_true,
        if_false] at h
      cases h
      refine ⟨fun w => ?_, fun w => by simp [hmin w], fun hp => StdSet.pairwise_insert _ _ hp, id⟩
      simp only [StdSet.mem_insert, hplus, hin, not_false_eq_true, and_true]
      tauto

theorem parseQueryLoop_ok (s : SearchServer R) (words : List (List Char)) :
    ∀ (query query2 : Query), s.parseQueryLoop words query = .ok query2 →
      (∀ w, w ∈ query2.plus_words ↔
        w ∈ query.plus_words ∨ (w ∈ words ∧ w.head? ≠ some '-' ∧ w ∉ s.stop_words_)) ∧
      (∀ w, w ∈ query2.minus_words ↔
        w ∈ query.minus_words ∨ ('-' :: w ∈ words ∧ w ∉ s.stop_words_)) ∧
      (query.plus_words.Pairwise (· < ·) → query2.plus_words.Pairwise (· < ·)) ∧
      (query.minus_words.Pairwise (· < ·) → query2.minus_words.Pairwise (· < ·)) := by
  induction words with
  | nil =>
    intro query query2 h
    cases h
    simp
  | cons word rest ih =>
    intro query query2 h
    unfold parseQueryLoop at h
    cases hstep : s.parseQueryStep query word with
    | error e => rw [hstep] at h; cases h
    | ok query1 =>
      rw [hstep] at h
      obtain ⟨a1, a2, a3, a4⟩ := parseQueryStep_ok s query query1 word hstep
      obtain ⟨b1, b2, b3, b4⟩ := ih query1 query2 h
      refine ⟨fun w => ?_, fun w => ?_, fun hp => b3 (a3 hp), fun hp => b4 (a4 hp)⟩
      · rw [b1, a1]
        simp only [List.mem_cons]
        constructor
        · rintro ((h | ⟨h1, h2⟩) | ⟨h1, h2⟩)
          · exact Or.inl h
          · exact Or.inr ⟨Or.inl h1, h2⟩
          · exact Or.inr ⟨Or.inr h1, h2⟩
        · rintro (h | ⟨h1 | h1, h2⟩)
          · exact Or.inl (Or.inl h)
          · exact Or.inl (Or.inr ⟨h1, h2⟩)
          · exact Or.inr ⟨h1, h2⟩
      · rw [b2, a2]
        simp only [List.mem_cons]
        constructor
        · rintro ((h | ⟨h1, h2⟩) | ⟨h1, h2⟩)
          · exact Or.inl h
          · exact Or.inr ⟨Or.inl h1, h2⟩
          · exact Or.inr ⟨Or.inr h1, h2⟩
        · rintro (h | ⟨h1 | h1, h2⟩)
          · exact Or.inl (Or.inl h)
          · exact Or.inl (Or.inr ⟨h1, h2⟩)
          · exact Or.inr ⟨h1, h2⟩

/-- The two sets of a parsed query, and their order. -/
theorem ParseQuery_ok (s : SearchServer R) (text : List Char) (query : Query)
    (h : s.ParseQuery text = .ok query) :
    (∀ w, w ∈ query.plus_words ↔
      w ∈ SplitIntoWords text ∧ w.head? ≠ some '-' ∧ w ∉ s.stop_words_) ∧
    (∀ w, w ∈ query.minus_words ↔ '-' :: w ∈ SplitIntoWords text ∧ w ∉ s.stop_words_) ∧
    query.plus_words.Pairwise (· < ·) ∧ query.minus_words.Pairwise (· < ·) := by
  obtain ⟨h1, h2, h3, h4⟩ := parseQueryLoop_ok s (SplitIntoWords text) ⟨[], []⟩ query h
  exact ⟨fun w => by simpa using h1 w, fun w => by simpa using h2 w,
    h3 List.Pairwise.nil, h4 List.Pairwise.nil⟩

/-- C11. For a raw query that parses, the plus-terms `ParseQuery` returns are
exactly the words of the query without a leading `-` that are not stop words,
and the minus-terms are exactly the words `w` for which `-w` is a word of the
query and `w` is not a stop word; each is a set (strictly ascending, so without
repetition).  The two are built independently: a term written both as `w` and
as `-w` is in both, and a stop word is in neither, however it is written. -/
theorem C11_ParseQuery_sets (s : SearchServer R) (text : List Char) (query : Query)
    (h : s.ParseQuery text = .ok query) :
    (∀ w, w ∈ query.plus_words ↔
      w ∈ SplitIntoWords text ∧ w.head? ≠ some '-' ∧ w ∉ s.stop_words_) ∧
    (∀ w, w ∈ query.minus_words ↔ '-' :: w ∈ SplitIntoWords text ∧ w ∉ s.stop_words_) ∧
    query.plus_words.Pairwise (fun a b => List.Lex (· < ·) a b) ∧
    query.minus_words.Pairwise (fun a b => List.Lex (· < ·) a b) ∧
    (∀ w, w ∈ SplitIntoWords text → '-' :: w ∈ SplitIntoWords text → w ∉ s.stop_words_ →
      w ∈ query.plus_words ∧ w ∈ query.minus_words) ∧
    (∀ w ∈ s.stop_words_, w ∉ query.plus_words ∧ w ∉ query.minus_words) := by
  obtain ⟨h1, h2, h3, h4⟩ := ParseQuery_ok s text query h
  refine ⟨h1, h2, h3, h4, ?_, ?_⟩
  · intro w hw hmw hs
    refine ⟨(h1 w).mpr ⟨hw, ?_, hs⟩, (h2 w).mpr ⟨hmw, hs⟩⟩
    intro hhead
    -- a word `-x` written with the marker is `--x`, which does not parse
    cases w with
    | nil => simp at hhead
    | cons c rest =>
      simp only [List.head?_cons, Option.some.injEq] at hhead
      subst hhead
      have hinv : InvalidTerm (stripMinus ('-' :: '-' :: rest)) := by
        rw [stripMinus_cons_minus]
        right; left; rfl
      have := (ParseQuery_error_iff s text .invalid_argument).mpr ⟨rfl, _, hmw, hinv⟩
      rw [h] at this
      cases this
  · intro w hw
    exact ⟨fun hp => ((h1 w).mp hp).2.2 hw, fun hm => ((h2 w).mp hm).2 hw⟩

theorem C11_witness :
    (minusWordsServer ℝ).ParseQuery "cat -cat in -the city -dog".toList =
      .ok ⟨["cat".toList, "city".toList], ["cat".toList, "dog".toList]⟩ ∧
    (∀ w, w ∈ ["cat".toList, "city".toList] ↔
      w ∈ SplitIntoWords "cat -cat in -the city -dog".toList ∧ w.head? ≠ some '-' ∧
        w ∉ (minusWordsServer ℝ).stop_words_) ∧
    (∀ w, w ∈ ["cat".toList, "dog".toList] ↔
      '-' :: w ∈ SplitIntoWords "cat -cat in -the city -dog".toList ∧
        w ∉ (minusWordsServer ℝ).stop_words_) :=
  ⟨rfl,
   (C11_ParseQuery_sets (minusWordsServer ℝ) "cat -cat in -the city -dog".toList
      ⟨["cat".toList, "city".toList], ["cat".toList, "dog".toList]⟩ rfl).1,
   (C11_ParseQuery_sets (minusWordsServer ℝ) "cat -cat in -the city -dog".toList
      ⟨["cat".toList, "city".toList], ["cat".toList, "dog".toList]⟩ rfl).2.1⟩

end SearchServer

/-! ## Stop words -/

namespace SearchServer

variable {R : Type} [LinearOrderedField R]

theorem AddDocument_stop_words (s : SearchServer R) (document_id : Int)
    (document : List Char) (status : DocumentStatus) (ratings : List Int) :
    (s.AddDocument document_id document status ratings).2.stop_words_ = s.stop_words_ := by
  rw [AddDocument_def]
  split_ifs <;> rfl

/-- In every reachable state the stop words are valid words. -/
theorem Reachable.stop_words_valid {s : SearchServer R} (h : Reachable s) :
    ∀ w ∈ s.stop_words_, IsValidWord w = true := by
  induction h with
  | construct stop_words s hs =>
    rw [construct_def] at hs
    split_ifs at hs with hany
    cases hs
    intro w hw
    by_contra hv
    apply hany
    exact List.any_eq_true.mpr ⟨w, hw, by simpa using hv⟩
  | AddDocument s document_id document status ratings _ ih =>
    rw [AddDocument_stop_words]
    exact ih

/-- A word of the query that is a valid stop word leaves the query as it is. -/
theorem parseQueryStep_stop_word (s : SearchServer R) (query : Query) (word : List Char)
    (hstop : word ∈ s.stop_words_) (hvalid : IsValidWord word = true) :
    s.parseQueryStep query word = .ok query := by
  have hnot : ¬ InvalidTerm word := (IsValidWord_eq_true_iff word).mp hvalid
  have hne : word ≠ [] := fun h => hnot (Or.inl h)
  have hhead : word.head? ≠ some '-' := fun h => hnot (Or.inr (Or.inl h))
  unfold parseQueryStep
  rw [ParseQueryWord_def, if_neg hne, stripMinus_of_head word hhead]
  simp [hvalid, (IsStopWord_iff s word).mpr hstop]

theorem parseQueryLoop_stop_words (s : SearchServer R) (words : List (List Char))
    (query : Query) (hstop : ∀ w ∈ words, w ∈ s.stop_words_)
    (hvalid : ∀ w ∈ s.stop_words_, IsValidWord w = true) :
    s.parseQueryLoop words query = .ok query := by
  induction words with
  | nil => rfl
  | cons w rest ih =>
    unfold parseQueryLoop
    rw [parseQueryStep_stop_word s query w (hstop w (List.mem_cons_self _ _))
      (hvalid w (hstop w (List.mem_cons_self _ _)))]
    exact ih (fun x hx => hstop x (List.mem_cons_of_mem _ hx))

theorem addDocuments_stop_words
    (calls : List (Int × List Char × DocumentStatus × List Int)) :
    ∀ s : SearchServer R, (s.addDocuments calls).stop_words_ = s.stop_words_ := by
  induction calls with
  | nil => intro s; rfl
  | cons c rest ih =>
    obtain ⟨id, text, status, ratings⟩ := c
    intro s
    rw [addDocuments_cons, ih, AddDocument_stop_words]

theorem mem_foldl_insert_nonempty (strings : List (List Char)) (w : List Char) :
    ∀ acc : List (List Char),
      w ∈ strings.foldl (fun non_empty_strings str =>
        if str ≠ [] then StdSet.insert str non_empty_strings else non_empty_strings) acc ↔
      w ∈ acc ∨ (w ∈ strings ∧ w ≠ []) := by
  induction strings with
  | nil => intro acc; simp
  | cons x rest ih =>
    intro acc
    rw [List.foldl_cons, ih]
    by_cases hx : x ≠ []
    · rw [if_pos hx, StdSet.mem_insert, List.mem_cons]
      constructor
      · rintro ((h | h) | h)
        · exact Or.inr ⟨Or.inl h, h ▸ hx⟩
        · exact Or.inl h
        · exact Or.inr ⟨Or.inr h.1, h.2⟩
      · rintro (h | ⟨h | h, hne⟩)
        · exact Or.inl (Or.inr h)
        · exact Or.inl (Or.inl h)
        · exact Or.inr ⟨h, hne⟩
    · rw [if_neg hx, List.mem_cons]
      have hx2 : x = [] := not_not.mp hx
      constructor
      · rintro (h | h)
        · exact Or.inl h
        · exact Or.inr ⟨Or.inr h.1, h.2⟩
      · rintro (h | ⟨h | h, hne⟩)
        · exact Or.inl h
        · exact absurd (h.trans hx2) hne
        · exact Or.inr ⟨h, hne⟩

/-- The stop words of a constructed server are the non-empty strings given to
the constructor. -/
theorem mem_stop_words_of_construct (stop_words : List (List Char)) (s : SearchServer R)
    (h : construct stop_words = .ok s) (w : List Char) :
    w ∈ s.stop_words_ ↔ w ∈ stop_words ∧ w ≠ [] := by
  rw [construct_def] at h
  split_ifs at h
  cases h
  have := mem_foldl_insert_nonempty stop_words w []
  simpa [MakeUniqueNonEmptyStrings] using this

/-- C12. Stop words never match: for a server built by the constructor from the
stop words `S` and any sequence of `AddDocument` calls, and for every
predicate, a query all of whose words are words of `S` parses to the empty
query and `FindTopDocuments` returns the empty sequence. -/
theorem C12_stop_words_never_match (stop_words : List (List Char)) (s0 : SearchServer R)
    (h0 : construct stop_words = .ok s0)
    (calls : List (Int × List Char × DocumentStatus × List Int)) (log : R → R)
    (raw_query : List Char) (predicate : Int → DocumentStatus → Int → Bool)
    (h : ∀ token ∈ SplitIntoWords raw_query, token ∈ stop_words) :
    (s0.addDocuments calls).ParseQuery raw_query = .ok ⟨[], []⟩ ∧
    (s0.addDocuments calls).FindTopDocuments log raw_query predicate = .ok [] := by
  have hs : Reachable (s0.addDocuments calls) :=
    addDocuments_reachable s0 (Reachable.construct stop_words s0 h0) calls
  have hstop : ∀ token ∈ SplitIntoWords raw_query,
      token ∈ (s0.addDocuments calls).stop_words_ := by
    intro token ht
    rw [addDocuments_stop_words, mem_stop_words_of_construct stop_words s0 h0]
    exact ⟨h token ht, SplitIntoWords_nonempty raw_query token ht⟩
  have hq : (s0.addDocuments calls).ParseQuery raw_query = .ok ⟨[], []⟩ :=
    parseQueryLoop_stop_words _ _ _ hstop hs.stop_words_valid
  refine ⟨hq, ?_⟩
  unfold FindTopDocuments
  rw [hq]
  rfl

/-- The server of the test with the stop words `in the` and two documents that
contain them: the query `in the in` finds nothing. -/
theorem C12_witness :
    ((inTheServer ℝ).addDocuments
      [(0, "cat in the city".toList, .ACTUAL, [1, 2, 3]),
       (1, "cat in the garden".toList, .ACTUAL, [1, 2, 3])]).FindTopDocuments Real.log
      "in the in".toList isActual = .ok [] :=
  (C12_stop_words_never_match ["in".toList, "the".toList] (inTheServer ℝ) rfl
    [(0, "cat in the city".toList, .ACTUAL, [1, 2, 3]),
     (1, "cat in the garden".toList, .ACTUAL, [1, 2, 3])] Real.log "in the in".toList isActual
    (by decide)).2

end SearchServer

/-! ## `MatchDocument` -/

namespace SearchServer

variable {R : Type} [LinearOrderedField R]

/-- The test `MatchDocument` makes on a word is whether the document has a
posting under it. -/
theorem hasWord_of_find (s : SearchServer R) (h : s.WellFormed) (document_id : Int)
    (word : List Char) :
    (StdMap.find s.word_to_document_freqs_ word = none → s.hasWord document_id word = false) ∧
    (∀ postings, StdMap.find s.word_to_document_freqs_ word = some postings →
      s.hasWord document_id word = decide (StdMap.count postings document_id ≠ 0)) := by
  unfold hasWord postingsOf
  constructor
  · intro hf
    rw [hf]
    simp [StdMap.keys]
  · intro postings hf
    have hm := (StdMap.find_eq_some_iff _ h.freqs_ordered word postings).mp hf
    have hord := h.postings_ordered _ hm
    rw [hf]
    simp only [Option.getD_some]
    by_cases hk : document_id ∈ StdMap.keys postings
    · rw [decide_eq_true hk, decide_eq_true ((StdMap.count_ne_zero_iff _ hord _).mpr hk)]
    · rw [decide_eq_false hk,
        decide_eq_false (fun hc => hk ((StdMap.count_ne_zero_iff _ hord _).mp hc))]

/-- What `MatchDocument` does in a well-formed state once the query has parsed. -/
theorem MatchDocument_eq (s : SearchServer R) (h : s.WellFormed) (raw_query : List Char)
    (document_id : Int) (query : Query) (hq : s.ParseQuery raw_query = .ok query) :
    s.MatchDocument raw_query document_id =
      match StdMap.atKey s.documents_ document_id with
      | .error e => .error e
      | .ok doc =>
        .ok (if query.minus_words.any (fun word => s.hasWord document_id word) then []
          else query.plus_words.filter (fun word => s.hasWord document_id word), doc.status) := by
  have hfun : ∀ f : List Char → Bool, (∀ w, f w = s.hasWord document_id w) →
      (if query.minus_words.any f then [] else query.plus_words.filter f) =
        if query.minus_words.any (fun word => s.hasWord document_id word) then []
          else query.plus_words.filter (fun word => s.hasWord document_id word) := by
    intro f hf
    have : f = fun word => s.hasWord document_id word := funext hf
    rw [this]
  unfold MatchDocument
  rw [hq]
  simp only
  cases StdMap.atKey s.documents_ document_id with
  | error e => rfl
  | ok doc =>
    simp only
    refine congrArg (fun l => Except.ok (l, doc.status)) (hfun _ ?_)
    intro w
    split
    · rename_i hf
      exact ((hasWord_of_find s h document_id w).1 hf).symm
    · rename_i postings hf
      exact ((hasWord_of_find s h document_id w).2 postings hf).symm

theorem atKey_of_mem (s : SearchServer R) (h : s.WellFormed) (document_id : Int)
    (data : DocumentData) (hd : (document_id, data) ∈ s.documents_) :
    StdMap.atKey s.documents_ document_id = .ok data :=
  atKey_eq_ok _ _ _ ((StdMap.find_eq_some_iff _ h.documents_ordered _ _).mpr hd)

/-- C13. In a reachable state, for a stored document and a query that parses
and none of whose minus-terms has a posting of the document: `MatchDocument`
returns the stored status and a word list that is strictly ascending in the
lexicographic order (so each word is there once) and holds exactly the
plus-terms of the query under which the document has a posting. -/
theorem C13_MatchDocument_words (s : SearchServer R) (hs : Reachable s)
    (raw_query : List Char) (document_id : Int) (query : Query)
    (hq : s.ParseQuery raw_query = .ok query)
    (data : DocumentData) (hd : (document_id, data) ∈ s.documents_)
    (hminus : ∀ m ∈ query.minus_words, ¬ ∃ postings tf,
      (m, postings) ∈ s.word_to_document_freqs_ ∧ (document_id, tf) ∈ postings) :
    ∃ words, s.MatchDocument raw_query document_id = .ok (words, data.status) ∧
      words.Pairwise (fun a b => List.Lex (· < ·) a b) ∧
      ∀ w, w ∈ words ↔ w ∈ query.plus_words ∧ ∃ postings tf,
        (w, postings) ∈ s.word_to_document_freqs_ ∧ (document_id, tf) ∈ postings := by
  have hwf := hs.wellFormed
  have hno : query.minus_words.any (fun word => s.hasWord document_id word) = false := by
    rw [List.any_eq_false]
    intro m hm hhas
    exact hminus m hm ((hasWord_iff s hwf document_id m).mp hhas)
  refine ⟨query.plus_words.filter (fun word => s.hasWord document_id word), ?_, ?_, ?_⟩
  · rw [MatchDocument_eq s hwf raw_query document_id query hq,
      atKey_of_mem s hwf document_id data hd]
    simp [hno]
  · exact (ParseQuery_ok s raw_query query hq).2.2.1.sublist (List.filter_sublist _)
  · intro w
    rw [List.mem_filter, hasWord_iff s hwf]

/-- C14. In a reachable state, for a query that parses: when the document has
a posting under some minus-term of the query, `MatchDocument` returns the empty
word list (with the stored status of the document), whatever plus-terms the
document has. -/
theorem C14_MatchDocument_minus (s : SearchServer R) (hs : Reachable s)
    (raw_query : List Char) (document_id : Int) (query : Query)
    (hq : s.ParseQuery raw_query = .ok query)
    (m : List Char) (hm : m ∈ query.minus_words) (postings : List (Int × R)) (tf : R)
    (hpost : (m, postings) ∈ s.word_to_document_freqs_) (hd : (document_id, tf) ∈ postings) :
    ∃ data, (document_id, data) ∈ s.documents_ ∧
      s.MatchDocument raw_query document_id = .ok ([], data.status) := by
  have hwf := hs.wellFormed
  have hkey : document_id ∈ StdMap.keys s.documents_ := hwf.postings_stored _ hpost _ hd
  obtain ⟨⟨id2, data⟩, hmem, hid⟩ := List.mem_map.mp hkey
  simp only at hid
  subst hid
  have hany : query.minus_words.any (fun word => s.hasWord id2 word) = true :=
    List.any_eq_true.mpr ⟨m, hm, (hasWord_iff s hwf id2 m).mpr ⟨postings, tf, hpost, hd⟩⟩
  refine ⟨data, hmem, ?_⟩
  rw [MatchDocument_eq s hwf raw_query id2 query hq, atKey_of_mem s hwf id2 data hmem]
  simp [hany]

/-- C15, as amended. In a reachable state, for a query that parses:
`MatchDocument` called with an id that is not that of a stored document throws
`out_of_range` (from the checked access to the record of the document) and
returns no word list. -/
theorem C15_MatchDocument_absent_id (s : SearchServer R) (hs : Reachable s)
    (raw_query : List Char) (document_id : Int) (query : Query)
    (hq : s.ParseQuery raw_query = .ok query)
    (habsent : document_id ∉ StdMap.keys s.documents_) :
    s.MatchDocument raw_query document_id = .error .out_of_range := by
  have hwf := hs.wellFormed
  have hnone : StdMap.find s.documents_ document_id = none :=
    (StdMap.find_eq_none_iff _ hwf.documents_ordered _).mpr habsent
  rw [MatchDocument_eq s hwf raw_query document_id query hq]
  unfold StdMap.atKey
  rw [hnone]

/-- C15 fails as stated.  The server of the test (reachable) stores the
documents 0 and 1; the query `cat` parses; `MatchDocument` called with it and
the id 7 does not return an empty word list, it throws `out_of_range`. -/
theorem C15_counterexample :
    Reachable (minusWordsServer ℝ) ∧
    StdMap.keys (minusWordsServer ℝ).documents_ = [0, 1] ∧
    (minusWordsServer ℝ).ParseQuery "cat".toList = .ok ⟨["cat".toList], []⟩ ∧
    (minusWordsServer ℝ).MatchDocument "cat".toList 7 = .error .out_of_range ∧
    ∀ status, (minusWordsServer ℝ).MatchDocument "cat".toList 7 ≠ .ok ([], status) :=
  ⟨addDocuments_reachable _ inTheServer_reachable _, rfl, rfl, rfl,
    fun _ h => Except.noConfusion
      ((rfl : (minusWordsServer ℝ).MatchDocument "cat".toList 7 = .error .out_of_range).symm.trans
        h)⟩

theorem C13_witness :
    ∃ words, (minusWordsServer ℝ).MatchDocument "city some other words cat".toList 0 =
        .ok (words, DocumentStatus.ACTUAL) ∧
      words.Pairwise (fun a b => List.Lex (· < ·) a b) ∧
      ∀ w, w ∈ words ↔
        w ∈ ["cat".toList, "city".toList, "other".toList, "some".toList, "words".toList] ∧
        ∃ postings tf, (w, postings) ∈ (minusWordsServer ℝ).word_to_document_freqs_ ∧
          ((0 : Int), tf) ∈ postings :=
  C13_MatchDocument_words (minusWordsServer ℝ)
    (addDocuments_reachable _ inTheServer_reachable _) "city some other words cat".toList 0
    ⟨["cat".toList, "city".toList, "other".toList, "some".toList, "words".toList], []⟩ rfl
    ⟨2, .ACTUAL⟩ (List.mem_cons_self _ _) (fun m hm => absurd hm (List.not_mem_nil m))

theorem C14_witness :
    ∃ data, ((0 : Int), data) ∈ (minusWordsServer ℝ).documents_ ∧
      (minusWordsServer ℝ).MatchDocument "cat -city some other words".toList 0 =
        .ok ([], data.status) := by
  have hr : Reachable (minusWordsServer ℝ) := addDocuments_reachable _ inTheServer_reachable _
  obtain ⟨postings, tf, h1, h2⟩ :=
    (hasWord_iff (minusWordsServer ℝ) hr.wellFormed 0 "city".toList).mp (by decide)
  exact C14_MatchDocument_minus (minusWordsServer ℝ) hr "cat -city some other words".toList 0
    ⟨["cat".toList, "other".toList, "some".toList, "words".toList], ["city".toList]⟩ rfl
    "city".toList (by decide) postings tf h1 h2

theorem C15_witness :
    (minusWordsServer ℝ).MatchDocument "cat -city".toList 7 = .error .out_of_range :=
  C15_MatchDocument_absent_id (minusWordsServer ℝ)
    (addDocuments_reachable _ inTheServer_reachable _) "cat -city".toList 7
    ⟨["cat".toList], ["city".toList]⟩ rfl (by decide)

end SearchServer

/-! ## The average rating -/

/-- A value that fits the type `int` is stored unchanged. -/
theorem wrapInt32_of_fits {x : Int} (h : FitsInt32 x) : wrapInt32 x = x := by
  unfold FitsInt32 at h
  unfold wrapInt32
  omega

/-- The stored value always fits the type `int`. -/
theorem fitsInt32_wrapInt32 (x : Int) : FitsInt32 (wrapInt32 x) := by
  unfold FitsInt32 wrapInt32
  omega

/-- While every running sum fits the type `int`, the accumulation in an `int`
is the exact sum. -/
theorem foldl_wrapInt32_exact (ratings : List Int) :
    ∀ acc : Int, (∀ n, n ≤ ratings.length → FitsInt32 (acc + (ratings.take n).sum)) →
      ratings.foldl (fun acc rating => wrapInt32 (acc + rating)) acc =
        acc + ratings.sum := by
  induction ratings with
  | nil =>
    intro acc _
    simp
  | cons r rs ih =>
    intro acc h
    have h1 : FitsInt32 (acc + r) := by
      have h0 := h 1 (by simp)
      simpa using h0
    rw [List.foldl_cons, wrapInt32_of_fits h1, ih (acc + r), List.sum_cons]
    · omega
    · intro n hn
      have h0 := h (n + 1) (by simpa using hn)
      rw [List.take_succ_cons, List.sum_cons] at h0
      rw [Int.add_assoc]
      exact h0

/-- In the range of exact accumulation `ComputeAverageRating` of a non-empty
list is the truncated quotient of the exact sum by the count. -/
theorem ComputeAverageRating_exact (ratings : List Int) (hne : ratings ≠ [])
    (hlen : FitsInt32 (ratings.length : Int))
    (hsum : ∀ n, n ≤ ratings.length → FitsInt32 (ratings.take n).sum) :
    ComputeAverageRating ratings = Int.tdiv ratings.sum (ratings.length : Int) := by
  unfold ComputeAverageRating
  rw [if_neg hne]
  have hfold := foldl_wrapInt32_exact ratings 0 (by
    intro n hn
    rw [Int.zero_add]
    exact hsum n hn)
  rw [Int.zero_add] at hfold
  simp only [hfold, wrapInt32_of_fits hlen]

/-- C16 fails as stated.  The ratings 2147483647 and 1 are both values of the
type `int`; their sum 2147483648 is not, the `int` accumulator holds -2147483648
after the second addition, and `ComputeAverageRating` returns -1073741824, while
the sum of the ratings divided by their count, truncated toward zero, is
1073741824.  So the result is not the truncated quotient of the sum by the
count for every non-empty list. -/
theorem C16_counterexample :
    FitsInt32 2147483647 ∧ FitsInt32 1 ∧ ¬ FitsInt32 (2147483647 + 1) ∧
    ComputeAverageRating [2147483647, 1] = -1073741824 ∧
    Int.tdiv ([2147483647, 1] : List Int).sum
      (([2147483647, 1] : List Int).length : Int) = 1073741824 ∧
    ¬ (∀ ratings : List Int, ratings ≠ [] →
        ComputeAverageRating ratings = Int.tdiv ratings.sum (ratings.length : Int)) := by
  refine ⟨by decide, by decide, by decide, by decide, by decide, ?_⟩
  intro h
  have h0 := h [2147483647, 1] (by decide)
  revert h0
  decide

/-- C16, amended.  For a list of ratings whose count and whose running sums
(the sums of its initial segments, the whole list included) all fit the 32-bit
type `int`: `ComputeAverageRating` returns 0 for the empty list; for any other
list it returns the sum divided by the number of ratings with the quotient
truncated toward zero: its magnitude is the whole part of |sum| / count and its
sign is never opposite to that of the sum.  The values of the tests follow, and
for `[-1, -6]` the result is -3 where flooring would give -4. -/
theorem C16_ComputeAverageRating_truncates (ratings : List Int)
    (hlen : FitsInt32 (ratings.length : Int))
    (hsum : ∀ n, n ≤ ratings.length → FitsInt32 (ratings.take n).sum) :
    (ratings = [] → ComputeAverageRating ratings = 0) ∧
    (ratings ≠ [] →
      ComputeAverageRating ratings = Int.tdiv ratings.sum (ratings.length : Int) ∧
      (ComputeAverageRating ratings).natAbs = ratings.sum.natAbs / ratings.length ∧
      (0 ≤ ratings.sum → 0 ≤ ComputeAverageRating ratings) ∧
      (ratings.sum ≤ 0 → ComputeAverageRating ratings ≤ 0)) ∧
    ComputeAverageRating [1, 2, 3, 4] = 2 ∧ ComputeAverageRating [3, 5] = 4 ∧
    ComputeAverageRating [-1, -5] = -3 ∧ ComputeAverageRating [-1, 1] = 0 ∧
    ComputeAverageRating [-10, 0, 10, 20] = 5 ∧ ComputeAverageRating [0] = 0 ∧
    ComputeAverageRating [-1, -6] = -3 ∧ Int.fdiv (-7) 2 = -4 := by
  refine ⟨?_, ?_, by decide, by decide, by decide, by decide, by decide, by decide,
    by decide, by decide⟩
  · intro h
    unfold ComputeAverageRating
    rw [if_pos h]
  · intro h
    rw [ComputeAverageRating_exact ratings h hlen hsum]
    have hnonneg : (0 : Int) ≤ (ratings.length : Int) := Int.ofNat_nonneg _
    refine ⟨rfl, ?_, ?_, ?_⟩
    · rw [Int.natAbs_tdiv, Int.natAbs_ofNat]
      rfl
    · intro hpos
      exact Int.tdiv_nonneg hpos hnonneg
    · intro hneg
      have h1 : 0 ≤ (-ratings.sum).tdiv (ratings.length : Int) :=
        Int.tdiv_nonneg (by omega) hnonneg
      rw [Int.neg_tdiv] at h1
      omega

/-- The list of one of the tests, `[-10, 0, 10, 20]`, has four ratings and the
running sums 0, -10, -10, 0 and 20, which all fit; its average is the truncated
quotient of the sum 20 by 4, that is 5. -/
theorem C16_witness :
    FitsInt32 (([-10, 0, 10, 20] : List Int).length : Int) ∧
    (∀ n, n ≤ ([-10, 0, 10, 20] : List Int).length →
      FitsInt32 (([-10, 0, 10, 20] : List Int).take n).sum) ∧
    ComputeAverageRating [-10, 0, 10, 20] =
      Int.tdiv ([-10, 0, 10, 20] : List Int).sum
        (([-10, 0, 10, 20] : List Int).length : Int) ∧
    Int.tdiv ([-10, 0, 10, 20] : List Int).sum
      (([-10, 0, 10, 20] : List Int).length : Int) = 5 :=
  ⟨by decide, by decide,
    ((C16_ComputeAverageRating_truncates [-10, 0, 10, 20] (by decide) (by decide)).2.1
      (by decide)).1,
    by decide⟩

/-! ## The history of a server -/

namespace StdMap

variable {K V : Type} [LinearOrder K]

theorem length_update_of_find_none (k : K) (f : Option V → V) (m : List (K × V))
    (h : find m k = none) : (update k f m).length = m.length + 1 := by
  induction m with
  | nil => rfl
  | cons e rest ih =>
    obtain ⟨k0, v0⟩ := e
    unfold find at h
    unfold update
    split_ifs at h ⊢ with h1 h2
    · rfl
    · simp [ih h]

end StdMap

namespace SearchServer

variable {R : Type} [LinearOrderedField R]

/-- What an accepted call of `AddDocument` has checked, and the state it leaves. -/
theorem AddDocument_of_ok (s : SearchServer R) (document_id : Int) (document : List Char)
    (status : DocumentStatus) (ratings : List Int)
    (h : (s.AddDocument document_id document status ratings).1 = .ok ()) :
    ¬ document_id < 0 ∧ StdMap.find s.documents_ document_id = none ∧
    (∀ w ∈ s.SplitIntoWordsNoStop document, IsValidWord w = true) ∧
    (s.AddDocument document_id document status ratings).2 =
      ⟨s.stop_words_,
        (s.SplitIntoWordsNoStop document).foldl
          (fun freqs word => addTermFrequency freqs word document_id
            (1 / ((s.SplitIntoWordsNoStop document).length : R)))
          s.word_to_document_freqs_,
        StdMap.emplace document_id ⟨ComputeAverageRating ratings, status⟩ s.documents_,
        s.document_ids_ ++ [document_id]⟩ := by
  rw [AddDocument_def] at h ⊢
  split_ifs at h ⊢ with h1 h2 h3
  refine ⟨h1, ?_, ?_, rfl⟩
  · rw [← StdMap.count_eq_zero_iff]
    exact not_not.mp h2
  · intro w hw
    by_contra hv
    exact h3 (List.any_eq_true.mpr ⟨w, hw, by simpa using hv⟩)

theorem AddDocument_outcome (s : SearchServer R) (document_id : Int) (document : List Char)
    (status : DocumentStatus) (ratings : List Int) :
    (s.AddDocument document_id document status ratings).1 = .ok () ∨
    (s.AddDocument document_id document status ratings).1 = .error .invalid_argument := by
  rw [AddDocument_def]
  split_ifs
  · exact Or.inr rfl
  · exact Or.inr rfl
  · exact Or.inr rfl
  · exact Or.inl rfl

theorem addDocuments_append (s : SearchServer R)
    (pre post : List (Int × List Char × DocumentStatus × List Int)) :
    s.addDocuments (pre ++ post) = (s.addDocuments pre).addDocuments post := by
  induction pre generalizing s with
  | nil => rfl
  | cons c rest ih =>
    obtain ⟨id, text, status, ratings⟩ := c
    simp only [List.cons_append, addDocuments_cons]
    exact ih _

/-- Every record of the final state was there at the start or was stored by an
accepted call of the sequence with the average of the ratings of that call. -/
theorem documents_history (calls : List (Int × List Char × DocumentStatus × List Int)) :
    ∀ (s : SearchServer R) (e : Int × DocumentData), e ∈ (s.addDocuments calls).documents_ →
      e ∈ s.documents_ ∨
      ∃ pre text status ratings post, calls = pre ++ (e.1, text, status, ratings) :: post ∧
        ((s.addDocuments pre).AddDocument e.1 text status ratings).1 = .ok () ∧
        e.2 = ⟨ComputeAverageRating ratings, status⟩ := by
  induction calls with
  | nil => intro s e he; exact Or.inl he
  | cons c rest ih =>
    obtain ⟨id, text, status, ratings⟩ := c
    intro s e he
    rw [addDocuments_cons] at he
    rcases ih _ e he with h1 | ⟨pre, text2, status2, ratings2, post, hsplit, hok, hdata⟩
    · rcases AddDocument_outcome s id text status ratings with hok | herr
      · obtain ⟨_, hfresh, _, hstate⟩ := AddDocument_of_ok s id text status ratings hok
        rw [hstate] at h1
        rcases StdMap.mem_update _ _ _ _ h1 with h | h | ⟨v, hv, h⟩
        · exact Or.inl h
        · right
          refine ⟨[], text, status, ratings, rest, ?_, ?_, ?_⟩
          · rw [h]; rfl
          · rw [h]; exact hok
          · rw [h]; rfl
        · left
          rw [h]
          exact hv
      · have hsame := AddDocument_state_of_error s id text status ratings
          (by rw [herr]; exact fun h => by cases h)
        rw [hsame] at h1
        exact Or.inl h1
    · right
      refine ⟨(id, text, status, ratings) :: pre, text2, status2, ratings2, post, ?_, ?_, hdata⟩
      · rw [hsplit]; rfl
      · rw [addDocuments_cons]; exact hok

theorem construct_empty (stop_words : List (List Char)) (s : SearchServer R)
    (h : construct stop_words = .ok s) :
    s.word_to_document_freqs_ = [] ∧ s.documents_ = [] ∧ s.document_ids_ = [] := by
  rw [construct_def] at h
  split_ifs at h
  cases h
  exact ⟨rfl, rfl, rfl⟩

theorem ratingOf_of_mem (s : SearchServer R) (h : s.WellFormed) (d : Int) (data : DocumentData)
    (hd : (d, data) ∈ s.documents_) : s.ratingOf d = data.rating := by
  unfold ratingOf
  rw [(StdMap.find_eq_some_iff _ h.documents_ordered _ _).mpr hd]

theorem AddDocument_find_documents (s : SearchServer R) (document_id : Int)
    (document : List Char) (status : DocumentStatus) (ratings : List Int) (d : Int)
    (data : DocumentData) (h : StdMap.find s.documents_ d = some data) :
    StdMap.find (s.AddDocument document_id document status ratings).2.documents_ d =
      some data := by
  rcases AddDocument_outcome s document_id document status ratings with hok | herr
  · obtain ⟨_, hfresh, _, hstate⟩ := AddDocument_of_ok s document_id document status ratings hok
    rw [hstate]
    simp only [StdMap.emplace, StdMap.find_update]
    split_ifs with hd
    · rw [hd, hfresh] at h
      cases h
    · exact h
  · rw [AddDocument_state_of_error s document_id document status ratings
      (by rw [herr]; exact fun h => by cases h)]
    exact h

/-- A record, once stored, stays as it is through every later call. -/
theorem addDocuments_find_documents
    (calls : List (Int × List Char × DocumentStatus × List Int)) :
    ∀ (s : SearchServer R) (d : Int) (data : DocumentData),
      StdMap.find s.documents_ d = some data →
      StdMap.find (s.addDocuments calls).documents_ d = some data := by
  induction calls with
  | nil => intro s d data h; exact h
  | cons c rest ih =>
    obtain ⟨id, text, status, ratings⟩ := c
    intro s d data h
    rw [addDocuments_cons]
    exact ih _ d data (AddDocument_find_documents s id text status ratings d data h)

/-- An accepted call stores the average of its ratings under its id, and the
record is the one found under that id after any further calls. -/
theorem find_documents_of_accepted (s : SearchServer R) (document_id : Int)
    (document : List Char) (status : DocumentStatus) (ratings : List Int)
    (post : List (Int × List Char × DocumentStatus × List Int))
    (h : (s.AddDocument document_id document status ratings).1 = .ok ()) :
    StdMap.find ((s.AddDocument document_id document status ratings).2.addDocuments
      post).documents_ document_id = some ⟨ComputeAverageRating ratings, status⟩ := by
  apply addDocuments_find_documents
  obtain ⟨_, hfresh, _, hstate⟩ := AddDocument_of_ok s document_id document status ratings h
  rw [hstate]
  simp only [StdMap.emplace, StdMap.find_update, if_true, hfresh, Option.getD_none]

/-- C17. For a server built by a constructor and a sequence of `AddDocument`
calls, and a query that parses, `FindTopDocuments` returns, and for each
returned document the sequence has an accepted call with the id of the
document; the rating of the document is `ComputeAverageRating` of the ratings
passed to that call, and to any accepted call of the sequence with that id. -/
theorem C17_rating_is_average_of_stored_ratings (stop_words : List (List Char))
    (s0 : SearchServer R) (h0 : construct stop_words = .ok s0)
    (calls : List (Int × List Char × DocumentStatus × List Int)) (log : R → R)
    (raw_query : List Char) (predicate : Int → DocumentStatus → Int → Bool) (query : Query)
    (hq : (s0.addDocuments calls).ParseQuery raw_query = .ok query) :
    ∃ docs, (s0.addDocuments calls).FindTopDocuments log raw_query predicate = .ok docs ∧
      ∀ doc ∈ docs,
        (∃ pre text status ratings post,
          calls = pre ++ (doc.id, text, status, ratings) :: post ∧
          ((s0.addDocuments pre).AddDocument doc.id text status ratings).1 = .ok () ∧
          doc.rating = ComputeAverageRating ratings) ∧
        ∀ pre text status ratings post,
          calls = pre ++ (doc.id, text, status, ratings) :: post →
          ((s0.addDocuments pre).AddDocument doc.id text status ratings).1 = .ok () →
          doc.rating = ComputeAverageRating ratings := by
  have hr : Reachable (s0.addDocuments calls) :=
    addDocuments_reachable s0 (Reachable.construct stop_words s0 h0) calls
  refine ⟨_, FindTopDocuments_eq _ hr log raw_query predicate query hq, ?_⟩
  intro doc hdoc
  have hmem := (mem_matchedDocuments _ log query predicate doc).mp
    (mem_of_mem_top _ log query predicate doc hdoc)
  have hall : ∀ pre text status ratings post,
      calls = pre ++ (doc.id, text, status, ratings) :: post →
      ((s0.addDocuments pre).AddDocument doc.id text status ratings).1 = .ok () →
      doc.rating = ComputeAverageRating ratings := by
    intro pre text status ratings post hsplit hok
    have hfind := find_documents_of_accepted (s0.addDocuments pre) doc.id text status ratings
      post hok
    rw [← addDocuments_cons, ← addDocuments_append, ← hsplit] at hfind
    rw [hmem.2.2.2]
    unfold ratingOf
    rw [hfind]
  refine ⟨?_, hall⟩
  obtain ⟨⟨id2, data⟩, hin, hid⟩ := List.mem_map.mp hmem.1
  have hid2 : id2 = doc.id := hid
  rw [hid2] at hin
  rcases documents_history calls s0 (doc.id, data) hin with
    h | ⟨pre, text, status, ratings, post, hsplit, hok, hdata⟩
  · rw [(construct_empty stop_words s0 h0).2.1] at h
    cases h
  · exact ⟨pre, text, status, ratings, post, hsplit, hok,
      hall pre text status ratings post hsplit hok⟩

/-- The server of `TestCalculateAverageRating` after its third call. -/
theorem C17_witness :
    ∃ docs, ((emptyServer ℝ).addDocuments
        [(1, "1".toList, .ACTUAL, [1, 2, 3, 4]), (2, "2".toList, .ACTUAL, []),
         (3, "3".toList, .ACTUAL, [3, 5])]).FindTopDocuments Real.log "3".toList
        isActual = .ok docs ∧
      ∀ doc ∈ docs,
        (∃ pre text status ratings post,
          [(1, "1".toList, DocumentStatus.ACTUAL, [1, 2, 3, 4]), (2, "2".toList, .ACTUAL, []),
            (3, "3".toList, .ACTUAL, [3, 5])] =
            pre ++ (doc.id, text, status, ratings) :: post ∧
          (((emptyServer ℝ).addDocuments pre).AddDocument doc.id text status ratings).1 =
            .ok () ∧
          doc.rating = ComputeAverageRating ratings) ∧
        ∀ pre text status ratings post,
          [(1, "1".toList, DocumentStatus.ACTUAL, [1, 2, 3, 4]), (2, "2".toList, .ACTUAL, []),
            (3, "3".toList, .ACTUAL, [3, 5])] =
            pre ++ (doc.id, text, status, ratings) :: post →
          (((emptyServer ℝ).addDocuments pre).AddDocument doc.id text status ratings).1 =
            .ok () →
          doc.rating = ComputeAverageRating ratings :=
  C17_rating_is_average_of_stored_ratings [] (emptyServer ℝ) rfl _ Real.log "3".toList isActual
    ⟨["3".toList], []⟩ rfl

theorem document_ids_history (calls : List (Int × List Char × DocumentStatus × List Int)) :
    ∀ (s : SearchServer R),
      (s.addDocuments calls).document_ids_ = s.document_ids_ ++ s.acceptedIds calls ∧
      (s.addDocuments calls).documents_.length =
        s.documents_.length + (s.acceptedIds calls).length := by
  induction calls with
  | nil => intro s; simp [addDocuments_nil, acceptedIds]
  | cons c rest ih =>
    obtain ⟨id, text, status, ratings⟩ := c
    intro s
    rw [addDocuments_cons]
    obtain ⟨ih1, ih2⟩ := ih (s.AddDocument id text status ratings).2
    rcases AddDocument_outcome s id text status ratings with hok | herr
    · obtain ⟨_, hfresh, _, hstate⟩ := AddDocument_of_ok s id text status ratings hok
      have hacc : s.acceptedIds ((id, text, status, ratings) :: rest) =
          id :: (s.AddDocument id text status ratings).2.acceptedIds rest := by
        simp only [acceptedIds, hok]
      rw [ih1, ih2, hacc]
      constructor
      · rw [hstate]
        simp
      · rw [hstate]
        simp only [StdMap.emplace, StdMap.length_update_of_find_none _ _ _ hfresh,
          List.length_cons]
        omega
    · have hsame := AddDocument_state_of_error s id text status ratings
        (by rw [herr]; exact fun h => by cases h)
      have hacc : s.acceptedIds ((id, text, status, ratings) :: rest) =
          (s.AddDocument id text status ratings).2.acceptedIds rest := by
        simp only [acceptedIds, herr]
      rw [ih1, ih2, hacc, hsame]
      exact ⟨rfl, rfl⟩

end SearchServer

/-! ## Document ids in insertion order, and the document count -/

namespace SearchServer

variable {R : Type} [LinearOrderedField R]

theorem GetDocumentId_of_lt (s : SearchServer R) (index : Int) (h0 : 0 ≤ index)
    (h : index.toNat < s.document_ids_.length) :
    s.GetDocumentId index = .ok (s.document_ids_.get ⟨index.toNat, h⟩) := by
  unfold GetDocumentId
  rw [if_neg (not_lt.mpr h0), List.get?_eq_get h]

theorem GetDocumentId_error_iff (s : SearchServer R) (index : Int) :
    s.GetDocumentId index = .error .out_of_range ↔
      index < 0 ∨ (s.document_ids_.length : Int) ≤ index := by
  unfold GetDocumentId
  split_ifs with h
  · exact ⟨fun _ => Or.inl h, fun _ => rfl⟩
  · have h0 : 0 ≤ index := not_lt.mp h
    by_cases hlt : index.toNat < s.document_ids_.length
    · rw [List.get?_eq_get hlt]
      constructor
      · intro he; cases he
      · rintro (hneg | hge)
        · exact absurd hneg h
        · omega
    · rw [List.get?_eq_none.mpr (not_lt.mp hlt)]
      constructor
      · intro _
        right
        omega
      · intro _; rfl

/-- The ids in insertion order and the stored records after a history. -/
theorem history_of_construct (stop_words : List (List Char)) (s0 : SearchServer R)
    (h0 : construct stop_words = .ok s0)
    (calls : List (Int × List Char × DocumentStatus × List Int)) :
    (s0.addDocuments calls).document_ids_ = s0.acceptedIds calls ∧
    (s0.addDocuments calls).documents_.length = (s0.acceptedIds calls).length := by
  obtain ⟨h1, h2⟩ := document_ids_history calls s0
  obtain ⟨_, hd, hi⟩ := construct_empty stop_words s0 h0
  rw [hi] at h1
  rw [hd] at h2
  exact ⟨by simpa using h1, by simpa using h2⟩

/-- C19. For a server built by a constructor and a sequence of `AddDocument`
calls, the document count `n` is the number of accepted calls; for
`0 ≤ index < n`, `GetDocumentId index` returns the id passed to the accepted
call number `index + 1`; and it fails with `out_of_range` if and only if
`index < 0` or `n ≤ index`, returning a value otherwise. -/
theorem C19_GetDocumentId_insertion_order (stop_words : List (List Char))
    (s0 : SearchServer R) (h0 : construct stop_words = .ok s0)
    (calls : List (Int × List Char × DocumentStatus × List Int)) (index : Int) :
    (s0.addDocuments calls).GetDocumentCount = ((s0.acceptedIds calls).length : Int) ∧
    (0 ≤ index → index < (s0.addDocuments calls).GetDocumentCount →
      ∃ document_id, (s0.acceptedIds calls).get? index.toNat = some document_id ∧
        (s0.addDocuments calls).GetDocumentId index = .ok document_id) ∧
    ((s0.addDocuments calls).GetDocumentId index = .error .out_of_range ↔
      index < 0 ∨ (s0.addDocuments calls).GetDocumentCount ≤ index) ∧
    ((∃ document_id, (s0.addDocuments calls).GetDocumentId index = .ok document_id) ↔
      0 ≤ index ∧ index < (s0.addDocuments calls).GetDocumentCount) := by
  obtain ⟨hids, hlen⟩ := history_of_construct stop_words s0 h0 calls
  have hcount : (s0.addDocuments calls).GetDocumentCount =
      ((s0.acceptedIds calls).length : Int) := by
    unfold GetDocumentCount
    rw [hlen]
  have hlen2 : (s0.addDocuments calls).document_ids_.length = (s0.acceptedIds calls).length := by
    rw [hids]
  have hok : 0 ≤ index → index < (s0.addDocuments calls).GetDocumentCount →
      ∃ document_id, (s0.acceptedIds calls).get? index.toNat = some document_id ∧
        (s0.addDocuments calls).GetDocumentId index = .ok document_id := by
    intro hge hlt
    rw [hcount] at hlt
    have hn : index.toNat < (s0.addDocuments calls).document_ids_.length := by
      rw [hlen2]; omega
    refine ⟨_, ?_, GetDocumentId_of_lt _ index hge hn⟩
    rw [← hids, List.get?_eq_get hn]
  have herr := GetDocumentId_error_iff (s0.addDocuments calls) index
  rw [hlen2, ← hcount] at herr
  refine ⟨hcount, hok, herr, ?_⟩
  constructor
  · rintro ⟨document_id, hid⟩
    by_contra hcon
    have hout : index < 0 ∨ (s0.addDocuments calls).GetDocumentCount ≤ index := by
      by_cases hneg : index < 0
      · exact Or.inl hneg
      · right
        by_contra hge
        exact hcon ⟨not_lt.mp hneg, not_le.mp hge⟩
    rw [herr.mpr hout] at hid
    cases hid
  · rintro ⟨hge, hlt⟩
    obtain ⟨document_id, _, hid⟩ := hok hge hlt
    exact ⟨document_id, hid⟩

/-- The server of `TestGetDocumentIndexCanThrowsOutOfRangeException`: one
document; the indices -1 and 23 are out of range and the index 0 gives the id. -/
theorem C19_witness :
    ((emptyServer ℝ).addDocuments [(0, "asd".toList, .ACTUAL, [])]).GetDocumentCount = 1 ∧
    ((emptyServer ℝ).addDocuments [(0, "asd".toList, .ACTUAL, [])]).GetDocumentId (-1) =
      .error .out_of_range ∧
    ((emptyServer ℝ).addDocuments [(0, "asd".toList, .ACTUAL, [])]).GetDocumentId 23 =
      .error .out_of_range ∧
    ((emptyServer ℝ).addDocuments [(0, "asd".toList, .ACTUAL, [])]).GetDocumentId 0 = .ok 0 :=
  ⟨(C19_GetDocumentId_insertion_order [] (emptyServer ℝ) rfl
      [(0, "asd".toList, .ACTUAL, [])] 0).1,
    (C19_GetDocumentId_insertion_order [] (emptyServer ℝ) rfl
      [(0, "asd".toList, .ACTUAL, [])] (-1)).2.2.1.mpr (Or.inl (by decide)),
    (C19_GetDocumentId_insertion_order [] (emptyServer ℝ) rfl
      [(0, "asd".toList, .ACTUAL, [])] 23).2.2.1.mpr (Or.inr (by
        rw [(C19_GetDocumentId_insertion_order [] (emptyServer ℝ) rfl
          [(0, "asd".toList, .ACTUAL, [])] 23).1]
        decide)),
    rfl⟩

/-- C20. `GetDocumentCount` is 0 after a constructor; after a sequence of
`AddDocument` calls it is the number of calls of the sequence that were
accepted; and in every state an accepted call raises it by exactly 1 while a
rejected call leaves it. -/
theorem C20_GetDocumentCount_counts_accepted (stop_words : List (List Char))
    (s0 : SearchServer R) (h0 : construct stop_words = .ok s0)
    (calls : List (Int × List Char × DocumentStatus × List Int)) :
    s0.GetDocumentCount = 0 ∧
    (s0.addDocuments calls).GetDocumentCount = ((s0.acceptedIds calls).length : Int) ∧
    ∀ (s : SearchServer R) (document_id : Int) (document : List Char) (status : DocumentStatus)
      (ratings : List Int),
      ((s.AddDocument document_id document status ratings).1 = .ok () →
        (s.AddDocument document_id document status ratings).2.GetDocumentCount =
          s.GetDocumentCount + 1) ∧
      ((s.AddDocument document_id document status ratings).1 ≠ .ok () →
        (s.AddDocument document_id document status ratings).2.GetDocumentCount =
          s.GetDocumentCount) := by
  refine ⟨?_, ?_, ?_⟩
  · unfold GetDocumentCount
    rw [(construct_empty stop_words s0 h0).2.1]
    rfl
  · unfold GetDocumentCount
    rw [(history_of_construct stop_words s0 h0 calls).2]
  · intro s document_id document status ratings
    constructor
    · intro hok
      obtain ⟨_, hfresh, _, hstate⟩ := AddDocument_of_ok s document_id document status ratings hok
      rw [hstate]
      unfold GetDocumentCount
      simp only [StdMap.emplace, StdMap.length_update_of_find_none _ _ _ hfresh]
      push_cast
      rfl
    · intro herr
      rw [AddDocument_state_of_error s document_id document status ratings herr]

/-- The server of `TestAddDocument`: empty at first, then one document, then two. -/
theorem C20_witness :
    (emptyServer ℝ).GetDocumentCount = 0 ∧
    ((emptyServer ℝ).addDocuments [(0, "asd".toList, .ACTUAL, [])]).GetDocumentCount = 1 ∧
    ((emptyServer ℝ).addDocuments
      [(0, "asd".toList, .ACTUAL, []), (1, "qwe".toList, .ACTUAL, [])]).GetDocumentCount = 2 :=
  ⟨(C20_GetDocumentCount_counts_accepted [] (emptyServer ℝ) rfl []).1,
    (C20_GetDocumentCount_counts_accepted [] (emptyServer ℝ) rfl
      [(0, "asd".toList, .ACTUAL, [])]).2.1,
    (C20_GetDocumentCount_counts_accepted [] (emptyServer ℝ) rfl
      [(0, "asd".toList, .ACTUAL, []), (1, "qwe".toList, .ACTUAL, [])]).2.1⟩

end SearchServer

/-! ## The term frequencies stored by `AddDocument` -/

namespace SearchServer

variable {R : Type} [LinearOrderedField R]

/-- A fresh document id has no posting under any word. -/
theorem find_postingsOf_fresh (s : SearchServer R) (h : s.WellFormed) (word : List Char)
    (document_id : Int) (hfresh : StdMap.find s.documents_ document_id = none) :
    StdMap.find ((StdMap.find s.word_to_document_freqs_ word).getD []) document_id = none := by
  have hp := postingsOf_wellFormed s h word
  unfold postingsOf at hp
  rw [StdMap.find_eq_none_iff _ hp.1]
  intro hmem
  obtain ⟨p, hp1, hp2⟩ := List.mem_map.mp hmem
  have hk := hp.2 p hp1
  rw [hp2] at hk
  exact (StdMap.find_eq_none_iff _ h.documents_ordered _).mp hfresh hk

theorem SplitIntoWordsNoStop_eq (s : SearchServer R) (text : List Char) :
    s.SplitIntoWordsNoStop text =
      (SplitIntoWords text).filter (fun token => decide (token ∉ s.stop_words_)) := by
  unfold SplitIntoWordsNoStop
  apply List.filter_congr
  intro token _
  by_cases h : token ∈ s.stop_words_
  · simp [h, (IsStopWord_iff s token).mpr h]
  · have hf : s.IsStopWord token = false := by
      cases hc : s.IsStopWord token with
      | false => rfl
      | true => exact absurd ((IsStopWord_iff s token).mp hc) h
    simp [h, hf]

/-- C18, as amended: in exact arithmetic.  After an accepted `AddDocument` in a
reachable state, with `words` the tokens of the text that are not stop words
(the stop-word tokens are dropped before anything is counted) and `k` their
number: for every word `w` of `words`, `k ≥ 1`, `w` is no stop word, it occurs
in `words` as often as in the text, and the inverted index stores under `w` and
the id the sum of one `1 / k` per occurrence, which in an ordered field is
(occurrences of `w` in `words`) / `k`, in (0, 1]; under a word that is not in
`words`, such as a stop word, nothing is stored for the id. -/
theorem C18_term_frequency_stored (s : SearchServer R) (hs : Reachable s) (document_id : Int)
    (document : List Char) (status : DocumentStatus) (ratings : List Int)
    (hok : (s.AddDocument document_id document status ratings).1 = .ok ()) :
    s.SplitIntoWordsNoStop document =
      (SplitIntoWords document).filter (fun token => decide (token ∉ s.stop_words_)) ∧
    ∀ w : List Char,
      (w ∈ s.SplitIntoWordsNoStop document →
        1 ≤ (s.SplitIntoWordsNoStop document).length ∧ w ∉ s.stop_words_ ∧
        (s.SplitIntoWordsNoStop document).count w = (SplitIntoWords document).count w ∧
        (∃ postings,
          StdMap.find (s.AddDocument document_id document status ratings).2.word_to_document_freqs_
            w = some postings ∧
          StdMap.find postings document_id =
            some (((s.SplitIntoWordsNoStop document).count w : R) /
              ((s.SplitIntoWordsNoStop document).length : R))) ∧
        (0 : R) < ((s.SplitIntoWordsNoStop document).count w : R) /
          ((s.SplitIntoWordsNoStop document).length : R) ∧
        ((s.SplitIntoWordsNoStop document).count w : R) /
          ((s.SplitIntoWordsNoStop document).length : R) ≤ 1) ∧
      (w ∉ s.SplitIntoWordsNoStop document →
        ∀ postings,
          StdMap.find (s.AddDocument document_id document status ratings).2.word_to_document_freqs_
            w = some postings →
          StdMap.find postings document_id = none) := by
  obtain ⟨_, hfresh, _, hstate⟩ := AddDocument_of_ok s document_id document status ratings hok
  have hwf := hs.wellFormed
  have heq := SplitIntoWordsNoStop_eq s document
  refine ⟨heq, ?_⟩
  intro w
  have hfind := find_foldl_addTermFrequency document_id
    (1 / ((s.SplitIntoWordsNoStop document).length : R)) (s.SplitIntoWordsNoStop document)
    s.word_to_document_freqs_ w
  have hnone := find_postingsOf_fresh s hwf w document_id hfresh
  constructor
  · intro hw
    have hpos : 0 < (s.SplitIntoWordsNoStop document).length := List.length_pos_of_mem hw
    have hposR : (0 : R) < ((s.SplitIntoWordsNoStop document).length : R) := by
      exact_mod_cast hpos
    have hcount : 0 < (s.SplitIntoWordsNoStop document).count w := List.count_pos_iff.mpr hw
    have hcountR : (0 : R) < ((s.SplitIntoWordsNoStop document).count w : R) := by
      exact_mod_cast hcount
    have hle : ((s.SplitIntoWordsNoStop document).count w : R) ≤
        ((s.SplitIntoWordsNoStop document).length : R) := by
      exact_mod_cast List.count_le_length w (s.SplitIntoWordsNoStop document)
    have hnostop : w ∉ s.stop_words_ := by
      rw [heq] at hw
      simpa using (List.mem_filter.mp hw).2
    refine ⟨hpos, hnostop, ?_, ?_, div_pos hcountR hposR, (div_le_one hposR).mpr hle⟩
    · rw [heq, List.count_filter]
      simpa using hnostop
    · rw [hstate]
      rw [if_pos hw] at hfind
      refine ⟨_, hfind, ?_⟩
      rw [StdMap.find_update, if_pos rfl, hnone]
      simp only [Option.getD_none, zero_add]
      rw [mul_one_div]
  · intro hw
    intro postings hp
    rw [hstate] at hp
    rw [if_neg hw] at hfind
    have hp2 : StdMap.find s.word_to_document_freqs_ w = some postings := by
      rw [← hfind]
      exact hp
    rw [hp2] at hnone
    exact hnone

/-- Adding `cat in the city cat` under the stop words `in the`: three words
survive and `cat` gets the frequency 2 / 3. -/
theorem C18_witness :
    (inTheServer ℝ).SplitIntoWordsNoStop "cat in the city cat".toList =
      ["cat".toList, "city".toList, "cat".toList] ∧
    ∃ postings,
      StdMap.find ((inTheServer ℝ).AddDocument 0 "cat in the city cat".toList .ACTUAL
        [1, 2, 3]).2.word_to_document_freqs_ "cat".toList = some postings ∧
      StdMap.find postings 0 = some (((2 : ℕ) : ℝ) / ((3 : ℕ) : ℝ)) :=
  ⟨rfl, ((C18_term_frequency_stored (inTheServer ℝ) inTheServer_reachable 0
    "cat in the city cat".toList .ACTUAL [1, 2, 3] rfl).2 "cat".toList).1 (by decide) |>.2.2.2.1⟩

end SearchServer

/-! ## `SplitIntoWords`: the maximal runs of characters other than the space -/

theorem modifyHead_nil_append (l : List (List Char)) :
    l.modifyHead (fun piece => [] ++ piece) = l := by
  cases l <;> rfl

/-- The result of `SplitIntoWords`, from any state of its loop: the words so
far, then the pieces between spaces of the rest of the text, the first of them
continuing the current word, with the empty pieces left out. -/
theorem foldl_splitStep_splitOn (text : List Char) :
    ∀ (words : List (List Char)) (word : List Char),
      (if (text.foldl splitStep (words, word)).2 ≠ [] then
          (text.foldl splitStep (words, word)).1 ++ [(text.foldl splitStep (words, word)).2]
        else (text.foldl splitStep (words, word)).1) =
        words ++ ((text.splitOn ' ').modifyHead (fun piece => word ++ piece)).filter
          (fun piece => decide (piece ≠ [])) := by
  induction text with
  | nil =>
    intro words word
    by_cases h : word = []
    · simp [h]
    · simp [h]
  | cons c rest ih =>
    intro words word
    rw [List.foldl_cons]
    by_cases hc : c = ' '
    · have hsplit : (c :: rest).splitOn ' ' = [] :: rest.splitOn ' ' := by
        unfold List.splitOn
        rw [List.splitOnP_cons, if_pos (by simp [hc])]
      rw [hsplit]
      by_cases hw : word = []
      · have hstep : splitStep (words, word) c = (words, []) := by
          unfold splitStep
          simp [hc, hw]
        rw [hstep, ih words [], modifyHead_nil_append]
        simp [hw]
      · have hstep : splitStep (words, word) c = (words ++ [word], []) := by
          unfold splitStep
          simp [hc, hw]
        rw [hstep, ih (words ++ [word]) [], modifyHead_nil_append]
        simp [hw]
    · have hsplit : (c :: rest).splitOn ' ' = (rest.splitOn ' ').modifyHead (List.cons c) := by
        unfold List.splitOn
        rw [List.splitOnP_cons, if_neg (by simp [hc])]
      have hstep : splitStep (words, word) c = (words, word ++ [c]) := by
        unfold splitStep
        rw [if_neg hc]
      rw [hsplit, hstep, ih words (word ++ [c]), List.modifyHead_modifyHead]
      congr 3
      funext piece
      simp

theorem SplitIntoWords_eq_splitOn (text : List Char) :
    SplitIntoWords text = (text.splitOn ' ').filter (fun piece => decide (piece ≠ [])) := by
  have h := foldl_splitStep_splitOn text [] []
  unfold SplitIntoWords
  simp only at h ⊢
  rw [h, modifyHead_nil_append]
  rfl

theorem foldl_splitStep_no_space (text : List Char) :
    ∀ (st : List (List Char) × List Char), (∀ w ∈ st.1, ' ' ∉ w) → ' ' ∉ st.2 →
      (∀ w ∈ (text.foldl splitStep st).1, ' ' ∉ w) ∧ ' ' ∉ (text.foldl splitStep st).2 := by
  induction text with
  | nil => intro st h1 h2; exact ⟨h1, h2⟩
  | cons c rest ih =>
    intro st h1 h2
    rw [List.foldl_cons]
    apply ih
    · unfold splitStep
      split_ifs with hc hw
      · intro w hw2
        rcases List.mem_append.mp hw2 with h | h
        · exact h1 w h
        · rw [List.mem_singleton.mp h]; exact h2
      · exact h1
      · exact h1
    · unfold splitStep
      split_ifs with hc hw
      · exact List.not_mem_nil _
      · exact h2
      · intro hmem
        rcases List.mem_append.mp hmem with h | h
        · exact h2 h
        · exact hc (List.mem_singleton.mp h).symm

theorem SplitIntoWords_no_space (text : List Char) : ∀ w ∈ SplitIntoWords text, ' ' ∉ w := by
  have h := foldl_splitStep_no_space text ([], []) (by simp) (by simp)
  unfold SplitIntoWords
  simp only
  split_ifs with h1
  · intro w hw
    rcases List.mem_append.mp hw with hw | hw
    · exact h.1 w hw
    · rw [List.mem_singleton.mp hw]; exact h.2
  · exact h.1

theorem foldl_splitStep_flatten (text : List Char) :
    ∀ (st : List (List Char) × List Char),
      (text.foldl splitStep st).1.flatten ++ (text.foldl splitStep st).2 =
        st.1.flatten ++ st.2 ++ text.filter (fun c => decide (c ≠ ' ')) := by
  induction text with
  | nil => intro st; simp
  | cons c rest ih =>
    intro st
    rw [List.foldl_cons, ih]
    unfold splitStep
    split_ifs with hc hw
    · simp [hc]
    · simp [hc, not_not.mp hw]
    · simp [hc]

theorem SplitIntoWords_flatten (text : List Char) :
    (SplitIntoWords text).flatten = text.filter (fun c => decide (c ≠ ' ')) := by
  have h := foldl_splitStep_flatten text ([], [])
  unfold SplitIntoWords
  simp only
  split_ifs with h1
  · simpa using h
  · rw [not_not.mp h1] at h
    simpa using h

/-- A text without spaces is one word, or none when it is empty. -/
theorem SplitIntoWords_word (w : List Char) (hw : ' ' ∉ w) (hne : w ≠ []) :
    SplitIntoWords w = [w] := by
  have h := foldl_splitStep_word w hw [] [] []
  unfold SplitIntoWords
  rw [List.append_nil] at h
  rw [h]
  simp [hne]

/-- C27. For every text, `SplitIntoWords` returns the pieces of the text between
space characters, in order, without the empty pieces: the maximal runs of
characters other than the space.  Every word is non-empty and has no space,
the words concatenated are the text with its spaces removed, a text of spaces
only has no words, leading spaces are skipped, a run followed by a space is a
word of its own, a text without spaces is one word, and a tab or another
control character stays inside its word. -/
theorem C27_SplitIntoWords_maximal_runs (text : List Char) :
    SplitIntoWords text = (text.splitOn ' ').filter (fun piece => decide (piece ≠ [])) ∧
    (∀ w ∈ SplitIntoWords text, w ≠ [] ∧ ' ' ∉ w) ∧
    (SplitIntoWords text).flatten = text.filter (fun c => decide (c ≠ ' ')) ∧
    SplitIntoWords (' ' :: text) = SplitIntoWords text ∧
    (∀ w : List Char, ' ' ∉ w → w ≠ [] →
      SplitIntoWords w = [w] ∧
      SplitIntoWords (w ++ ' ' :: text) = w :: SplitIntoWords text) ∧
    SplitIntoWords [] = [] ∧
    SplitIntoWords "  cat \tin\nthe   city ".toList =
      ["cat".toList, "\tin\nthe".toList, "city".toList] := by
  refine ⟨SplitIntoWords_eq_splitOn text,
    fun w hw => ⟨SplitIntoWords_nonempty text w hw, SplitIntoWords_no_space text w hw⟩,
    SplitIntoWords_flatten text, ?_, ?_, rfl, by decide⟩
  · unfold SplitIntoWords
    rw [List.foldl_cons]
    rfl
  · intro w hw hne
    refine ⟨SplitIntoWords_word w hw hne, ?_⟩
    have h := foldl_splitStep_word w hw [] [] (' ' :: text)
    have h2 := foldl_splitStep_splitOn text [w] []
    have h3 := foldl_splitStep_splitOn text [] []
    rw [modifyHead_nil_append] at h2 h3
    have hstep : splitStep ([], [] ++ w) ' ' = ([w], []) := by
      unfold splitStep
      simp [hne]
    unfold SplitIntoWords
    simp only at h2 h3 ⊢
    rw [h, List.foldl_cons, hstep, h2, h3]
    rfl

/-! ## Invariants of the stored ids, terms and frequencies -/

namespace SearchServer

variable {R : Type} [LinearOrderedField R]

/-- C29. In every reachable state (a constructor, then any `AddDocument` calls,
accepted or rejected): the ids of the insertion-order sequence are
non-negative and pairwise distinct, and an id is in that sequence exactly when
it has a document record; the records have pairwise distinct ids too, one per
entry of the sequence. -/
theorem C29_ids_nonnegative_and_distinct (s : SearchServer R) (hs : Reachable s) :
    (∀ document_id ∈ s.document_ids_, 0 ≤ document_id) ∧
    s.document_ids_.Nodup ∧
    (∀ document_id, document_id ∈ s.document_ids_ ↔
      document_id ∈ StdMap.keys s.documents_) ∧
    (StdMap.keys s.documents_).Nodup ∧
    s.document_ids_.length = s.documents_.length := by
  induction hs with
  | construct stop_words s h =>
    obtain ⟨_, hd, hi⟩ := construct_empty stop_words s h
    rw [hd, hi]
    simp [StdMap.keys]
  | AddDocument s document_id document status ratings hs ih =>
    obtain ⟨ih1, ih2, ih3, ih4, ih5⟩ := ih
    rcases AddDocument_outcome s document_id document status ratings with hok | herr
    · obtain ⟨hneg, hfresh, _, hstate⟩ :=
        AddDocument_of_ok s document_id document status ratings hok
      have hwf := hs.wellFormed
      have hnew : document_id ∉ StdMap.keys s.documents_ :=
        (StdMap.find_eq_none_iff _ hwf.documents_ordered _).mp hfresh
      have hwf2 := AddDocument_wellFormed s document_id document status ratings hwf
      rw [hstate] at hwf2
      rw [hstate]
      refine ⟨?_, ?_, ?_, ?_, ?_⟩
      · intro d hd
        rcases List.mem_append.mp hd with h | h
        · exact ih1 d h
        · rw [List.mem_singleton.mp h]
          exact not_lt.mp hneg
      · rw [List.nodup_append]
        refine ⟨ih2, List.nodup_singleton _, ?_⟩
        intro d hd1 hd2
        rw [List.mem_singleton.mp hd2] at hd1
        exact hnew ((ih3 document_id).mp hd1)
      · intro d
        simp only [StdMap.emplace, StdMap.keys_update, List.mem_append, List.mem_singleton]
        rw [ih3 d]
        tauto
      · exact (hwf2.documents_ordered).imp (fun h => ne_of_lt h)
      · simp only [StdMap.emplace, StdMap.length_update_of_find_none _ _ _ hfresh,
          List.length_append, List.length_singleton, ih5]
    · rw [AddDocument_state_of_error s document_id document status ratings
        (by rw [herr]; exact fun h => by cases h)]
      exact ⟨ih1, ih2, ih3, ih4, ih5⟩

/-- The server of `TestAddDocument` after its two calls and a repeated id. -/
theorem C29_witness :
    (∀ document_id ∈ ((emptyServer ℝ).addDocuments
        [(0, "asd".toList, .ACTUAL, []), (1, "qwe".toList, .ACTUAL, []),
         (0, "zxc".toList, .ACTUAL, []), (-1, "zxc".toList, .ACTUAL, [])]).document_ids_,
      0 ≤ document_id) ∧
    ((emptyServer ℝ).addDocuments
        [(0, "asd".toList, .ACTUAL, []), (1, "qwe".toList, .ACTUAL, []),
         (0, "zxc".toList, .ACTUAL, []), (-1, "zxc".toList, .ACTUAL, [])]).document_ids_.Nodup ∧
    ((emptyServer ℝ).addDocuments
        [(0, "asd".toList, .ACTUAL, []), (1, "qwe".toList, .ACTUAL, []),
         (0, "zxc".toList, .ACTUAL, []), (-1, "zxc".toList, .ACTUAL, [])]).document_ids_ =
      [0, 1] :=
  ⟨(C29_ids_nonnegative_and_distinct _ (addDocuments_reachable _ emptyServer_reachable _)).1,
    (C29_ids_nonnegative_and_distinct _ (addDocuments_reachable _ emptyServer_reachable _)).2.1,
    rfl⟩

/-- What an accepted call leaves in the inverted index: an entry is an old one,
or it is the entry of a word of the document, whose postings are the old
postings of the word and the posting of the new document, with the frequency
(occurrences of the word) times 1 / (number of words). -/
theorem AddDocument_freqs_mem (s : SearchServer R) (hwf : s.WellFormed) (document_id : Int)
    (document : List Char) (status : DocumentStatus) (ratings : List Int)
    (hok : (s.AddDocument document_id document status ratings).1 = .ok ())
    (e : List Char × List (Int × R))
    (he : e ∈ (s.AddDocument document_id document status ratings).2.word_to_document_freqs_) :
    e ∈ s.word_to_document_freqs_ ∨
    (e.1 ∈ s.SplitIntoWordsNoStop document ∧
      ∀ p ∈ e.2, p ∈ s.postingsOf e.1 ∨
        p = (document_id, ((s.SplitIntoWordsNoStop document).count e.1 : R) *
          (1 / ((s.SplitIntoWordsNoStop document).length : R)))) := by
  obtain ⟨_, hfresh, _, hstate⟩ := AddDocument_of_ok s document_id document status ratings hok
  have hwf2 := AddDocument_wellFormed s document_id document status ratings hwf
  have hf := (StdMap.find_eq_some_iff _ hwf2.freqs_ordered e.1 e.2).mpr he
  rw [hstate] at hf
  simp only at hf
  rw [find_foldl_addTermFrequency] at hf
  split_ifs at hf with hw
  · right
    refine ⟨hw, ?_⟩
    intro p hp
    have he2 := (Option.some.inj hf).symm
    rw [he2] at hp
    have hnone := find_postingsOf_fresh s hwf e.1 document_id hfresh
    have hord := (postingsOf_wellFormed s hwf e.1).1
    unfold postingsOf at hord
    rcases StdMap.mem_update _ _ _ _ hp with h | h | ⟨v, hv, _⟩
    · exact Or.inl h
    · right
      rw [h]
      simp
    · rw [(StdMap.find_eq_some_iff _ hord _ _).mpr hv] at hnone
      cases hnone
  · left
    exact (StdMap.find_eq_some_iff _ hwf.freqs_ordered e.1 e.2).mp hf

/-- In every reachable state the keys of the inverted index are valid words and
the stored term frequencies are in (0, 1]. -/
theorem freqs_valid_of_reachable (s : SearchServer R) (hs : Reachable s) :
    ∀ e ∈ s.word_to_document_freqs_,
      IsValidWord e.1 = true ∧ ∀ p ∈ e.2, 0 < p.2 ∧ p.2 ≤ 1 := by
  induction hs with
  | construct stop_words s h =>
    rw [(construct_empty stop_words s h).1]
    intro e he
    cases he
  | AddDocument s document_id document status ratings hs ih =>
    rcases AddDocument_outcome s document_id document status ratings with hok | herr
    · intro e he
      obtain ⟨_, _, hvalid, _⟩ := AddDocument_of_ok s document_id document status ratings hok
      rcases AddDocument_freqs_mem s hs.wellFormed document_id document status ratings hok e he
        with hold | ⟨hw, hpost⟩
      · exact ih e hold
      · refine ⟨hvalid e.1 hw, ?_⟩
        intro p hp
        rcases hpost p hp with h | h
        · unfold postingsOf at h
          cases hf : StdMap.find s.word_to_document_freqs_ e.1 with
          | none => rw [hf] at h; cases h
          | some ps =>
            rw [hf] at h
            exact (ih (e.1, ps)
              ((StdMap.find_eq_some_iff _ hs.wellFormed.freqs_ordered _ _).mp hf)).2 p h
        · rw [h]
          have hpos : 0 < (s.SplitIntoWordsNoStop document).length := List.length_pos_of_mem hw
          have hposR : (0 : R) < ((s.SplitIntoWordsNoStop document).length : R) := by
            exact_mod_cast hpos
          have hcountR : (0 : R) < ((s.SplitIntoWordsNoStop document).count e.1 : R) := by
            exact_mod_cast List.count_pos_iff.mpr hw
          have hle : ((s.SplitIntoWordsNoStop document).count e.1 : R) ≤
              ((s.SplitIntoWordsNoStop document).length : R) := by
            exact_mod_cast List.count_le_length e.1 (s.SplitIntoWordsNoStop document)
          simp only [mul_one_div]
          exact ⟨div_pos hcountR hposR, (div_le_one hposR).mpr hle⟩
    · rw [AddDocument_state_of_error s document_id document status ratings
        (by rw [herr]; exact fun h => by cases h)]
      exact ih

/-- C30, as amended: in exact arithmetic.  In every reachable state, every key
of the inverted index is a valid term (not empty, no `-` at either end, no
character below the space) and has at least one posting, and every stored term
frequency, computed in an ordered field, is greater than 0 and at most 1. -/
theorem C30_index_terms_valid_frequencies_in_unit_interval (s : SearchServer R)
    (hs : Reachable s) :
    ∀ e ∈ s.word_to_document_freqs_,
      IsValidWord e.1 = true ∧ ¬ InvalidTerm e.1 ∧ e.2 ≠ [] ∧
      ∀ p ∈ e.2, 0 < p.2 ∧ p.2 ≤ 1 := by
  have hmain := freqs_valid_of_reachable s hs
  intro e he
  refine ⟨(hmain e he).1, (IsValidWord_eq_true_iff e.1).mp (hmain e he).1,
    hs.wellFormed.postings_nonempty e he, (hmain e he).2⟩

/-- The server of the test with the stop words `in the` and its two documents:
the keys of the index are `cat`, `city` and `garden`. -/
theorem C30_witness :
    StdMap.keys (minusWordsServer ℝ).word_to_document_freqs_ =
      ["cat".toList, "city".toList, "garden".toList] ∧
    ∀ e ∈ (minusWordsServer ℝ).word_to_document_freqs_,
      IsValidWord e.1 = true ∧ ¬ InvalidTerm e.1 ∧ e.2 ≠ [] ∧
      ∀ p ∈ e.2, 0 < p.2 ∧ p.2 ≤ 1 :=
  ⟨rfl, C30_index_terms_valid_frequencies_in_unit_interval (minusWordsServer ℝ)
    (addDocuments_reachable _ inTheServer_reachable _)⟩

/-- A word has at most as many postings as there are documents. -/
theorem postingsOf_length_le (s : SearchServer R) (h : s.WellFormed) (word : List Char) :
    (s.postingsOf word).length ≤ s.documents_.length := by
  obtain ⟨hord, hsub⟩ := postingsOf_wellFormed s h word
  have hnodup : (StdMap.keys (s.postingsOf word)).Nodup := hord.imp (fun h => ne_of_lt h)
  have hsubset : StdMap.keys (s.postingsOf word) ⊆ StdMap.keys s.documents_ := by
    intro d hd
    obtain ⟨p, hp, hpd⟩ := List.mem_map.mp hd
    rw [← hpd]
    exact hsub p hp
  have hle := (List.subperm_of_subset hnodup hsubset).length_le
  simpa [StdMap.keys] using hle

/-- The stored term frequency of a word in a document is never negative. -/
theorem termFreqOf_nonneg (s : SearchServer R) (hs : Reachable s) (word : List Char)
    (document_id : Int) : 0 ≤ s.termFreqOf word document_id := by
  unfold termFreqOf
  cases hf : StdMap.find (s.postingsOf word) document_id with
  | none => exact le_refl _
  | some tf =>
    have hmem := (StdMap.find_eq_some_iff _ (postingsOf_wellFormed s hs.wellFormed word).1
      _ _).mp hf
    unfold postingsOf at hmem
    cases hw : StdMap.find s.word_to_document_freqs_ word with
    | none => rw [hw] at hmem; cases hmem
    | some ps =>
      rw [hw] at hmem
      have he := (StdMap.find_eq_some_iff _ hs.wellFormed.freqs_ordered _ _).mp hw
      exact le_of_lt ((freqs_valid_of_reachable s hs (word, ps) he).2 (document_id, tf) hmem).1

/-- C28. In a reachable state, for every predicate and every query that
parses, `FindTopDocuments` returns and the relevance of every returned document
is at least 0, for a logarithm that is non-negative from 1 on (as `std::log`
is): a term has at most as many postings as there are documents and at least
one, so its inverse document frequency is the logarithm of a number that is at
least 1, and the stored term frequencies are positive. -/
theorem C28_relevance_nonnegative (s : SearchServer R) (hs : Reachable s) (log : R → R)
    (hlog : ∀ x : R, 1 ≤ x → 0 ≤ log x)
    (raw_query : List Char) (predicate : Int → DocumentStatus → Int → Bool) (query : Query)
    (hq : s.ParseQuery raw_query = .ok query) :
    ∃ docs, s.FindTopDocuments log raw_query predicate = .ok docs ∧
      (∀ doc ∈ docs, 0 ≤ doc.relevance) ∧
      ∀ word document_id, s.hasWord document_id word = true →
        1 ≤ (s.postingsOf word).length ∧
        ((s.postingsOf word).length : Int) ≤ s.GetDocumentCount ∧
        0 ≤ s.idfOf log word ∧ 0 < s.termFreqOf word document_id := by
  have hwf := hs.wellFormed
  have hidf : ∀ word document_id, s.hasWord document_id word = true →
      1 ≤ (s.postingsOf word).length ∧
      ((s.postingsOf word).length : Int) ≤ s.GetDocumentCount ∧
      0 ≤ s.idfOf log word ∧ 0 < s.termFreqOf word document_id := by
    intro word d hw
    have hkey : d ∈ StdMap.keys (s.postingsOf word) := by
      unfold hasWord at hw
      exact of_decide_eq_true hw
    obtain ⟨p, hp, hpd⟩ := List.mem_map.mp hkey
    have hlen : 1 ≤ (s.postingsOf word).length := List.length_pos_of_mem hp
    have hle := postingsOf_length_le s hwf word
    have hlenR : (0 : R) < ((s.postingsOf word).length : R) := by exact_mod_cast hlen
    have hleR : ((s.postingsOf word).length : R) ≤ ((s.documents_.length : Int) : R) := by
      exact_mod_cast hle
    refine ⟨hlen, ?_, ?_, ?_⟩
    · unfold GetDocumentCount
      exact_mod_cast hle
    · unfold idfOf GetDocumentCount
      apply hlog
      rw [mul_one, le_div_iff₀ hlenR, one_mul]
      exact hleR
    · obtain ⟨d2, tf⟩ := p
      have hd2 : d2 = d := hpd
      rw [hd2] at hp
      have hfind := (StdMap.find_eq_some_iff _ (postingsOf_wellFormed s hwf word).1 _ _).mpr hp
      unfold termFreqOf
      rw [hfind]
      unfold postingsOf at hp
      cases hw2 : StdMap.find s.word_to_document_freqs_ word with
      | none => rw [hw2] at hp; cases hp
      | some ps =>
        rw [hw2] at hp
        have he := (StdMap.find_eq_some_iff _ hwf.freqs_ordered _ _).mp hw2
        exact ((freqs_valid_of_reachable s hs (word, ps) he).2 (d, tf) hp).1
  refine ⟨_, FindTopDocuments_eq s hs log raw_query predicate query hq, ?_, hidf⟩
  intro doc hdoc
  have hmem := (mem_matchedDocuments s log query predicate doc).mp
    (mem_of_mem_top s log query predicate doc hdoc)
  rw [hmem.2.2.1]
  unfold relevanceOf
  apply List.sum_nonneg
  intro x hx
  obtain ⟨word, hword, hxw⟩ := List.mem_map.mp hx
  rw [← hxw]
  have hhas : s.hasWord doc.id word = true := (List.mem_filter.mp hword).2
  exact mul_nonneg (le_of_lt (hidf word doc.id hhas).2.2.2) (hidf word doc.id hhas).2.2.1

/-- The two documents of `TestCalculateDocumentRelevance` with the natural
logarithm of the reals. -/
theorem C28_witness :
    ∃ docs, (relevanceServer ℝ).FindTopDocuments Real.log "qwe asd".toList isActual =
        .ok docs ∧
      (∀ doc ∈ docs, 0 ≤ doc.relevance) ∧
      ∀ word document_id, (relevanceServer ℝ).hasWord document_id word = true →
        1 ≤ ((relevanceServer ℝ).postingsOf word).length ∧
        (((relevanceServer ℝ).postingsOf word).length : Int) ≤
          (relevanceServer ℝ).GetDocumentCount ∧
        0 ≤ (relevanceServer ℝ).idfOf Real.log word ∧
        0 < (relevanceServer ℝ).termFreqOf word document_id :=
  C28_relevance_nonnegative (relevanceServer ℝ)
    (addDocuments_reachable _ emptyServer_reachable _) Real.log
    (fun x hx => Real.log_nonneg hx) "qwe asd".toList isActual
    ⟨["asd".toList, "qwe".toList], []⟩ rfl

end SearchServer

/-! ## The constructors -/

theorem mem_MakeUniqueNonEmptyStrings (strings : List (List Char)) (w : List Char) :
    w ∈ MakeUniqueNonEmptyStrings strings ↔ w ∈ strings ∧ w ≠ [] := by
  have h := SearchServer.mem_foldl_insert_nonempty strings w []
  simpa [MakeUniqueNonEmptyStrings] using h

theorem foldl_insert_nonempty_pairwise (strings : List (List Char)) :
    ∀ acc : List (List Char), acc.Pairwise (· < ·) →
      (strings.foldl (fun non_empty_strings str =>
        if str ≠ [] then StdSet.insert str non_empty_strings else non_empty_strings)
        acc).Pairwise (· < ·) := by
  induction strings with
  | nil => intro acc h; exact h
  | cons x rest ih =>
    intro acc h
    rw [List.foldl_cons]
    apply ih
    split_ifs
    · exact StdSet.pairwise_insert x acc h
    · exact h

theorem MakeUniqueNonEmptyStrings_pairwise (strings : List (List Char)) :
    (MakeUniqueNonEmptyStrings strings).Pairwise (· < ·) :=
  foldl_insert_nonempty_pairwise strings [] List.Pairwise.nil

namespace SearchServer

variable {R : Type} [LinearOrderedField R]

theorem construct_error_iff (stop_words : List (List Char)) :
    (construct stop_words : Except Error (SearchServer R)) = .error .invalid_argument ↔
      ∃ w ∈ stop_words, w ≠ [] ∧ InvalidTerm w := by
  have hany : (MakeUniqueNonEmptyStrings stop_words).any (fun word => !IsValidWord word) = true ↔
      ∃ w ∈ stop_words, w ≠ [] ∧ InvalidTerm w := by
    rw [List.any_eq_true]
    constructor
    · rintro ⟨w, hw, hv⟩
      have hm := (mem_MakeUniqueNonEmptyStrings stop_words w).mp hw
      refine ⟨w, hm.1, hm.2, (IsValidWord_eq_false_iff w).mp ?_⟩
      simpa using hv
    · rintro ⟨w, hw, hne, hinv⟩
      refine ⟨w, (mem_MakeUniqueNonEmptyStrings stop_words w).mpr ⟨hw, hne⟩, ?_⟩
      rw [(IsValidWord_eq_false_iff w).mpr hinv]
      rfl
  rw [construct_def]
  split_ifs with h
  · exact ⟨fun _ => hany.mp h, fun _ => rfl⟩
  · constructor
    · intro he; cases he
    · intro hex; exact absurd (hany.mpr hex) h

/-- C21. The constructor from a sequence of strings fails (with
`invalid_argument`) if and only if some non-empty string of the sequence is an
invalid term, and returns a server otherwise; the stop words of the server are
then exactly the non-empty strings of the sequence, each once (strictly
ascending), and no document is stored.  The constructor from a text is the one
from the sequence of the words of the text (`SplitIntoWords`), so its stop
words are exactly those words, and it fails exactly when one of them is
invalid.  The constructor without arguments gives the empty set. -/
theorem C21_constructor_stop_words (stop_words : List (List Char)) (text : List Char) :
    ((construct stop_words : Except Error (SearchServer R)) = .error .invalid_argument ↔
      ∃ w ∈ stop_words, w ≠ [] ∧ InvalidTerm w) ∧
    ((∃ s : SearchServer R, construct stop_words = .ok s) ↔
      ¬ ∃ w ∈ stop_words, w ≠ [] ∧ InvalidTerm w) ∧
    (∀ s : SearchServer R, construct stop_words = .ok s →
      (∀ w, w ∈ s.stop_words_ ↔ w ∈ stop_words ∧ w ≠ []) ∧
      s.stop_words_.Pairwise (fun a b => List.Lex (· < ·) a b) ∧
      s.word_to_document_freqs_ = [] ∧ s.documents_ = [] ∧ s.document_ids_ = []) ∧
    ((constructFromText text : Except Error (SearchServer R)) = .error .invalid_argument ↔
      ∃ w ∈ SplitIntoWords text, InvalidTerm w) ∧
    (∀ s : SearchServer R, constructFromText text = .ok s →
      ∀ w, w ∈ s.stop_words_ ↔ w ∈ SplitIntoWords text) ∧
    (constructDefault : Except Error (SearchServer R)) = .ok ⟨[], [], [], []⟩ ∧
    (constructFromText "alkak\x00lsd asdf".toList : Except Error (SearchServer R)) =
      .error .invalid_argument ∧
    (constructFromText "in the in".toList : Except Error (SearchServer R)) =
      .ok ⟨["in".toList, "the".toList], [], [], []⟩ := by
  refine ⟨construct_error_iff stop_words, ?_, ?_, ?_, ?_, rfl, rfl, rfl⟩
  · constructor
    · rintro ⟨s, hs⟩ hex
      rw [(construct_error_iff stop_words).mpr hex] at hs
      cases hs
    · intro hno
      rw [construct_def]
      split_ifs with h
      · exfalso
        have herr : (construct stop_words : Except Error (SearchServer R)) =
            .error .invalid_argument := by
          rw [construct_def, if_pos h]
        exact hno ((construct_error_iff stop_words).mp herr)
      · exact ⟨_, rfl⟩
  · intro s hs
    refine ⟨mem_stop_words_of_construct stop_words s hs, ?_, construct_empty stop_words s hs⟩
    rw [construct_def] at hs
    split_ifs at hs
    cases hs
    exact MakeUniqueNonEmptyStrings_pairwise stop_words
  · unfold constructFromText
    rw [construct_error_iff]
    constructor
    · rintro ⟨w, hw, _, hinv⟩
      exact ⟨w, hw, hinv⟩
    · rintro ⟨w, hw, hinv⟩
      exact ⟨w, hw, SplitIntoWords_nonempty text w hw, hinv⟩
  · intro s hs w
    unfold constructFromText at hs
    rw [mem_stop_words_of_construct _ s hs]
    exact ⟨fun h => h.1, fun h => ⟨h, SplitIntoWords_nonempty text w h⟩⟩

end SearchServer

/-! ## The overloads of `FindTopDocuments`, and finding an added document -/

namespace SearchServer

variable {R : Type} [LinearOrderedField R]

/-- C22. In every state and for every raw query, the overload of
`FindTopDocuments` with a status returns what the overload with a predicate
returns for the predicate `status == expected_status` (the same sequence or the
same exception), also for any predicate that computes that comparison; the
overload with the query only returns what the one with the status `ACTUAL`
returns.  In a reachable state every document the status overload returns is
stored with that status. -/
theorem C22_status_overloads (s : SearchServer R) (log : R → R) (raw_query : List Char)
    (expected_status : DocumentStatus) :
    s.FindTopDocumentsByStatus log raw_query expected_status =
      s.FindTopDocuments log raw_query
        (fun _ status _ => decide (status = expected_status)) ∧
    (∀ predicate : Int → DocumentStatus → Int → Bool,
      (∀ document_id status rating,
        predicate document_id status rating = decide (status = expected_status)) →
      s.FindTopDocumentsByStatus log raw_query expected_status =
        s.FindTopDocuments log raw_query predicate) ∧
    s.FindTopDocumentsActual log raw_query =
      s.FindTopDocumentsByStatus log raw_query .ACTUAL ∧
    s.FindTopDocumentsActual log raw_query = s.FindTopDocuments log raw_query isActual ∧
    (Reachable s → ∀ docs, s.FindTopDocumentsByStatus log raw_query expected_status = .ok docs →
      ∀ doc ∈ docs, (doc.id, (⟨doc.rating, expected_status⟩ : DocumentData)) ∈ s.documents_) := by
  refine ⟨rfl, ?_, rfl, rfl, ?_⟩
  · intro predicate hp
    have : predicate = (fun _ status _ => decide (status = expected_status)) := by
      funext document_id status rating
      exact hp document_id status rating
    rw [this]
    rfl
  · intro hs docs hdocs doc hdoc
    unfold FindTopDocumentsByStatus at hdocs
    cases hq : s.ParseQuery raw_query with
    | error e =>
      unfold FindTopDocuments at hdocs
      rw [hq] at hdocs
      cases hdocs
    | ok query =>
      rw [FindTopDocuments_eq s hs log raw_query _ query hq] at hdocs
      rw [← Except.ok.inj hdocs] at hdoc
      have hmem := (mem_matchedDocuments s log query _ doc).mp
        (mem_of_mem_top s log query _ doc hdoc)
      obtain ⟨data, hdata, hpred⟩ :=
        (admits_iff s hs.wellFormed _ doc.id).mp ((isMatch_iff s query _ doc.id).mp hmem.2.1).1
      have hstatus : data.status = expected_status := of_decide_eq_true hpred
      have hrating : doc.rating = data.rating := by
        rw [hmem.2.2.2, ratingOf_of_mem s hs.wellFormed doc.id data hdata]
      have hd : (⟨doc.rating, expected_status⟩ : DocumentData) = data := by
        rw [hrating, ← hstatus]
      rw [hd]
      exact hdata

/-- The server of `TestFilterResultByStatus`: the query `cat` with the status
`BANNED` finds the one banned document, and with `REMOVED` nothing. -/
theorem C22_witness :
    (statusServer ℝ).FindTopDocumentsByStatus Real.log "cat".toList .BANNED =
      (statusServer ℝ).FindTopDocuments Real.log "cat".toList
        (fun _ status _ => decide (status = DocumentStatus.BANNED)) ∧
    (∃ relevance, (statusServer ℝ).FindTopDocumentsByStatus Real.log "cat".toList .BANNED =
      .ok [⟨2, relevance, 2⟩]) ∧
    (statusServer ℝ).FindTopDocumentsByStatus Real.log "cat".toList .REMOVED = .ok [] :=
  ⟨(C22_status_overloads (statusServer ℝ) Real.log "cat".toList .BANNED).1, ⟨_, rfl⟩, rfl⟩

/-- A word without spaces that is a valid term parses to itself as the one
plus-term, or to the empty query when it is a stop word. -/
theorem ParseQuery_word (s : SearchServer R) (w : List Char) (hvalid : IsValidWord w = true)
    (hw : ' ' ∉ w) :
    s.ParseQuery w = .ok (if w ∈ s.stop_words_ then ⟨[], []⟩ else ⟨[w], []⟩) := by
  have hnot : ¬ InvalidTerm w := (IsValidWord_eq_true_iff w).mp hvalid
  have hne : w ≠ [] := fun h => hnot (Or.inl h)
  have hhead : w.head? ≠ some '-' := fun h => hnot (Or.inr (Or.inl h))
  unfold ParseQuery
  rw [SplitIntoWords_word w hw hne]
  unfold parseQueryLoop parseQueryStep
  rw [ParseQueryWord_def, if_neg hne, stripMinus_of_head w hhead]
  by_cases hstop : w ∈ s.stop_words_
  · simp [hvalid, (IsStopWord_iff s w).mpr hstop, hstop, parseQueryLoop]
  · have hf : s.IsStopWord w = false := by
      cases hc : s.IsStopWord w with
      | false => rfl
      | true => exact absurd ((IsStopWord_iff s w).mp hc) hstop
    simp [hvalid, hf, hstop, hhead, parseQueryLoop, StdSet.insert]

/-- An accepted call stores a posting of the new document under each of its
words. -/
theorem AddDocument_hasWord (s : SearchServer R) (hwf : s.WellFormed) (document_id : Int)
    (document : List Char) (status : DocumentStatus) (ratings : List Int)
    (hok : (s.AddDocument document_id document status ratings).1 = .ok ())
    (w : List Char) (hw : w ∈ s.SplitIntoWordsNoStop document) :
    (s.AddDocument document_id document status ratings).2.hasWord document_id w = true := by
  obtain ⟨_, _, _, hstate⟩ := AddDocument_of_ok s document_id document status ratings hok
  have hfind := find_foldl_addTermFrequency document_id
    (1 / ((s.SplitIntoWordsNoStop document).length : R)) (s.SplitIntoWordsNoStop document)
    s.word_to_document_freqs_ w
  rw [if_pos hw] at hfind
  unfold hasWord postingsOf
  rw [hstate]
  simp only
  rw [hfind]
  simp only [Option.getD_some, decide_eq_true_eq]
  exact (StdMap.keys_update _ _ _ document_id).mpr (Or.inl rfl)

/-- A word that is in no accepted document is not a key of the inverted index. -/
theorem find_freqs_none_of_history (w : List Char)
    (calls : List (Int × List Char × DocumentStatus × List Int)) :
    ∀ s : SearchServer R, StdMap.find s.word_to_document_freqs_ w = none →
      (∀ pre document_id text status ratings post,
        calls = pre ++ (document_id, text, status, ratings) :: post →
        ((s.addDocuments pre).AddDocument document_id text status ratings).1 = .ok () →
        w ∈ SplitIntoWords text → w ∈ s.stop_words_) →
      StdMap.find (s.addDocuments calls).word_to_document_freqs_ w = none := by
  induction calls with
  | nil => intro s h _; exact h
  | cons c rest ih =>
    obtain ⟨id, text, status, ratings⟩ := c
    intro s h hcalls
    rw [addDocuments_cons]
    apply ih
    · rcases AddDocument_outcome s id text status ratings with hok | herr
      · obtain ⟨_, _, _, hstate⟩ := AddDocument_of_ok s id text status ratings hok
        rw [hstate]
        simp only
        rw [find_foldl_addTermFrequency, if_neg, h]
        intro hw
        rw [SplitIntoWordsNoStop_eq] at hw
        have hm := List.mem_filter.mp hw
        have hstop := hcalls [] id text status ratings rest rfl hok hm.1
        exact (of_decide_eq_true hm.2) hstop
      · rw [AddDocument_state_of_error s id text status ratings
          (by rw [herr]; exact fun h => by cases h)]
        exact h
    · intro pre id2 text2 status2 ratings2 post hsplit hok2 hw
      rw [AddDocument_stop_words]
      refine hcalls ((id, text, status, ratings) :: pre) id2 text2 status2 ratings2 post ?_ ?_ hw
      · rw [hsplit]; rfl
      · rw [addDocuments_cons]; exact hok2

/-- C23. An added document can be found.  After `AddDocument` accepts a
document with the status `ACTUAL` in a reachable state, for every word `w` of
its text that is not a stop word, `FindTopDocuments` with the query `w` returns
a sequence with a document of that id, provided at most 5 stored documents with
the status `ACTUAL` have a posting under `w`.  And on a server built by a
constructor and `AddDocument` calls none of which accepted a text with `w` as a
word that is not a stop word, the query `w` (a valid term) returns the empty
sequence. -/
theorem C23_added_document_can_be_found (log : R → R) (w : List Char) :
    (∀ (s : SearchServer R) (document_id : Int) (text : List Char) (ratings : List Int),
      Reachable s → (s.AddDocument document_id text .ACTUAL ratings).1 = .ok () →
      w ∈ SplitIntoWords text → w ∉ s.stop_words_ →
      ((StdMap.keys (s.AddDocument document_id text .ACTUAL ratings).2.documents_).filter
        (fun d => (s.AddDocument document_id text .ACTUAL ratings).2.admits isActual d &&
          (s.AddDocument document_id text .ACTUAL ratings).2.hasWord d w)).length ≤ 5 →
      ∃ docs, (s.AddDocument document_id text .ACTUAL ratings).2.FindTopDocumentsActual log w =
          .ok docs ∧
        ∃ doc ∈ docs, doc.id = document_id) ∧
    (∀ (stop_words : List (List Char)) (s0 : SearchServer R)
      (calls : List (Int × List Char × DocumentStatus × List Int)),
      construct stop_words = .ok s0 → IsValidWord w = true → ' ' ∉ w →
      (∀ pre document_id text status ratings post,
        calls = pre ++ (document_id, text, status, ratings) :: post →
        ((s0.addDocuments pre).AddDocument document_id text status ratings).1 = .ok () →
        w ∈ SplitIntoWords text → w ∈ s0.stop_words_) →
      (s0.addDocuments calls).FindTopDocumentsActual log w = .ok []) := by
  constructor
  · intro s document_id text ratings hs hok hw hstop hfew
    have hs2 : Reachable (s.AddDocument document_id text .ACTUAL ratings).2 :=
      Reachable.AddDocument s document_id text .ACTUAL ratings hs
    obtain ⟨_, _, hvalid, _⟩ := AddDocument_of_ok s document_id text .ACTUAL ratings hok
    have hwords : w ∈ s.SplitIntoWordsNoStop text := by
      rw [SplitIntoWordsNoStop_eq]
      exact List.mem_filter.mpr ⟨hw, decide_eq_true hstop⟩
    have hstop2 : w ∉ (s.AddDocument document_id text .ACTUAL ratings).2.stop_words_ := by
      rw [AddDocument_stop_words]; exact hstop
    have hq := ParseQuery_word (s.AddDocument document_id text .ACTUAL ratings).2 w
      (hvalid w hwords) (SplitIntoWords_no_space text w hw)
    rw [if_neg hstop2] at hq
    have heq := FindTopDocuments_eq _ hs2 log w isActual ⟨[w], []⟩ hq
    refine ⟨_, heq, ?_⟩
    have hfun : (s.AddDocument document_id text .ACTUAL ratings).2.isMatch ⟨[w], []⟩ isActual =
        (fun d => (s.AddDocument document_id text .ACTUAL ratings).2.admits isActual d &&
          (s.AddDocument document_id text .ACTUAL ratings).2.hasWord d w) := by
      funext d
      simp [isMatch]
    have hlen : (stdSort compareDocuments ((s.AddDocument document_id text .ACTUAL
        ratings).2.matchedDocuments log ⟨[w], []⟩ isActual)).length ≤
        MAX_RESULT_DOCUMENT_COUNT := by
      rw [(stdSort_perm _ _).length_eq]
      unfold matchedDocuments MAX_RESULT_DOCUMENT_COUNT
      rw [List.length_map, hfun]
      exact hfew
    rw [List.take_of_length_le hlen]
    have hfind := find_documents_of_accepted s document_id text .ACTUAL ratings [] hok
    rw [addDocuments_nil] at hfind
    have hmatch : (s.AddDocument document_id text .ACTUAL ratings).2.isMatch ⟨[w], []⟩ isActual
        document_id = true := by
      rw [hfun]
      simp only [Bool.and_eq_true]
      refine ⟨?_, AddDocument_hasWord s hs.wellFormed document_id text .ACTUAL ratings hok w
        hwords⟩
      unfold admits
      rw [hfind]
      rfl
    have hkey : document_id ∈
        StdMap.keys (s.AddDocument document_id text .ACTUAL ratings).2.documents_ :=
      List.mem_map_of_mem Prod.fst
        ((StdMap.find_eq_some_iff _ hs2.wellFormed.documents_ordered _ _).mp hfind)
    refine ⟨⟨document_id,
      (s.AddDocument document_id text .ACTUAL ratings).2.relevanceOf log [w] document_id,
      (s.AddDocument document_id text .ACTUAL ratings).2.ratingOf document_id⟩,
      (stdSort_perm _ _).symm.subset
        ((mem_matchedDocuments _ log ⟨[w], []⟩ isActual _).mpr ⟨hkey, hmatch, rfl, rfl⟩), rfl⟩
  · intro stop_words s0 calls h0 hvalid hw hcalls
    have hs : Reachable (s0.addDocuments calls) :=
      addDocuments_reachable s0 (Reachable.construct stop_words s0 h0) calls
    have hnone := find_freqs_none_of_history w calls s0
      (by rw [(construct_empty stop_words s0 h0).1]; rfl) hcalls
    have hq := ParseQuery_word (s0.addDocuments calls) w hvalid hw
    have heq := FindTopDocuments_eq _ hs log w isActual _ hq
    have hmatched : (s0.addDocuments calls).matchedDocuments log
        (if w ∈ (s0.addDocuments calls).stop_words_ then ⟨[], []⟩ else ⟨[w], []⟩) isActual =
        [] := by
      unfold matchedDocuments
      rw [List.map_eq_nil_iff, List.filter_eq_nil_iff]
      intro d _
      have hhas : (s0.addDocuments calls).hasWord d w = false := by
        unfold hasWord postingsOf
        rw [hnone]
        simp [StdMap.keys]
      split_ifs
      · simp [isMatch]
      · simp [isMatch, hhas]
    rw [hmatched] at heq
    exact heq

/-- The steps of `TestAddedDocumentCanBeFound`: nothing is found on the empty
server, and after the document 0 is added the query `asd` finds it. -/
theorem C23_witness :
    (emptyServer ℝ).FindTopDocumentsActual Real.log "asd".toList = .ok [] ∧
    ∃ docs, ((emptyServer ℝ).AddDocument 0 "asd dsa".toList .ACTUAL
        [1, 2, 3]).2.FindTopDocumentsActual Real.log "asd".toList = .ok docs ∧
      ∃ doc ∈ docs, doc.id = 0 :=
  ⟨(C23_added_document_can_be_found Real.log "asd".toList).2 [] (emptyServer ℝ) [] rfl
      (by decide) (by decide)
      (fun pre _ _ _ _ post h => absurd h (by
        intro hnil
        have := congrArg List.length hnil
        simp at this
        omega)),
    (C23_added_document_can_be_found Real.log "asd".toList).1 (emptyServer ℝ) 0
      "asd dsa".toList [1, 2, 3] emptyServer_reachable rfl (by decide) (by decide) (by decide)⟩

end SearchServer

/-! ## The request queue -/

namespace RequestQueue

variable {R : Type} [LinearOrderedField R]

theorem stamped_append (xs ys : List Bool) :
    ∀ first : Int, stamped first (xs ++ ys) =
      stamped first xs ++ stamped (first + xs.length) ys := by
  induction xs with
  | nil => intro first; simp [stamped]
  | cons x rest ih =>
    intro first
    have hk : first + 1 + (rest.length : Int) = first + ((x :: rest).length : Int) := by
      rw [List.length_cons]
      push_cast
      ring
    rw [List.cons_append, stamped, stamped, ih, hk]
    rfl

/-- An entry at the front that is less than `MIN_IN_DAY` ticks old stops the loop. -/
theorem removeOldRequests_of_young (current_time : Int) (front : QueryResult)
    (rest : List QueryResult) (count : Int)
    (h : current_time - front.timestamp < MIN_IN_DAY) :
    removeOldRequests current_time (front :: rest) count = (front :: rest, count) := by
  unfold removeOldRequests
  rw [if_neg (not_le.mpr h)]

theorem removeOldRequests_of_old (current_time : Int) (front : QueryResult)
    (rest : List QueryResult) (count : Int)
    (h : MIN_IN_DAY ≤ current_time - front.timestamp) :
    removeOldRequests current_time (front :: rest) count =
      removeOldRequests current_time rest
        (if front.is_empty && decide (count > 0) then count - 1 else count) := by
  rw [removeOldRequests, if_pos h]

theorem AddQueryResult_def (q : RequestQueue) (empty : Bool) :
    q.AddQueryResult empty =
      ⟨(removeOldRequests (q.current_time + 1) (q.requests_ ++ [⟨empty, q.current_time + 1⟩])
          (if empty then q.no_result_requests_ + 1 else q.no_result_requests_)).1,
        (removeOldRequests (q.current_time + 1) (q.requests_ ++ [⟨empty, q.current_time + 1⟩])
          (if empty then q.no_result_requests_ + 1 else q.no_result_requests_)).2,
        q.current_time + 1⟩ := rfl

theorem count_true_nonneg (bs : List Bool) : (0 : Int) ≤ (bs.count true : Int) :=
  Int.natCast_nonneg _

/-- The queue after the outcomes `bs` have been recorded on a new queue: the
clock shows their number, the deque holds the last 1440 of them with their
times, and the counter is the number of empty ones among those. -/
theorem foldl_AddQueryResult (bs : List Bool) :
    (bs.foldl AddQueryResult construct).current_time = (bs.length : Int) ∧
    (bs.foldl AddQueryResult construct).requests_ =
      stamped (((bs.length - 1440 : Nat) : Int) + 1) (bs.drop (bs.length - 1440)) ∧
    (bs.foldl AddQueryResult construct).no_result_requests_ =
      (((bs.drop (bs.length - 1440)).count true : Nat) : Int) := by
  induction bs using List.reverseRecOn with
  | nil => exact ⟨rfl, rfl, rfl⟩
  | append_singleton bs b ih =>
    obtain ⟨ih1, ih2, ih3⟩ := ih
    rw [List.foldl_append, List.foldl_cons, List.foldl_nil]
    generalize bs.foldl AddQueryResult construct = q0 at ih1 ih2 ih3 ⊢
    have hpush : q0.requests_ ++ [⟨b, q0.current_time + 1⟩] =
        stamped (((bs.length - 1440 : Nat) : Int) + 1)
          ((bs ++ [b]).drop (bs.length - 1440)) := by
      rw [ih1, ih2, List.drop_append_of_le_length (Nat.sub_le _ _), stamped_append,
        List.length_drop]
      have hk : (((bs.length - 1440 : Nat) : Int) + 1 +
          ((bs.length - (bs.length - 1440) : Nat) : Int)) = (bs.length : Int) + 1 := by
        omega
      rw [hk]
      rfl
    have hcount : (if b then q0.no_result_requests_ + 1 else q0.no_result_requests_) =
        ((((bs ++ [b]).drop (bs.length - 1440)).count true : Nat) : Int) := by
      rw [ih3, List.drop_append_of_le_length (Nat.sub_le _ _), List.count_append]
      cases b <;> simp
    have hlen : (bs ++ [b]).length = bs.length + 1 := by simp
    rw [AddQueryResult_def, hpush, hcount, ih1, hlen]
    by_cases hn : bs.length < 1440
    · have hk0 : bs.length - 1440 = 0 := by omega
      have hk1 : bs.length + 1 - 1440 = 0 := by omega
      rw [hk0, hk1]
      simp only [List.drop_zero]
      cases hW : bs ++ [b] with
      | nil => simp at hW
      | cons x rest =>
        have hyoung : ((bs.length : Int) + 1) - (⟨x, ((0 : Nat) : Int) + 1⟩ : QueryResult).timestamp <
            MIN_IN_DAY := by
          unfold MIN_IN_DAY
          simp only
          omega
        rw [stamped, removeOldRequests_of_young _ _ _ _ hyoung]
        refine ⟨by push_cast; rfl, rfl, rfl⟩
    · have hk1 : bs.length + 1 - 1440 = (bs.length - 1440) + 1 := by omega
      rw [hk1]
      have hWlen : ((bs ++ [b]).drop (bs.length - 1440)).length = 1441 := by
        rw [List.length_drop, hlen]
        omega
      have hdrop : (bs ++ [b]).drop (bs.length - 1440 + 1) =
          ((bs ++ [b]).drop (bs.length - 1440)).drop 1 := by
        rw [List.drop_drop, Nat.add_comm]
      rw [hdrop]
      cases hW : (bs ++ [b]).drop (bs.length - 1440) with
      | nil => rw [hW] at hWlen; simp at hWlen
      | cons x rest =>
        cases hrest : rest with
        | nil => rw [hW, hrest] at hWlen; simp at hWlen
        | cons y rest2 =>
          have hold : MIN_IN_DAY ≤ ((bs.length : Int) + 1) -
              (⟨x, ((bs.length - 1440 : Nat) : Int) + 1⟩ : QueryResult).timestamp := by
            unfold MIN_IN_DAY
            simp only
            omega
          have hyoung : ((bs.length : Int) + 1) -
              (⟨y, ((bs.length - 1440 : Nat) : Int) + 1 + 1⟩ : QueryResult).timestamp <
              MIN_IN_DAY := by
            unfold MIN_IN_DAY
            simp only
            omega
          rw [stamped, stamped, removeOldRequests_of_old _ _ _ _ hold,
            removeOldRequests_of_young _ _ _ _ hyoung]
          refine ⟨by push_cast; rfl, ?_, ?_⟩
          · simp only [List.drop_succ_cons, List.drop_zero, stamped]
            push_cast
            rfl
          · simp only [List.drop_succ_cons, List.drop_zero]
            have hnn := count_true_nonneg (y :: rest2)
            cases x
            · simp
            · simp only [List.count_cons_self, Bool.true_and, decide_eq_true_eq]
              rw [if_pos (by push_cast; omega)]
              push_cast
              ring

/-- A sequence of `AddFindRequest` calls records the outcomes of the calls
that returned, in order. -/
theorem addFindRequests_eq (log : R → R)
    (calls : List (SearchServer R × List Char × (Int → DocumentStatus → Int → Bool))) :
    ∀ q : RequestQueue,
      addFindRequests log q calls = (requestOutcomes log calls).foldl AddQueryResult q := by
  induction calls with
  | nil => intro q; rfl
  | cons call rest ih =>
    obtain ⟨search_server, raw_query, document_predicate⟩ := call
    intro q
    unfold addFindRequests requestOutcomes
    rw [ih, List.filterMap_cons]
    unfold AddFindRequest requestOutcome
    simp only
    cases search_server.FindTopDocuments log raw_query document_predicate with
    | error e => rfl
    | ok documents => rfl

end RequestQueue
namespace RequestQueue

variable {R : Type} [LinearOrderedField R]

/-- The entry pushed by `AddQueryResult` stays at the back of the deque. -/
theorem removeOldRequests_getLast (current_time : Int) (empty : Bool) :
    ∀ (requests : List QueryResult) (count : Int),
      (removeOldRequests current_time (requests ++ [⟨empty, current_time⟩]) count).1.getLast? =
        some ⟨empty, current_time⟩ := by
  intro requests
  induction requests with
  | nil =>
    intro count
    have hyoung : current_time - (⟨empty, current_time⟩ : QueryResult).timestamp <
        MIN_IN_DAY := by
      unfold MIN_IN_DAY
      simp
    rw [List.nil_append, removeOldRequests_of_young _ _ _ _ hyoung]
    rfl
  | cons front rest ih =>
    intro count
    rw [List.cons_append]
    by_cases h : MIN_IN_DAY ≤ current_time - front.timestamp
    · rw [removeOldRequests_of_old _ _ _ _ h]
      exact ih _
    · rw [removeOldRequests_of_young _ _ _ _ (not_le.mp h)]
      rw [← List.cons_append, List.getLast?_concat]

theorem count_window_full :
    ((((List.replicate 1440 true).drop ((List.replicate 1440 true).length - 1440)).count
      true : Nat) : Int) = 1440 := by
  simp only [List.length_replicate, Nat.sub_self, List.drop_zero, List.count_replicate_self]
  rfl

theorem count_window_after_nonempty :
    ((((List.replicate 1440 true ++ [false]).drop
      ((List.replicate 1440 true ++ [false]).length - 1440)).count true : Nat) : Int) =
      1439 := by
  have hlen : (List.replicate 1440 true ++ [false]).length - 1440 = 1 := by
    rw [List.length_append, List.length_replicate]
    rfl
  have hle : 1 ≤ (List.replicate 1440 true).length := by
    rw [List.length_replicate]
    decide
  rw [hlen, List.drop_append_of_le_length hle, List.drop_replicate, List.count_append,
    List.count_replicate_self]
  rfl

/-- C24. For a queue that has gone through a sequence of `AddFindRequest`
calls since its construction, of which `n` returned: `GetNoResultRequests` is
the number of empty results among the last `min n 1440` of the calls that
returned.  After exactly 1440 calls with an empty result it is 1440, and one
more call with a result that is not empty makes it 1439. -/
theorem C24_GetNoResultRequests_window (log : R → R)
    (calls : List (SearchServer R × List Char × (Int → DocumentStatus → Int → Bool))) :
    (addFindRequests log construct calls).GetNoResultRequests =
      ((((requestOutcomes log calls).drop
        ((requestOutcomes log calls).length - 1440)).count true : Nat) : Int) ∧
    ((requestOutcomes log calls).drop ((requestOutcomes log calls).length - 1440)).length =
      min (requestOutcomes log calls).length 1440 ∧
    (addFindRequests log construct calls).current_time =
      ((requestOutcomes log calls).length : Int) ∧
    (requestOutcomes log calls = List.replicate 1440 true →
      (addFindRequests log construct calls).GetNoResultRequests = 1440 ∧
      ∀ (search_server : SearchServer R) (raw_query : List Char)
        (document_predicate : Int → DocumentStatus → Int → Bool) (documents : List (Document R)),
        search_server.FindTopDocuments log raw_query document_predicate = .ok documents →
        documents ≠ [] →
        ((addFindRequests log construct calls).AddFindRequest search_server log raw_query
          document_predicate).2.GetNoResultRequests = 1439) := by
  have hq := addFindRequests_eq log calls construct
  obtain ⟨h1, _, h3⟩ := foldl_AddQueryResult (requestOutcomes log calls)
  refine ⟨?_, ?_, ?_, ?_⟩
  · unfold GetNoResultRequests
    rw [hq, h3]
  · rw [List.length_drop]
    omega
  · rw [hq, h1]
  · intro hall
    constructor
    · unfold GetNoResultRequests
      rw [hq, h3, hall]
      exact count_window_full
    · intro search_server raw_query document_predicate documents hfind hne
      have hstep : ((addFindRequests log construct calls).AddFindRequest search_server log
          raw_query document_predicate).2 =
          (List.replicate 1440 true ++ [false]).foldl AddQueryResult construct := by
        unfold AddFindRequest
        rw [hfind, hq, hall, List.foldl_append]
        cases documents with
        | nil => exact absurd rfl hne
        | cons d rest => rfl
      unfold GetNoResultRequests
      rw [hstep, (foldl_AddQueryResult (List.replicate 1440 true ++ [false])).2.2]
      exact count_window_after_nonempty

/-- The steps of `TestRemoveOldRequestsFromQueue`: 1440 requests without a
result, then one with a result. -/
theorem C24_witness :
    (addFindRequests Real.log construct
      (List.replicate 1440
        ((emptyServer ℝ).addDocuments [(1, "valid".toList, .ACTUAL, [])],
          "emptyresult".toList, isActual))).GetNoResultRequests = 1440 ∧
    (addFindRequests Real.log construct
      (List.replicate 1440
        ((emptyServer ℝ).addDocuments [(1, "valid".toList, .ACTUAL, [])],
          "emptyresult".toList, isActual) ++
        [((emptyServer ℝ).addDocuments [(1, "valid".toList, .ACTUAL, [])],
          "valid".toList, isActual)])).GetNoResultRequests = 1439 := by
  have h1 : requestOutcome Real.log
      ((emptyServer ℝ).addDocuments [(1, "valid".toList, .ACTUAL, [])],
        "emptyresult".toList, isActual) = some true := rfl
  have h2 : requestOutcome Real.log
      ((emptyServer ℝ).addDocuments [(1, "valid".toList, .ACTUAL, [])],
        "valid".toList, isActual) = some false := rfl
  constructor
  · rw [(C24_GetNoResultRequests_window Real.log _).1]
    unfold requestOutcomes
    rw [List.filterMap_replicate_of_some h1]
    exact count_window_full
  · have hlast : List.filterMap (requestOutcome Real.log)
        [((emptyServer ℝ).addDocuments [(1, "valid".toList, .ACTUAL, [])],
          "valid".toList, isActual)] = [false] := by
      rw [List.filterMap_cons, h2]
      rfl
    rw [(C24_GetNoResultRequests_window Real.log _).1]
    unfold requestOutcomes
    rw [List.filterMap_append, List.filterMap_replicate_of_some h1, hlast]
    exact count_window_after_nonempty

/-- C25. `RequestQueue` is a transparent wrapper.  For every state of the queue
and of the search server and every raw query, each overload of
`AddFindRequest` returns what the overload of `FindTopDocuments` with the same
arguments returns (the sequence, or its exception); the overloads with a status
and with the query only do what the overload with a predicate does for the
predicate of that status.  A call that returns records one entry, the last of
the deque, which is marked empty exactly when the returned sequence is empty
(on a new queue the counter is then 1 for an empty result and 0 otherwise); a
call that throws records nothing. -/
theorem C25_RequestQueue_transparent (q : RequestQueue) (search_server : SearchServer R)
    (log : R → R) (raw_query : List Char)
    (document_predicate : Int → DocumentStatus → Int → Bool) (status : DocumentStatus) :
    (q.AddFindRequest search_server log raw_query document_predicate).1 =
      search_server.FindTopDocuments log raw_query document_predicate ∧
    (q.AddFindRequestByStatus search_server log raw_query status).1 =
      search_server.FindTopDocumentsByStatus log raw_query status ∧
    (q.AddFindRequestActual search_server log raw_query).1 =
      search_server.FindTopDocumentsActual log raw_query ∧
    q.AddFindRequestByStatus search_server log raw_query status =
      q.AddFindRequest search_server log raw_query
        (fun _ document_status _ => decide (document_status = status)) ∧
    q.AddFindRequestActual search_server log raw_query =
      q.AddFindRequestByStatus search_server log raw_query .ACTUAL ∧
    (∀ documents,
      search_server.FindTopDocuments log raw_query document_predicate = .ok documents →
      (q.AddFindRequest search_server log raw_query document_predicate).2 =
        q.AddQueryResult documents.isEmpty ∧
      (q.AddFindRequest search_server log raw_query document_predicate).2.requests_.getLast? =
        some ⟨documents.isEmpty, q.current_time + 1⟩ ∧
      (documents.isEmpty = true ↔ documents = []) ∧
      (q.AddFindRequest search_server log raw_query document_predicate).2.current_time =
        q.current_time + 1 ∧
      (q = construct →
        (q.AddFindRequest search_server log raw_query
          document_predicate).2.GetNoResultRequests = if documents.isEmpty then 1 else 0)) ∧
    (∀ e, search_server.FindTopDocuments log raw_query document_predicate = .error e →
      (q.AddFindRequest search_server log raw_query document_predicate).2 = q) := by
  refine ⟨?_, ?_, ?_, rfl, rfl, ?_, ?_⟩
  · unfold AddFindRequest
    cases search_server.FindTopDocuments log raw_query document_predicate <;> rfl
  · unfold AddFindRequestByStatus
    cases search_server.FindTopDocumentsByStatus log raw_query status <;> rfl
  · unfold AddFindRequestActual
    cases search_server.FindTopDocumentsActual log raw_query <;> rfl
  · intro documents hfind
    have hstate : (q.AddFindRequest search_server log raw_query document_predicate).2 =
        q.AddQueryResult documents.isEmpty := by
      unfold AddFindRequest
      rw [hfind]
    refine ⟨hstate, ?_, List.isEmpty_iff, ?_, ?_⟩
    · rw [hstate, AddQueryResult_def]
      exact removeOldRequests_getLast _ _ _ _
    · rw [hstate, AddQueryResult_def]
    · intro hnew
      rw [hstate, hnew]
      cases documents <;> rfl
  · intro e hfind
    unfold AddFindRequest
    rw [hfind]

/-- The steps of `TestAddDocumentToRequestQueue`: a request with a result
leaves the counter at 0, and a request without one raises it to 1. -/
theorem C25_witness :
    (construct.AddFindRequestActual
      ((emptyServer ℝ).addDocuments [(1, "asd qwe".toList, .ACTUAL, [1, 2, 3])]) Real.log
      "asd".toList).1 =
      ((emptyServer ℝ).addDocuments
        [(1, "asd qwe".toList, .ACTUAL, [1, 2, 3])]).FindTopDocumentsActual Real.log
        "asd".toList ∧
    (∃ relevance, (construct.AddFindRequestActual
      ((emptyServer ℝ).addDocuments [(1, "asd qwe".toList, .ACTUAL, [1, 2, 3])]) Real.log
      "asd".toList).1 = .ok [⟨1, relevance, 2⟩]) ∧
    (construct.AddFindRequestActual
      ((emptyServer ℝ).addDocuments [(1, "asd qwe".toList, .ACTUAL, [1, 2, 3])]) Real.log
      "asd".toList).2.GetNoResultRequests = 0 ∧
    ((construct.AddFindRequestActual
      ((emptyServer ℝ).addDocuments [(1, "asd qwe".toList, .ACTUAL, [1, 2, 3])]) Real.log
      "asd".toList).2.AddFindRequestActual
      ((emptyServer ℝ).addDocuments [(1, "asd qwe".toList, .ACTUAL, [1, 2, 3])]) Real.log
      "empty request".toList).1 = .ok [] ∧
    ((construct.AddFindRequestActual
      ((emptyServer ℝ).addDocuments [(1, "asd qwe".toList, .ACTUAL, [1, 2, 3])]) Real.log
      "asd".toList).2.AddFindRequestActual
      ((emptyServer ℝ).addDocuments [(1, "asd qwe".toList, .ACTUAL, [1, 2, 3])]) Real.log
      "empty request".toList).2.GetNoResultRequests = 1 :=
  ⟨(C25_RequestQueue_transparent construct
      ((emptyServer ℝ).addDocuments [(1, "asd qwe".toList, .ACTUAL, [1, 2, 3])]) Real.log
      "asd".toList isActual .ACTUAL).2.2.1, ⟨_, rfl⟩, rfl, rfl, rfl⟩

end RequestQueue

/-! ## The paginator -/

theorem Paginator.loop_succ (end_ page_size fuel begin_ : Nat) (pages_ : List IteratorRange) :
    Paginator.loop end_ page_size (fuel + 1) begin_ pages_ =
      if begin_ ≠ end_ then
        Paginator.loop end_ page_size fuel
          (if end_ - begin_ < page_size then end_ else begin_ + page_size)
          (pages_ ++ [⟨begin_, if end_ - begin_ < page_size then end_ else begin_ + page_size,
            (if end_ - begin_ < page_size then end_ else begin_ + page_size) - begin_⟩])
      else some pages_ := rfl

theorem pageCount_last (m page_size : Nat) (h1 : 1 ≤ m) (h2 : m < page_size) :
    (m + page_size - 1) / page_size = 1 := by
  apply Nat.div_eq_of_lt_le
  · omega
  · omega

theorem pageCount_step (m page_size : Nat) (hps : 1 ≤ page_size) (h : page_size ≤ m) :
    (m + page_size - 1) / page_size = (m - page_size + page_size - 1) / page_size + 1 := by
  have h1 : m + page_size - 1 = (m - page_size + page_size - 1) + page_size := by omega
  rw [h1, Nat.add_div_right _ (by omega)]

/-- The pages the loop adds from the position `begin_` on, with enough fuel:
page `i` runs from `begin_ + i * page_size` to that plus `page_size`, or to
the end of the container if that comes first. -/
theorem Paginator.loop_spec {α : Type} (c : List α) (page_size : Nat) (hps : 1 ≤ page_size) :
    ∀ (fuel begin_ : Nat) (pages_ : List IteratorRange),
      begin_ ≤ c.length → c.length - begin_ < fuel →
      ∃ added, Paginator.loop c.length page_size fuel begin_ pages_ = some (pages_ ++ added) ∧
        added.length = (c.length - begin_ + page_size - 1) / page_size ∧
        (∀ i, i < added.length →
          added[i]? = some ⟨begin_ + i * page_size,
            min (begin_ + i * page_size + page_size) c.length,
            min (begin_ + i * page_size + page_size) c.length - (begin_ + i * page_size)⟩) ∧
        (added.map (IteratorRange.elements c)).flatten = c.drop begin_ := by
  intro fuel
  induction fuel with
  | zero => intro begin_ pages_ _ h; omega
  | succ fuel ih =>
    intro begin_ pages_ hle hfuel
    rw [Paginator.loop_succ]
    by_cases hend : begin_ = c.length
    · rw [if_neg (not_not.mpr hend)]
      refine ⟨[], by simp, ?_, ?_, ?_⟩
      · rw [hend, Nat.sub_self, Nat.zero_add]
        exact (Nat.div_eq_of_lt (by omega)).symm
      · intro i hi
        exact absurd hi (Nat.not_lt_zero i)
      · rw [hend, List.drop_length]
        rfl
    · rw [if_pos hend]
      have hlt : begin_ < c.length := lt_of_le_of_ne hle hend
      by_cases hshort : c.length - begin_ < page_size
      · rw [if_pos hshort]
        obtain ⟨added, hloop, hlen, hget, hflat⟩ := ih c.length
          (pages_ ++ [⟨begin_, c.length, c.length - begin_⟩]) (le_refl _) (by omega)
        have hnil : added = [] := by
          apply List.eq_nil_of_length_eq_zero
          rw [hlen, Nat.sub_self, Nat.zero_add]
          exact Nat.div_eq_of_lt (by omega)
        refine ⟨[⟨begin_, c.length, c.length - begin_⟩], ?_, ?_, ?_, ?_⟩
        · rw [hloop, hnil, List.append_nil]
        · rw [pageCount_last _ _ (by omega) hshort]
          rfl
        · intro i hi
          have hi0 : i = 0 := by simpa using hi
          subst hi0
          have hmin : min (begin_ + 0 * page_size + page_size) c.length = c.length := by
            rw [Nat.zero_mul, Nat.add_zero]
            exact Nat.min_eq_right (by omega)
          rw [hmin, Nat.zero_mul, Nat.add_zero]
          rfl
        · simp only [List.map_cons, List.map_nil, List.flatten_cons, List.flatten_nil,
            List.append_nil, IteratorRange.elements]
          apply List.take_of_length_le
          rw [List.length_drop]
      · rw [if_neg hshort]
        have hfull : page_size ≤ c.length - begin_ := not_lt.mp hshort
        obtain ⟨added, hloop, hlen, hget, hflat⟩ := ih (begin_ + page_size)
          (pages_ ++ [⟨begin_, begin_ + page_size, begin_ + page_size - begin_⟩]) (by omega)
          (by omega)
        refine ⟨⟨begin_, begin_ + page_size, begin_ + page_size - begin_⟩ :: added, ?_, ?_, ?_,
          ?_⟩
        · rw [hloop, List.append_assoc]
          rfl
        · rw [List.length_cons, hlen, pageCount_step _ _ hps hfull]
          have : c.length - (begin_ + page_size) = c.length - begin_ - page_size := by omega
          rw [this]
        · intro i hi
          cases i with
          | zero =>
            have hmin : min (begin_ + 0 * page_size + page_size) c.length =
                begin_ + page_size := by
              rw [Nat.zero_mul, Nat.add_zero]
              exact Nat.min_eq_left (by omega)
            rw [hmin, Nat.zero_mul, Nat.add_zero, List.getElem?_cons_zero]
          | succ j =>
            have hj : j < added.length := by
              rw [List.length_cons] at hi
              omega
            have hpos : begin_ + (j + 1) * page_size = begin_ + page_size + j * page_size := by
              rw [Nat.succ_mul]
              omega
            rw [List.getElem?_cons_succ, hget j hj, hpos]
        · rw [List.map_cons, List.flatten_cons, hflat]
          unfold IteratorRange.elements
          simp only
          have hsz : begin_ + page_size - begin_ = page_size := by omega
          rw [hsz, ← List.drop_drop]
          exact List.take_append_drop page_size (c.drop begin_)

/-- With a page size of 0 the loop over a container that is not empty never
ends: no fuel is enough. -/
theorem Paginator.loop_page_size_zero (end_ : Nat) :
    ∀ (fuel begin_ : Nat) (pages_ : List IteratorRange), begin_ ≠ end_ →
      Paginator.loop end_ 0 fuel begin_ pages_ = none := by
  intro fuel
  induction fuel with
  | zero => intro begin_ pages_ _; rfl
  | succ fuel ih =>
    intro begin_ pages_ h
    rw [Paginator.loop_succ, if_pos h, if_neg (Nat.not_lt_zero _)]
    exact ih _ _ h

theorem pageCount_mul_lt (n page_size i : Nat) (hps : 1 ≤ page_size)
    (hi : i < (n + page_size - 1) / page_size) : i * page_size < n := by
  have h := (Nat.le_div_iff_mul_le (by omega : 0 < page_size)).mp (Nat.succ_le_of_lt hi)
  rw [Nat.succ_mul] at h
  omega

/-- C26. For a container of `n` elements and a page size of at least 1, the
loop of `Paginate` ends (any fuel above `n` is enough, and the result does not
depend on it) with `⌈n / page_size⌉` pages.  Page `i` holds the elements from
position `i * page_size` on, `page_size` of them or as many as are left: every
page but the last holds exactly `page_size` elements, every page holds at least
1 and at most `page_size`, its `size()` is that number, and the pages
concatenated are the container. -/
theorem C26_Paginate_consecutive_chunks {α : Type} (c : List α) (page_size fuel : Nat)
    (hps : 1 ≤ page_size) (hfuel : c.length < fuel) :
    ∃ pages, Paginate fuel c page_size = some pages ∧
      pages.length = (c.length + page_size - 1) / page_size ∧
      (∀ i, i < pages.length → ∃ page, pages[i]? = some page ∧
        page.elements c = (c.drop (i * page_size)).take page_size ∧
        page.size_ = (page.elements c).length ∧
        1 ≤ (page.elements c).length ∧ (page.elements c).length ≤ page_size ∧
        (i + 1 < pages.length → (page.elements c).length = page_size)) ∧
      (pages.map (IteratorRange.elements c)).flatten = c := by
  obtain ⟨pages, hloop, hlen, hget, hflat⟩ :=
    Paginator.loop_spec c page_size hps fuel 0 [] (Nat.zero_le _) (by omega)
  rw [Nat.sub_zero] at hlen
  refine ⟨pages, ?_, hlen, ?_, ?_⟩
  · unfold Paginate
    rw [hloop, List.nil_append]
  · intro i hi
    have hstart : i * page_size < c.length :=
      pageCount_mul_lt c.length page_size i hps (hlen ▸ hi)
    refine ⟨_, hget i hi, ?_⟩
    simp only [Nat.zero_add, IteratorRange.elements]
    have helems : List.take (min (i * page_size + page_size) c.length - i * page_size)
        (List.drop (i * page_size) c) = List.take page_size (List.drop (i * page_size) c) := by
      by_cases hfit : i * page_size + page_size ≤ c.length
      · rw [Nat.min_eq_left hfit]
        congr 1
        omega
      · rw [Nat.min_eq_right (by omega)]
        rw [List.take_of_length_le (by rw [List.length_drop]),
          List.take_of_length_le (by rw [List.length_drop]; omega)]
    rw [helems]
    have hlength : (List.take page_size (List.drop (i * page_size) c)).length =
        min page_size (c.length - i * page_size) := by
      rw [List.length_take, List.length_drop]
    refine ⟨rfl, ?_, ?_, ?_, ?_⟩
    · rw [hlength]
      omega
    · rw [hlength]
      omega
    · rw [hlength]
      omega
    · intro hnext
      have hnext2 : (i + 1) * page_size < c.length :=
        pageCount_mul_lt c.length page_size (i + 1) hps (hlen ▸ hnext)
      rw [Nat.succ_mul] at hnext2
      rw [hlength]
      omega
  · rw [hflat]
    rfl

/-- The container of `TestPaginateContainer`: five elements in pages of two. -/
theorem C26_witness :
    ∃ pages, Paginate 6 [1, 2, 3, 4, 5] 2 = some pages ∧
      pages.map (IteratorRange.elements [1, 2, 3, 4, 5]) = [[1, 2], [3, 4], [5]] ∧
      pages.length = 3 ∧
      Paginate 1 ([] : List Nat) 2 = some [] := by
  obtain ⟨pages, h1, h2, _, _⟩ :=
    C26_Paginate_consecutive_chunks [1, 2, 3, 4, 5] 2 6 (by decide) (by decide)
  refine ⟨pages, h1, ?_, h2, rfl⟩
  have hp : Paginate 6 [1, 2, 3, 4, 5] 2 =
      some [⟨0, 2, 2⟩, ⟨2, 4, 2⟩, ⟨4, 5, 1⟩] := by decide
  rw [hp] at h1
  rw [← Option.some.inj h1]
  rfl

/-! ## The stored term frequencies in binary64

The theorems above hold in exact arithmetic.  `AddDocument` adds
`1.0 / words.size()` once per occurrence of a word, and each addition of
`double`s rounds: the sum need not be the quotient occurrences / size, and it
can end above 1. -/

section Rounding

set_option maxRecDepth 100000

namespace SearchServer

/-- C18 fails for `double`s.  The document `b b b b b b b b b b` is accepted on
the empty server and has 10 words, all `b`; ten additions of `1.0 / 10` store
the frequency 1 - 2^-53 (0.9999999999999999) for `b`, which is less than 1.0,
the quotient 10 / 10. -/
theorem C18_counterexample :
    ((emptyServer ℝ).AddDocument 0 "b b b b b b b b b b".toList .ACTUAL []).1 = .ok () ∧
    (emptyServer ℝ).SplitIntoWordsNoStop "b b b b b b b b b b".toList =
      List.replicate 10 "b".toList ∧
    storeTermFrequencies64 []
      ((emptyServer ℝ).SplitIntoWordsNoStop "b b b b b b b b b b".toList) 0 =
      [("b".toList, [(0, ⟨2 ^ 192 - 2 ^ 139⟩)])] ∧
    Binary64.div (Binary64.ofNat 10) (Binary64.ofNat 10) = Binary64.one ∧
    (⟨2 ^ 192 - 2 ^ 139⟩ : Binary64) ≠ Binary64.div (Binary64.ofNat 10) (Binary64.ofNat 10) :=
  ⟨rfl, rfl, by decide, by decide, by decide⟩

/-- C30 fails for `double`s.  The document `a a a a a a a a a` is accepted on
the empty server (a reachable state follows) and has 9 words, all `a`; nine
additions of `1.0 / 9` store the frequency 1 + 2^-52 (1.0000000000000002) for
`a`, which is greater than 1. -/
theorem C30_counterexample :
    Reachable ((emptyServer ℝ).AddDocument 0 "a a a a a a a a a".toList .ACTUAL []).2 ∧
    ((emptyServer ℝ).AddDocument 0 "a a a a a a a a a".toList .ACTUAL []).1 = .ok () ∧
    (emptyServer ℝ).SplitIntoWordsNoStop "a a a a a a a a a".toList =
      List.replicate 9 "a".toList ∧
    storeTermFrequencies64 []
      ((emptyServer ℝ).SplitIntoWordsNoStop "a a a a a a a a a".toList) 0 =
      [("a".toList, [(0, ⟨2 ^ 192 + 2 ^ 140⟩)])] ∧
    Binary64.one.scaled < (⟨2 ^ 192 + 2 ^ 140⟩ : Binary64).scaled :=
  ⟨Reachable.AddDocument _ _ _ _ _ emptyServer_reachable, rfl, rfl, by decide, by decide⟩

end SearchServer

end Rounding

/-! ## Stop words are not indexed; the lookups of the search never fail -/

namespace SearchServer

variable {R : Type} [LinearOrderedField R]

/-- In every reachable state no key of the inverted index is a stop word. -/
theorem Reachable.no_stop_word_key {s : SearchServer R} (hs : Reachable s) :
    ∀ e ∈ s.word_to_document_freqs_, e.1 ∉ s.stop_words_ := by
  induction hs with
  | construct stop_words s h =>
    rw [(construct_empty stop_words s h).1]
    intro e he
    cases he
  | AddDocument s document_id document status ratings hs ih =>
    rcases AddDocument_outcome s document_id document status ratings with hok | herr
    · intro e he
      rw [AddDocument_stop_words]
      rcases AddDocument_freqs_mem s hs.wellFormed document_id document status ratings hok e he
        with hold | ⟨hw, _⟩
      · exact ih e hold
      · rw [SplitIntoWordsNoStop_eq] at hw
        exact of_decide_eq_true (List.mem_filter.mp hw).2
    · rw [AddDocument_state_of_error s document_id document status ratings
        (by rw [herr]; exact fun h => by cases h)]
      exact ih

/-- C33. Stop words are excluded from indexed documents: in every reachable
state no stop word is a key of the inverted index, so a stop word has no
posting list and no document has it as a word. -/
theorem C33_stop_words_not_indexed (s : SearchServer R) (hs : Reachable s) :
    (∀ e ∈ s.word_to_document_freqs_, e.1 ∉ s.stop_words_) ∧
    ∀ w ∈ s.stop_words_,
      w ∉ StdMap.keys s.word_to_document_freqs_ ∧
      StdMap.find s.word_to_document_freqs_ w = none ∧
      ∀ document_id, s.hasWord document_id w = false := by
  have hkeys := hs.no_stop_word_key
  refine ⟨hkeys, ?_⟩
  intro w hw
  have hnot : w ∉ StdMap.keys s.word_to_document_freqs_ := by
    intro hk
    obtain ⟨e, he, hew⟩ := List.mem_map.mp hk
    have := hkeys e he
    rw [hew] at this
    exact this hw
  have hnone := (StdMap.find_eq_none_iff _ hs.wellFormed.freqs_ordered w).mpr hnot
  exact ⟨hnot, hnone, fun d => (hasWord_of_find s hs.wellFormed d w).1 hnone⟩

/-- The second server of `TestExcludeStopWordsFromAddedDocumentContent`: with
the stop words `in the`, the document `cat in the city` is indexed under `cat`
and `city` only. -/
theorem C33_witness :
    StdMap.keys ((inTheServer ℝ).addDocuments
      [(42, "cat in the city".toList, .ACTUAL, [1, 2, 3])]).word_to_document_freqs_ =
      ["cat".toList, "city".toList] ∧
    ∀ w ∈ ((inTheServer ℝ).addDocuments
        [(42, "cat in the city".toList, .ACTUAL, [1, 2, 3])]).stop_words_,
      w ∉ StdMap.keys ((inTheServer ℝ).addDocuments
        [(42, "cat in the city".toList, .ACTUAL, [1, 2, 3])]).word_to_document_freqs_ ∧
      StdMap.find ((inTheServer ℝ).addDocuments
        [(42, "cat in the city".toList, .ACTUAL, [1, 2, 3])]).word_to_document_freqs_ w =
        none ∧
      ∀ document_id, ((inTheServer ℝ).addDocuments
        [(42, "cat in the city".toList, .ACTUAL, [1, 2, 3])]).hasWord document_id w = false :=
  ⟨rfl, (C33_stop_words_not_indexed _ (addDocuments_reachable _ inTheServer_reachable _)).2⟩

/-- C34. In every reachable state every document id of every posting list has
a document record, so the checked lookup of the record succeeds; hence
`FindAllDocuments` returns for every query, `FindTopDocuments` throws only when
`ParseQuery` does (and then `invalid_argument`), and every term of the index
has at least 1 and at most `GetDocumentCount` postings. -/
theorem C34_postings_have_records (s : SearchServer R) (hs : Reachable s) :
    (∀ e ∈ s.word_to_document_freqs_, ∀ p ∈ e.2,
      ∃ data, (p.1, data) ∈ s.documents_ ∧ StdMap.atKey s.documents_ p.1 = .ok data) ∧
    (∀ (log : R → R) (query : Query) (predicate : Int → DocumentStatus → Int → Bool),
      ∃ docs, s.FindAllDocuments log query predicate = .ok docs) ∧
    (∀ (log : R → R) (raw_query : List Char) (predicate : Int → DocumentStatus → Int → Bool),
      (∀ query, s.ParseQuery raw_query = .ok query →
        ∃ docs, s.FindTopDocuments log raw_query predicate = .ok docs) ∧
      (∀ e, s.FindTopDocuments log raw_query predicate = .error e →
        e = .invalid_argument ∧ s.ParseQuery raw_query = .error .invalid_argument)) ∧
    (∀ e ∈ s.word_to_document_freqs_,
      1 ≤ e.2.length ∧ (e.2.length : Int) ≤ s.GetDocumentCount) := by
  have hwf := hs.wellFormed
  refine ⟨?_, ?_, ?_, ?_⟩
  · intro e he p hp
    have hk := hwf.postings_stored e he p hp
    obtain ⟨⟨d, data⟩, hmem, hd⟩ := List.mem_map.mp hk
    have hd2 : d = p.1 := hd
    rw [hd2] at hmem
    exact ⟨data, hmem, atKey_of_mem s hwf p.1 data hmem⟩
  · intro log query predicate
    exact ⟨_, FindAllDocuments_eq s log query predicate hwf⟩
  · intro log raw_query predicate
    constructor
    · intro query hq
      exact ⟨_, FindTopDocuments_eq s hs log raw_query predicate query hq⟩
    · intro e he
      cases hq : s.ParseQuery raw_query with
      | error e2 =>
        have h2 := (ParseQuery_error_iff s raw_query e2).mp hq
        unfold FindTopDocuments at he
        rw [hq] at he
        have he2 : e2 = e := Except.error.inj he
        rw [← he2, h2.1]
        exact ⟨rfl, rfl⟩
      | ok query =>
        rw [FindTopDocuments_eq s hs log raw_query predicate query hq] at he
        cases he
  · intro e he
    have hfind := (StdMap.find_eq_some_iff _ hwf.freqs_ordered e.1 e.2).mpr he
    have hpost : s.postingsOf e.1 = e.2 := by
      unfold postingsOf
      rw [hfind]
      rfl
    have hle := postingsOf_length_le s hwf e.1
    rw [hpost] at hle
    refine ⟨List.length_pos.mpr (hwf.postings_nonempty e he), ?_⟩
    unfold GetDocumentCount
    exact_mod_cast hle

/-- The server of the test with two documents: `cat` is in both, `city` and
`garden` in one each. -/
theorem C34_witness :
    (minusWordsServer ℝ).word_to_document_freqs_.map (fun e => (e.1, e.2.length)) =
      [("cat".toList, 2), ("city".toList, 1), ("garden".toList, 1)] ∧
    (minusWordsServer ℝ).GetDocumentCount = 2 ∧
    ∀ e ∈ (minusWordsServer ℝ).word_to_document_freqs_,
      1 ≤ e.2.length ∧ (e.2.length : Int) ≤ (minusWordsServer ℝ).GetDocumentCount :=
  ⟨rfl, rfl, (C34_postings_have_records (minusWordsServer ℝ)
    (addDocuments_reachable _ inTheServer_reachable _)).2.2.2⟩

/-- The ids of the matching documents are pairwise distinct. -/
theorem matchedDocuments_ids_nodup (s : SearchServer R) (h : s.WellFormed) (log : R → R)
    (query : Query) (predicate : Int → DocumentStatus → Int → Bool) :
    ((s.matchedDocuments log query predicate).map (fun doc => doc.id)).Nodup := by
  unfold matchedDocuments
  rw [List.map_map]
  have hid : ((fun doc : Document R => doc.id) ∘
      fun d => (⟨d, s.relevanceOf log query.plus_words d, s.ratingOf d⟩ : Document R)) = id := by
    funext d
    rfl
  rw [hid, List.map_id]
  have hnodup : (StdMap.keys s.documents_).Nodup :=
    (h.documents_ordered).imp (fun h => ne_of_lt h)
  exact hnodup.sublist (List.filter_sublist _)

/-- C36. In a reachable state, for every predicate and every query that
parses, the documents `FindTopDocuments` returns have pairwise distinct ids: no
document is listed twice, however many plus-terms it has. -/
theorem C36_result_ids_distinct (s : SearchServer R) (hs : Reachable s) (log : R → R)
    (raw_query : List Char) (predicate : Int → DocumentStatus → Int → Bool) (query : Query)
    (hq : s.ParseQuery raw_query = .ok query) :
    ∃ docs, s.FindTopDocuments log raw_query predicate = .ok docs ∧
      (docs.map (fun doc => doc.id)).Nodup ∧
      docs.Pairwise (fun a b => a.id ≠ b.id) := by
  refine ⟨_, FindTopDocuments_eq s hs log raw_query predicate query hq, ?_⟩
  have hnodup : (((stdSort compareDocuments (s.matchedDocuments log query predicate)).take
      MAX_RESULT_DOCUMENT_COUNT).map (fun doc => doc.id)).Nodup := by
    have hperm := (stdSort_perm compareDocuments (s.matchedDocuments log query predicate)).map
      (fun doc => doc.id)
    have hsorted := hperm.nodup_iff.mpr (matchedDocuments_ids_nodup s hs.wellFormed log query
      predicate)
    exact hsorted.sublist ((List.take_sublist _ _).map _)
  exact ⟨hnodup, (List.pairwise_map.mp hnodup)⟩

/-- The third step of `TestAddedDocumentCanBeFound`: the query `zxc asd` has two
plus-terms, the document 2 has both and is listed once. -/
theorem C36_witness :
    ∃ docs, ((emptyServer ℝ).addDocuments
        [(0, "asd dsa".toList, .ACTUAL, [1, 2, 3]), (1, "zxc cxz".toList, .ACTUAL, [1, 2, 3]),
         (2, "zxc cxz asd".toList, .ACTUAL, [])]).FindTopDocuments Real.log
        "zxc asd".toList isActual = .ok docs ∧
      (docs.map (fun doc => doc.id)).Nodup ∧
      docs.Pairwise (fun a b => a.id ≠ b.id) :=
  C36_result_ids_distinct _ (addDocuments_reachable _ emptyServer_reachable _) Real.log
    "zxc asd".toList isActual ⟨["asd".toList, "zxc".toList], []⟩ rfl

end SearchServer

/-! ## What an accepted `AddDocument` changes -/

namespace SearchServer

variable {R : Type} [LinearOrderedField R]

/-- The posting list of a word after an accepted call: the old one, with the
posting of the new document put in when the word is a word of the document. -/
theorem AddDocument_postingsOf (s : SearchServer R) (document_id : Int) (document : List Char)
    (status : DocumentStatus) (ratings : List Int)
    (hok : (s.AddDocument document_id document status ratings).1 = .ok ()) (w : List Char) :
    (s.AddDocument document_id document status ratings).2.postingsOf w =
      if w ∈ s.SplitIntoWordsNoStop document then
        StdMap.update document_id
          (fun tf => tf.getD 0 + ((s.SplitIntoWordsNoStop document).count w : R) *
            (1 / ((s.SplitIntoWordsNoStop document).length : R)))
          (s.postingsOf w)
      else s.postingsOf w := by
  obtain ⟨_, _, _, hstate⟩ := AddDocument_of_ok s document_id document status ratings hok
  unfold postingsOf
  rw [hstate]
  simp only
  rw [find_foldl_addTermFrequency]
  split_ifs <;> rfl

/-- C31. The index only grows.  An accepted `AddDocument` in a reachable state
leaves every stored record as it is (rating and status), every stored
frequency of a word in a document, every id of the insertion-order sequence at
its position, and the stop words; what it adds is the record of the new id
(which had none), the postings of the new id under the words of the document
(the new id had no posting), and the new id at the end of the sequence. -/
theorem C31_AddDocument_only_adds (s : SearchServer R) (hs : Reachable s) (document_id : Int)
    (document : List Char) (status : DocumentStatus) (ratings : List Int)
    (hok : (s.AddDocument document_id document status ratings).1 = .ok ()) :
    (∀ d data, StdMap.find s.documents_ d = some data →
      StdMap.find (s.AddDocument document_id document status ratings).2.documents_ d =
        some data) ∧
    (∀ d, d ≠ document_id →
      StdMap.find (s.AddDocument document_id document status ratings).2.documents_ d =
        StdMap.find s.documents_ d) ∧
    StdMap.find s.documents_ document_id = none ∧
    StdMap.find (s.AddDocument document_id document status ratings).2.documents_ document_id =
      some ⟨ComputeAverageRating ratings, status⟩ ∧
    (∀ w d tf, StdMap.find (s.postingsOf w) d = some tf →
      StdMap.find ((s.AddDocument document_id document status ratings).2.postingsOf w) d =
        some tf) ∧
    (∀ w d, d ≠ document_id →
      StdMap.find ((s.AddDocument document_id document status ratings).2.postingsOf w) d =
        StdMap.find (s.postingsOf w) d) ∧
    (∀ w, StdMap.find (s.postingsOf w) document_id = none ∧
      ((StdMap.find ((s.AddDocument document_id document status ratings).2.postingsOf w)
        document_id).isSome ↔ w ∈ s.SplitIntoWordsNoStop document)) ∧
    (s.AddDocument document_id document status ratings).2.document_ids_ =
      s.document_ids_ ++ [document_id] ∧
    (∀ i, i < s.document_ids_.length →
      (s.AddDocument document_id document status ratings).2.document_ids_.get? i =
        s.document_ids_.get? i) ∧
    (s.AddDocument document_id document status ratings).2.stop_words_ = s.stop_words_ := by
  obtain ⟨_, hfresh, _, hstate⟩ := AddDocument_of_ok s document_id document status ratings hok
  have hwf := hs.wellFormed
  have hdocs : ∀ d, StdMap.find (s.AddDocument document_id document status
      ratings).2.documents_ d =
      if d = document_id then some ⟨ComputeAverageRating ratings, status⟩
      else StdMap.find s.documents_ d := by
    intro d
    rw [hstate]
    simp only [StdMap.emplace, StdMap.find_update, hfresh, Option.getD_none]
  have hnone : ∀ w, StdMap.find (s.postingsOf w) document_id = none :=
    fun w => find_postingsOf_fresh s hwf w document_id hfresh
  have hpost : ∀ w d, d ≠ document_id →
      StdMap.find ((s.AddDocument document_id document status ratings).2.postingsOf w) d =
        StdMap.find (s.postingsOf w) d := by
    intro w d hd
    rw [AddDocument_postingsOf s document_id document status ratings hok w]
    split_ifs
    · rw [StdMap.find_update, if_neg hd]
    · rfl
  refine ⟨fun d data h => AddDocument_find_documents s document_id document status ratings d
      data h, ?_, hfresh, ?_, ?_, hpost, ?_, ?_, ?_, AddDocument_stop_words s document_id document
      status ratings⟩
  · intro d hd
    rw [hdocs d, if_neg hd]
  · rw [hdocs document_id, if_pos rfl]
  · intro w d tf h
    have hd : d ≠ document_id := by
      intro heq
      rw [heq, hnone w] at h
      cases h
    rw [hpost w d hd]
    exact h
  · intro w
    refine ⟨hnone w, ?_⟩
    rw [AddDocument_postingsOf s document_id document status ratings hok w]
    split_ifs with hw
    · rw [StdMap.find_update, if_pos rfl]
      simp [hw]
    · rw [hnone w]
      simp [hw]
  · rw [hstate]
  · intro i hi
    rw [hstate]
    simp only
    rw [List.get?_eq_getElem?, List.get?_eq_getElem?, List.getElem?_append_left hi]

/-- Adding the document 2 `dog in the city` to the server of the test: the
records and postings of the documents 0 and 1 stay, the ids are 0, 1, 2. -/
theorem C31_witness :
    ((minusWordsServer ℝ).AddDocument 2 "dog in the city".toList .BANNED [7]).2.document_ids_ =
      [0, 1, 2] ∧
    StdMap.keys
      ((minusWordsServer ℝ).AddDocument 2 "dog in the city".toList .BANNED [7]).2.documents_ =
      [0, 1, 2] ∧
    ∀ d data, StdMap.find (minusWordsServer ℝ).documents_ d = some data →
      StdMap.find
        ((minusWordsServer ℝ).AddDocument 2 "dog in the city".toList .BANNED [7]).2.documents_ d =
        some data :=
  ⟨rfl, rfl, (C31_AddDocument_only_adds (minusWordsServer ℝ)
    (addDocuments_reachable _ inTheServer_reachable _) 2 "dog in the city".toList .BANNED [7]
    rfl).1⟩

/-- A stored document without postings stays without postings through any call. -/
theorem AddDocument_hasWord_false (s : SearchServer R) (hwf : s.WellFormed) (document_id : Int)
    (document : List Char) (status : DocumentStatus) (ratings : List Int) (d : Int)
    (hd : d ∈ StdMap.keys s.documents_) (hno : ∀ w, s.hasWord d w = false) :
    ∀ w, (s.AddDocument document_id document status ratings).2.hasWord d w = false := by
  intro w
  rcases AddDocument_outcome s document_id document status ratings with hok | herr
  · obtain ⟨_, hfresh, _, _⟩ := AddDocument_of_ok s document_id document status ratings hok
    have hne : d ≠ document_id := by
      intro heq
      rw [heq] at hd
      exact (StdMap.find_eq_none_iff _ hwf.documents_ordered _).mp hfresh hd
    have hold : d ∉ StdMap.keys (s.postingsOf w) := by
      have := hno w
      unfold hasWord at this
      exact of_decide_eq_false this
    unfold hasWord
    rw [AddDocument_postingsOf s document_id document status ratings hok w]
    apply decide_eq_false
    split_ifs
    · rw [StdMap.keys_update]
      rintro (h | h)
      · exact hne h
      · exact hold h
    · exact hold
  · rw [AddDocument_state_of_error s document_id document status ratings
      (by rw [herr]; exact fun h => by cases h)]
    exact hno w

theorem AddDocument_keys_documents (s : SearchServer R) (document_id : Int)
    (document : List Char) (status : DocumentStatus) (ratings : List Int) (d : Int)
    (hd : d ∈ StdMap.keys s.documents_) :
    d ∈ StdMap.keys (s.AddDocument document_id document status ratings).2.documents_ := by
  rcases AddDocument_outcome s document_id document status ratings with hok | herr
  · obtain ⟨_, _, _, hstate⟩ := AddDocument_of_ok s document_id document status ratings hok
    rw [hstate]
    exact (StdMap.keys_update _ _ _ d).mpr (Or.inr hd)
  · rw [AddDocument_state_of_error s document_id document status ratings
      (by rw [herr]; exact fun h => by cases h)]
    exact hd

theorem addDocuments_hasWord_false
    (calls : List (Int × List Char × DocumentStatus × List Int)) :
    ∀ (s : SearchServer R), s.WellFormed → ∀ d, d ∈ StdMap.keys s.documents_ →
      (∀ w, s.hasWord d w = false) → ∀ w, (s.addDocuments calls).hasWord d w = false := by
  induction calls with
  | nil => intro s _ d _ h; exact h
  | cons c rest ih =>
    obtain ⟨id, text, status, ratings⟩ := c
    intro s hwf d hd hno
    rw [addDocuments_cons]
    exact ih _ (AddDocument_wellFormed s id text status ratings hwf) d
      (AddDocument_keys_documents s id text status ratings d hd)
      (AddDocument_hasWord_false s hwf id text status ratings d hd hno)

/-- C35. In a reachable state, `AddDocument` with an id that is not negative
and not stored yet and a text of which no word is left after the stop words
are removed (the empty text, spaces only, stop words only) is accepted: the
record is stored, the id is appended to the insertion-order sequence,
`GetDocumentCount` grows by 1 and the inverted index stays as it is.  After
that and any further calls, `FindTopDocuments` returns the document for no
query and no predicate, and `MatchDocument` returns for it the empty word list
and its status, for every query that parses. -/
theorem C35_document_without_words (s : SearchServer R) (hs : Reachable s) (document_id : Int)
    (document : List Char) (status : DocumentStatus) (ratings : List Int)
    (hid : 0 ≤ document_id) (hfresh : document_id ∉ StdMap.keys s.documents_)
    (hwords : ∀ token ∈ SplitIntoWords document, token ∈ s.stop_words_) :
    s.SplitIntoWordsNoStop document = [] ∧
    (s.AddDocument document_id document status ratings).1 = .ok () ∧
    (s.AddDocument document_id document status ratings).2.word_to_document_freqs_ =
      s.word_to_document_freqs_ ∧
    StdMap.find (s.AddDocument document_id document status ratings).2.documents_ document_id =
      some ⟨ComputeAverageRating ratings, status⟩ ∧
    (s.AddDocument document_id document status ratings).2.document_ids_ =
      s.document_ids_ ++ [document_id] ∧
    (s.AddDocument document_id document status ratings).2.GetDocumentCount =
      s.GetDocumentCount + 1 ∧
    ∀ calls : List (Int × List Char × DocumentStatus × List Int),
      (∀ (log : R → R) (raw_query : List Char) (predicate : Int → DocumentStatus → Int → Bool)
        (docs : List (Document R)),
        ((s.AddDocument document_id document status ratings).2.addDocuments
          calls).FindTopDocuments log raw_query predicate = .ok docs →
        ∀ doc ∈ docs, doc.id ≠ document_id) ∧
      (∀ (raw_query : List Char) (query : Query),
        ((s.AddDocument document_id document status ratings).2.addDocuments
          calls).ParseQuery raw_query = .ok query →
        ((s.AddDocument document_id document status ratings).2.addDocuments
          calls).MatchDocument raw_query document_id = .ok ([], status)) := by
  have hwf := hs.wellFormed
  have hnone : StdMap.find s.documents_ document_id = none :=
    (StdMap.find_eq_none_iff _ hwf.documents_ordered _).mpr hfresh
  have hempty : s.SplitIntoWordsNoStop document = [] := by
    rw [SplitIntoWordsNoStop_eq, List.filter_eq_nil_iff]
    intro token ht
    simpa using hwords token ht
  have hok : (s.AddDocument document_id document status ratings).1 = .ok () := by
    rw [AddDocument_def, if_neg (not_lt.mpr hid),
      if_neg (not_not.mpr ((StdMap.count_eq_zero_iff _ _).mpr hnone)), hempty]
    rfl
  obtain ⟨_, _, _, hstate⟩ := AddDocument_of_ok s document_id document status ratings hok
  have hs2 : Reachable (s.AddDocument document_id document status ratings).2 :=
    Reachable.AddDocument s document_id document status ratings hs
  have hrecord := find_documents_of_accepted s document_id document status ratings [] hok
  rw [addDocuments_nil] at hrecord
  have hkey : document_id ∈
      StdMap.keys (s.AddDocument document_id document status ratings).2.documents_ :=
    List.mem_map_of_mem Prod.fst
      ((StdMap.find_eq_some_iff _ hs2.wellFormed.documents_ordered _ _).mp hrecord)
  have hno : ∀ w, (s.AddDocument document_id document status ratings).2.hasWord document_id w =
      false := by
    intro w
    unfold hasWord
    rw [AddDocument_postingsOf s document_id document status ratings hok w, hempty,
      if_neg (List.not_mem_nil w)]
    apply decide_eq_false
    have hp := postingsOf_wellFormed s hwf w
    intro hmem
    obtain ⟨p, hp1, hp2⟩ := List.mem_map.mp hmem
    have := hp.2 p hp1
    rw [hp2] at this
    exact hfresh this
  refine ⟨hempty, hok, ?_, hrecord, ?_, ?_, ?_⟩
  · rw [hstate, hempty]
    rfl
  · rw [hstate]
  · rw [hstate]
    unfold GetDocumentCount
    simp only [StdMap.emplace, StdMap.length_update_of_find_none _ _ _ hnone]
    push_cast
    rfl
  · intro calls
    have hs3 : Reachable ((s.AddDocument document_id document status ratings).2.addDocuments
        calls) := addDocuments_reachable _ hs2 calls
    have hno3 := addDocuments_hasWord_false calls _ hs2.wellFormed document_id hkey hno
    constructor
    · intro log raw_query predicate docs hdocs doc hdoc heq
      cases hq : ((s.AddDocument document_id document status ratings).2.addDocuments
          calls).ParseQuery raw_query with
      | error e =>
        unfold FindTopDocuments at hdocs
        rw [hq] at hdocs
        cases hdocs
      | ok query =>
        rw [FindTopDocuments_eq _ hs3 log raw_query predicate query hq] at hdocs
        rw [← Except.ok.inj hdocs] at hdoc
        have hmem := (mem_matchedDocuments _ log query predicate doc).mp
          (mem_of_mem_top _ log query predicate doc hdoc)
        obtain ⟨w, _, hw⟩ := ((isMatch_iff _ query predicate doc.id).mp hmem.2.1).2.1
        rw [heq, hno3 w] at hw
        cases hw
    · intro raw_query query hq
      rw [MatchDocument_eq _ hs3.wellFormed raw_query document_id query hq,
        atKey_eq_ok _ _ _ (find_documents_of_accepted s document_id document status ratings
          calls hok)]
      have hany : query.minus_words.any (fun word =>
          ((s.AddDocument document_id document status ratings).2.addDocuments calls).hasWord
            document_id word) = false := by
        rw [List.any_eq_false]
        intro w _
        rw [hno3 w]
        exact Bool.false_ne_true
      have hfilter : query.plus_words.filter (fun word =>
          ((s.AddDocument document_id document status ratings).2.addDocuments calls).hasWord
            document_id word) = [] := by
        rw [List.filter_eq_nil_iff]
        intro w _
        rw [hno3 w]
        exact Bool.false_ne_true
      simp only [hany, hfilter]
      rfl

/-- A document of stop words and spaces only on the server of the test: it is
stored as the third document, and the query `in cat` does not find it. -/
theorem C35_witness :
    ((minusWordsServer ℝ).AddDocument 5 " in  the in ".toList .ACTUAL [4]).1 = .ok () ∧
    ((minusWordsServer ℝ).AddDocument 5 " in  the in ".toList .ACTUAL [4]).2.GetDocumentCount =
      3 ∧
    ((minusWordsServer ℝ).AddDocument 5 " in  the in ".toList .ACTUAL
      [4]).2.word_to_document_freqs_ = (minusWordsServer ℝ).word_to_document_freqs_ ∧
    ((minusWordsServer ℝ).AddDocument 5 " in  the in ".toList .ACTUAL [4]).2.MatchDocument
      "in cat".toList 5 = .ok ([], .ACTUAL) :=
  ⟨(C35_document_without_words (minusWordsServer ℝ)
      (addDocuments_reachable _ inTheServer_reachable _) 5 " in  the in ".toList .ACTUAL [4]
      (by decide) (by decide) (by decide)).2.1,
    rfl, rfl, rfl⟩

end SearchServer

/-! ## Control characters are rejected; queries are sets of words -/

theorem splitStep_space (st : List (List Char) × List Char) :
    splitStep st ' ' = (if st.2 ≠ [] then st.1 ++ [st.2] else st.1, []) := by
  unfold splitStep
  rw [if_pos rfl]
  split_ifs with h
  · rfl
  · rw [not_not.mp h]

theorem SplitIntoWords_append_space (a b : List Char) :
    SplitIntoWords (a ++ ' ' :: b) = SplitIntoWords a ++ SplitIntoWords b := by
  have hstep : splitStep (a.foldl splitStep ([], [])) ' ' = (SplitIntoWords a, []) :=
    splitStep_space _
  have h := foldl_splitStep_splitOn b (SplitIntoWords a) []
  rw [modifyHead_nil_append, ← SplitIntoWords_eq_splitOn] at h
  rw [← h]
  conv_lhs => unfold SplitIntoWords
  rw [List.foldl_append, List.foldl_cons, hstep]

/-- A character below the space is inside a word of the text. -/
theorem exists_word_of_control_character (text : List Char) (c : Char) (hc : c ∈ text)
    (hcode : c.toNat < 32) : ∃ w ∈ SplitIntoWords text, c ∈ w := by
  have hne : c ≠ ' ' := by
    intro h
    rw [h] at hcode
    exact absurd hcode (by decide)
  have hmem : c ∈ (SplitIntoWords text).flatten := by
    rw [SplitIntoWords_flatten]
    exact List.mem_filter.mpr ⟨hc, decide_eq_true hne⟩
  obtain ⟨w, hw, hcw⟩ := List.mem_flatten.mp hmem
  exact ⟨w, hw, hcw⟩

/-- Two strictly ascending lists with the same elements are the same list. -/
theorem eq_of_pairwise_lt_of_mem_iff (l1 l2 : List (List Char)) (h1 : l1.Pairwise (· < ·))
    (h2 : l2.Pairwise (· < ·)) (h : ∀ w, w ∈ l1 ↔ w ∈ l2) : l1 = l2 := by
  have n1 : l1.Nodup := h1.imp (fun h => ne_of_lt h)
  have n2 : l2.Nodup := h2.imp (fun h => ne_of_lt h)
  exact List.eq_of_perm_of_sorted ((List.perm_ext_iff_of_nodup n1 n2).mpr h) h1 h2

namespace SearchServer

variable {R : Type} [LinearOrderedField R]

/-- C32. In a reachable state (whatever the stop words), for a text with a
character whose code is below that of the space: the character is inside a
word of the text, that word is an invalid term and no stop word (every stored
stop word is a valid term), so `AddDocument` with the text throws
`invalid_argument` and changes nothing, and `FindTopDocuments` and
`MatchDocument` with the text as the query throw `invalid_argument`. -/
theorem C32_control_character_rejected (s : SearchServer R) (hs : Reachable s) (log : R → R)
    (text : List Char) (c : Char) (hc : c ∈ text) (hcode : c.toNat < 32)
    (document_id : Int) (status : DocumentStatus) (ratings : List Int)
    (predicate : Int → DocumentStatus → Int → Bool) :
    (∀ w ∈ s.stop_words_, ¬ InvalidTerm w) ∧
    (∃ w ∈ SplitIntoWords text, c ∈ w ∧ InvalidTerm w ∧ w ∉ s.stop_words_) ∧
    (s.AddDocument document_id text status ratings).1 = .error .invalid_argument ∧
    (s.AddDocument document_id text status ratings).2 = s ∧
    s.FindTopDocuments log text predicate = .error .invalid_argument ∧
    s.FindTopDocumentsByStatus log text status = .error .invalid_argument ∧
    s.FindTopDocumentsActual log text = .error .invalid_argument ∧
    s.MatchDocument text document_id = .error .invalid_argument := by
  have hstop : ∀ w ∈ s.stop_words_, ¬ InvalidTerm w :=
    fun w hw => (IsValidWord_eq_true_iff w).mp (hs.stop_words_valid w hw)
  obtain ⟨w, hw, hcw⟩ := exists_word_of_control_character text c hc hcode
  have hinv : InvalidTerm w := Or.inr (Or.inr (Or.inr ⟨c, hcw, hcode⟩))
  have hns : w ∉ s.stop_words_ := fun h => hstop w h hinv
  have hminus : c ≠ '-' := by
    intro h
    rw [h] at hcode
    exact absurd hcode (by decide)
  have hstrip : InvalidTerm (stripMinus w) := by
    refine Or.inr (Or.inr (Or.inr ⟨c, ?_, hcode⟩))
    unfold stripMinus
    split
    · rename_i rest
      rcases List.mem_cons.mp hcw with h | h
      · exact absurd h hminus
      · exact h
    · exact hcw
  have hadd : (s.AddDocument document_id text status ratings).1 = .error .invalid_argument := by
    rw [AddDocument_def]
    split_ifs with h1 h2 h3
    · rfl
    · rfl
    · rfl
    · exact absurd ((any_invalid_SplitIntoWordsNoStop_iff s text).mpr
        ⟨w, hw, hns, Or.inr (Or.inr ⟨c, hcw, hcode⟩)⟩) h3
  have hfind : ∀ p, s.FindTopDocuments log text p = .error .invalid_argument :=
    fun p => (FindTopDocuments_invalid_iff s log text p).mpr ⟨w, hw, hstrip⟩
  refine ⟨hstop, ⟨w, hw, hcw, hinv, hns⟩, hadd, ?_, hfind predicate, hfind _, hfind _,
    (MatchDocument_invalid_iff s text document_id).mpr ⟨w, hw, hstrip⟩⟩
  exact AddDocument_state_of_error s document_id text status ratings
    (by rw [hadd]; exact fun h => by cases h)

/-- The text with a NUL character of the tests, on the server with the stop
words `in the`. -/
theorem C32_witness :
    ((minusWordsServer ℝ).AddDocument 4 "awk lfe\x00as ldf".toList .ACTUAL []).1 =
      .error .invalid_argument ∧
    (minusWordsServer ℝ).FindTopDocuments Real.log "awk lfe\x00as ldf".toList isActual =
      .error .invalid_argument ∧
    (minusWordsServer ℝ).MatchDocument "awk lfe\x00as ldf".toList 0 =
      .error .invalid_argument :=
  ⟨(C32_control_character_rejected (minusWordsServer ℝ)
      (addDocuments_reachable _ inTheServer_reachable _) Real.log "awk lfe\x00as ldf".toList
      (Char.ofNat 0) (by decide) (by decide) 4 .ACTUAL [] isActual).2.2.1,
    rfl, rfl⟩

/-- The result of `ParseQuery` depends on the set of the words of the text only. -/
theorem ParseQuery_eq_of_same_words (s : SearchServer R) (text1 text2 : List Char)
    (h : ∀ w, w ∈ SplitIntoWords text1 ↔ w ∈ SplitIntoWords text2) :
    s.ParseQuery text1 = s.ParseQuery text2 := by
  have herr : ∀ (a b : List Char), (∀ w, w ∈ SplitIntoWords a ↔ w ∈ SplitIntoWords b) →
      ∀ e, s.ParseQuery a = .error e → s.ParseQuery b = .error e := by
    intro a b hab e he
    obtain ⟨h1, w, hw, hinv⟩ := (ParseQuery_error_iff s a e).mp he
    exact (ParseQuery_error_iff s b e).mpr ⟨h1, w, (hab w).mp hw, hinv⟩
  cases h1 : s.ParseQuery text1 with
  | error e => exact (herr text1 text2 h e h1).symm
  | ok q1 =>
    cases h2 : s.ParseQuery text2 with
    | error e =>
      have := herr text2 text1 (fun w => (h w).symm) e h2
      rw [h1] at this
      cases this
    | ok q2 =>
      obtain ⟨a1, a2, a3, a4⟩ := ParseQuery_ok s text1 q1 h1
      obtain ⟨b1, b2, b3, b4⟩ := ParseQuery_ok s text2 q2 h2
      have hplus : q1.plus_words = q2.plus_words :=
        eq_of_pairwise_lt_of_mem_iff _ _ a3 b3 (fun w => by rw [a1 w, b1 w, h w])
      have hminus : q1.minus_words = q2.minus_words :=
        eq_of_pairwise_lt_of_mem_iff _ _ a4 b4 (fun w => by rw [a2 w, b2 w, h ('-' :: w)])
      cases q1
      cases q2
      simp only at hplus hminus
      rw [hplus, hminus]

/-- C37. Queries are sets of words.  In every state, two raw queries with the
same set of words (`SplitIntoWords`) have the same result of `ParseQuery` (the
same two sets, or the exception `invalid_argument`), hence the same result of
`FindTopDocuments`, for every predicate, and of `MatchDocument`, for every id.
So a further space between words or in front, the words of two parts in the
other order, and a part written twice change nothing. -/
theorem C37_queries_are_sets (s : SearchServer R) (log : R → R) (text1 text2 : List Char)
    (h : ∀ w, w ∈ SplitIntoWords text1 ↔ w ∈ SplitIntoWords text2) :
    s.ParseQuery text1 = s.ParseQuery text2 ∧
    (∀ predicate, s.FindTopDocuments log text1 predicate =
      s.FindTopDocuments log text2 predicate) ∧
    (∀ document_id, s.MatchDocument text1 document_id = s.MatchDocument text2 document_id) ∧
    (∀ a b : List Char,
      SplitIntoWords (a ++ ' ' :: b) = SplitIntoWords a ++ SplitIntoWords b ∧
      s.ParseQuery (a ++ ' ' :: ' ' :: b) = s.ParseQuery (a ++ ' ' :: b) ∧
      s.ParseQuery (' ' :: a) = s.ParseQuery a ∧
      s.ParseQuery (a ++ ' ' :: b) = s.ParseQuery (b ++ ' ' :: a) ∧
      s.ParseQuery (a ++ ' ' :: a) = s.ParseQuery a) := by
  have hq := ParseQuery_eq_of_same_words s text1 text2 h
  refine ⟨hq, ?_, ?_, ?_⟩
  · intro predicate
    unfold FindTopDocuments
    rw [hq]
  · intro document_id
    unfold MatchDocument
    rw [hq]
  · intro a b
    have hlead : ∀ t : List Char, SplitIntoWords (' ' :: t) = SplitIntoWords t := by
      intro t
      have := SplitIntoWords_append_space [] t
      simpa [SplitIntoWords] using this
    refine ⟨SplitIntoWords_append_space a b, ?_, ?_, ?_, ?_⟩
    · apply ParseQuery_eq_of_same_words
      intro w
      rw [SplitIntoWords_append_space, hlead, SplitIntoWords_append_space]
    · apply ParseQuery_eq_of_same_words
      intro w
      rw [hlead]
    · apply ParseQuery_eq_of_same_words
      intro w
      rw [SplitIntoWords_append_space, SplitIntoWords_append_space, List.mem_append,
        List.mem_append]
      exact or_comm
    · apply ParseQuery_eq_of_same_words
      intro w
      rw [SplitIntoWords_append_space, List.mem_append, or_self]

/-- Two ways of writing one query on the server of the test. -/
theorem C37_witness :
    (minusWordsServer ℝ).ParseQuery "cat  -city cat garden".toList =
      (minusWordsServer ℝ).ParseQuery "garden -city cat".toList ∧
    (minusWordsServer ℝ).ParseQuery "garden -city cat".toList =
      .ok ⟨["cat".toList, "garden".toList], ["city".toList]⟩ ∧
    (∀ predicate, (minusWordsServer ℝ).FindTopDocuments Real.log
        "cat  -city cat garden".toList predicate =
      (minusWordsServer ℝ).FindTopDocuments Real.log "garden -city cat".toList predicate) := by
  have h : ∀ w, w ∈ SplitIntoWords "cat  -city cat garden".toList ↔
      w ∈ SplitIntoWords "garden -city cat".toList := by
    intro w
    have e1 : SplitIntoWords "cat  -city cat garden".toList =
        ["cat".toList, "-city".toList, "cat".toList, "garden".toList] := by decide
    have e2 : SplitIntoWords "garden -city cat".toList =
        ["garden".toList, "-city".toList, "cat".toList] := by decide
    rw [e1, e2]
    simp only [List.mem_cons, List.mem_singleton, List.not_mem_nil, or_false]
    tauto
  have hc := C37_queries_are_sets (minusWordsServer ℝ) Real.log
    "cat  -city cat garden".toList "garden -city cat".toList h
  exact ⟨hc.1, rfl, hc.2.1⟩

end SearchServer

/-! ## The invariant of the request queue -/

namespace RequestQueue

variable {R : Type} [LinearOrderedField R]

theorem stamped_length (bs : List Bool) : ∀ first : Int, (stamped first bs).length = bs.length := by
  induction bs with
  | nil => intro first; rfl
  | cons b rest ih => intro first; simp [stamped, ih]

theorem stamped_getElem? (bs : List Bool) :
    ∀ (first : Int) (i : Nat),
      (stamped first bs)[i]? = (bs[i]?).map (fun b => (⟨b, first + i⟩ : QueryResult)) := by
  induction bs with
  | nil => intro first i; simp [stamped]
  | cons b rest ih =>
    intro first i
    cases i with
    | zero => simp [stamped]
    | succ j =>
      rw [stamped, List.getElem?_cons_succ, List.getElem?_cons_succ, ih]
      have hk : first + 1 + (j : Int) = first + ((j + 1 : Nat) : Int) := by
        push_cast
        ring
      rw [hk]

theorem stamped_filter_is_empty (bs : List Bool) :
    ∀ first : Int,
      ((stamped first bs).filter (fun r => r.is_empty)).length = bs.count true := by
  induction bs with
  | nil => intro first; rfl
  | cons b rest ih =>
    intro first
    cases b
    · simp [stamped, ih]
    · simp [stamped, ih]

/-- C38. For every queue reached from a new one by `AddFindRequest` calls: the
deque holds at most 1440 entries; their timestamps are consecutive and the last
is the current time; the counter is the number of entries marked empty, so
`GetNoResultRequests` is between 0 and 1440.  And inside the next
`AddQueryResult`, whenever the loop comes to evict an entry marked empty (after
the entries `evicted` in front of it), the counter is greater than 0, so the
guard of the decrement holds. -/
theorem C38_RequestQueue_invariant (log : R → R)
    (calls : List (SearchServer R × List Char × (Int → DocumentStatus → Int → Bool))) :
    (addFindRequests log construct calls).requests_.length ≤ 1440 ∧
    (∀ i, i < (addFindRequests log construct calls).requests_.length →
      ∃ r, (addFindRequests log construct calls).requests_[i]? = some r ∧
        r.timestamp = (addFindRequests log construct calls).current_time -
          ((addFindRequests log construct calls).requests_.length : Int) + 1 + (i : Int)) ∧
    (addFindRequests log construct calls).no_result_requests_ =
      ((((addFindRequests log construct calls).requests_.filter
        (fun r => r.is_empty)).length : Nat) : Int) ∧
    0 ≤ (addFindRequests log construct calls).GetNoResultRequests ∧
    (addFindRequests log construct calls).GetNoResultRequests ≤ 1440 ∧
    (∀ (empty : Bool) (evicted : List QueryResult) (front : QueryResult)
      (rest : List QueryResult),
      (addFindRequests log construct calls).requests_ ++
        [⟨empty, (addFindRequests log construct calls).current_time + 1⟩] =
        evicted ++ front :: rest →
      front.is_empty = true →
      0 < (if empty then (addFindRequests log construct calls).no_result_requests_ + 1
          else (addFindRequests log construct calls).no_result_requests_) -
        (((evicted.filter (fun r => r.is_empty)).length : Nat) : Int)) := by
  rw [addFindRequests_eq log calls construct]
  generalize requestOutcomes log calls = bs
  obtain ⟨h1, h2, h3⟩ := foldl_AddQueryResult bs
  generalize bs.foldl AddQueryResult construct = q at h1 h2 h3
  have hlen : q.requests_.length = bs.length - (bs.length - 1440) := by
    rw [h2, stamped_length, List.length_drop]
  have hcount : q.no_result_requests_ =
      ((((q.requests_.filter (fun r => r.is_empty)).length : Nat)) : Int) := by
    rw [h3, h2, stamped_filter_is_empty]
  have hle : (q.requests_.filter (fun r => r.is_empty)).length ≤ q.requests_.length :=
    List.length_filter_le _ _
  refine ⟨by omega, ?_, hcount, ?_, ?_, ?_⟩
  · intro i hi
    have hi2 : i < (bs.drop (bs.length - 1440)).length := by
      rw [List.length_drop]
      omega
    refine ⟨⟨(bs.drop (bs.length - 1440))[i], ((bs.length - 1440 : Nat) : Int) + 1 + i⟩, ?_, ?_⟩
    · rw [h2, stamped_getElem?, List.getElem?_eq_getElem hi2]
      rfl
    · simp only
      rw [h1, hlen]
      omega
  · unfold GetNoResultRequests
    rw [hcount]
    exact Int.natCast_nonneg _
  · unfold GetNoResultRequests
    rw [hcount]
    omega
  · intro empty evicted front rest hsplit hfront
    have hfilter := congrArg (fun l => (l.filter (fun r => r.is_empty)).length) hsplit
    simp only [List.filter_append, List.length_append, List.filter_cons, hfront, if_true,
      List.length_cons] at hfilter
    rw [hcount]
    cases empty
    · simp only [List.filter_nil, List.length_nil, Nat.add_zero, Bool.false_eq_true,
        if_false] at hfilter ⊢
      omega
    · simp only [List.filter_nil, List.length_cons, List.length_nil, if_true] at hfilter ⊢
      omega

/-- The queue of `TestRemoveOldRequestsFromQueue` after its 1441 requests. -/
theorem C38_witness :
    (addFindRequests Real.log construct
      (List.replicate 1440
        ((emptyServer ℝ).addDocuments [(1, "valid".toList, .ACTUAL, [])],
          "emptyresult".toList, isActual) ++
        [((emptyServer ℝ).addDocuments [(1, "valid".toList, .ACTUAL, [])],
          "valid".toList, isActual)])).requests_.length ≤ 1440 ∧
    0 ≤ (addFindRequests Real.log construct
      (List.replicate 1440
        ((emptyServer ℝ).addDocuments [(1, "valid".toList, .ACTUAL, [])],
          "emptyresult".toList, isActual) ++
        [((emptyServer ℝ).addDocuments [(1, "valid".toList, .ACTUAL, [])],
          "valid".toList, isActual)])).GetNoResultRequests ∧
    (addFindRequests Real.log construct
      (List.replicate 1440
        ((emptyServer ℝ).addDocuments [(1, "valid".toList, .ACTUAL, [])],
          "emptyresult".toList, isActual) ++
        [((emptyServer ℝ).addDocuments [(1, "valid".toList, .ACTUAL, [])],
          "valid".toList, isActual)])).GetNoResultRequests ≤ 1440 :=
  ⟨(C38_RequestQueue_invariant Real.log _).1, (C38_RequestQueue_invariant Real.log _).2.2.2.1,
    (C38_RequestQueue_invariant Real.log _).2.2.2.2.1⟩

/-- C39. An `AddFindRequest` call whose query the server rejects
(`FindTopDocuments` throws `invalid_argument`, which it does exactly when a word
of the query is invalid, whatever the predicate) records nothing: each overload
passes the exception on and leaves the queue as it was, with its deque, its
clock and `GetNoResultRequests`. -/
theorem C39_rejected_request_records_nothing (q : RequestQueue) (search_server : SearchServer R)
    (log : R → R) (raw_query : List Char)
    (document_predicate : Int → DocumentStatus → Int → Bool) (status : DocumentStatus)
    (h : search_server.FindTopDocuments log raw_query document_predicate =
      .error .invalid_argument) :
    (∃ token ∈ SplitIntoWords raw_query, InvalidTerm (stripMinus token)) ∧
    q.AddFindRequest search_server log raw_query document_predicate =
      (.error .invalid_argument, q) ∧
    q.AddFindRequestByStatus search_server log raw_query status =
      (.error .invalid_argument, q) ∧
    q.AddFindRequestActual search_server log raw_query = (.error .invalid_argument, q) ∧
    (q.AddFindRequest search_server log raw_query document_predicate).2.requests_ =
      q.requests_ ∧
    (q.AddFindRequest search_server log raw_query document_predicate).2.current_time =
      q.current_time ∧
    (q.AddFindRequest search_server log raw_query document_predicate).2.GetNoResultRequests =
      q.GetNoResultRequests := by
  have hinv := (SearchServer.FindTopDocuments_invalid_iff search_server log raw_query
    document_predicate).mp h
  have hall : ∀ p, search_server.FindTopDocuments log raw_query p = .error .invalid_argument :=
    fun p => (SearchServer.FindTopDocuments_invalid_iff search_server log raw_query p).mpr hinv
  have h1 : q.AddFindRequest search_server log raw_query document_predicate =
      (.error .invalid_argument, q) := by
    unfold AddFindRequest
    rw [h]
  have h2 : q.AddFindRequestByStatus search_server log raw_query status =
      (.error .invalid_argument, q) := by
    unfold AddFindRequestByStatus SearchServer.FindTopDocumentsByStatus
    rw [hall]
  have h3 : q.AddFindRequestActual search_server log raw_query =
      (.error .invalid_argument, q) := by
    unfold AddFindRequestActual SearchServer.FindTopDocumentsActual
      SearchServer.FindTopDocumentsByStatus
    rw [hall]
  refine ⟨hinv, h1, h2, h3, ?_, ?_, ?_⟩ <;> rw [h1]

/-- A queue with one recorded request, then the rejected query `asdf --asd` of
the tests: the counter stays at 1 and the clock at 1. -/
theorem C39_witness :
    ((construct.AddFindRequestActual (emptyServer ℝ) Real.log
      "empty request".toList).2.AddFindRequest (emptyServer ℝ) Real.log "asdf --asd".toList
      isActual).1 = .error .invalid_argument ∧
    ((construct.AddFindRequestActual (emptyServer ℝ) Real.log
      "empty request".toList).2.AddFindRequest (emptyServer ℝ) Real.log "asdf --asd".toList
      isActual).2.GetNoResultRequests = 1 ∧
    ((construct.AddFindRequestActual (emptyServer ℝ) Real.log
      "empty request".toList).2.AddFindRequest (emptyServer ℝ) Real.log "asdf --asd".toList
      isActual).2.current_time = 1 ∧
    ((construct.AddFindRequestActual (emptyServer ℝ) Real.log
      "empty request".toList).2.AddFindRequest (emptyServer ℝ) Real.log "asdf --asd".toList
      isActual).2 =
      (construct.AddFindRequestActual (emptyServer ℝ) Real.log "empty request".toList).2 :=
  ⟨rfl, rfl, rfl, by
    rw [(C39_rejected_request_records_nothing
      (construct.AddFindRequestActual (emptyServer ℝ) Real.log "empty request".toList).2
      (emptyServer ℝ) Real.log "asdf --asd".toList isActual .ACTUAL rfl).2.1]⟩

end RequestQueue

/-! ## Termination of the paginator -/

/-- C40. With a page size of at least 1, an iteration of the loop of the
`Paginator` constructor that starts before the end moves `begin` forward and
not past the end, so the rest of the range gets strictly shorter, and the
construction ends: any fuel above the length of the container is enough.  With
a page size of 0 an iteration in a range that is not empty leaves `begin` where
it was, and the loop does not end, whatever the fuel. -/
theorem C40_Paginator_terminates {α : Type} (c : List α) (end_ page_size begin_ : Nat) :
    (1 ≤ page_size → begin_ < end_ →
      begin_ < (if end_ - begin_ < page_size then end_ else begin_ + page_size) ∧
      (if end_ - begin_ < page_size then end_ else begin_ + page_size) ≤ end_ ∧
      end_ - (if end_ - begin_ < page_size then end_ else begin_ + page_size) <
        end_ - begin_) ∧
    (∀ fuel pages_, begin_ ≠ end_ →
      Paginator.loop end_ page_size (fuel + 1) begin_ pages_ =
        Paginator.loop end_ page_size fuel
          (if end_ - begin_ < page_size then end_ else begin_ + page_size)
          (pages_ ++ [⟨begin_, if end_ - begin_ < page_size then end_ else begin_ + page_size,
            (if end_ - begin_ < page_size then end_ else begin_ + page_size) - begin_⟩])) ∧
    (1 ≤ page_size → ∀ fuel, c.length < fuel → ∃ pages, Paginate fuel c page_size = some pages) ∧
    (begin_ ≠ end_ → (if end_ - begin_ < 0 then end_ else begin_ + 0) = begin_ ∧
      ∀ fuel pages_, Paginator.loop end_ 0 fuel begin_ pages_ = none) ∧
    (c ≠ [] → ∀ fuel, Paginate fuel c 0 = none) := by
  refine ⟨?_, ?_, ?_, ?_, ?_⟩
  · intro hps hlt
    split_ifs with h
    · exact ⟨hlt, le_refl _, by omega⟩
    · exact ⟨by omega, by omega, by omega⟩
  · intro fuel pages_ hne
    rw [Paginator.loop_succ, if_pos hne]
  · intro hps fuel hfuel
    obtain ⟨added, hloop, _⟩ :=
      Paginator.loop_spec c page_size hps fuel 0 [] (Nat.zero_le _) (by omega)
    exact ⟨[] ++ added, hloop⟩
  · intro hne
    refine ⟨?_, fun fuel pages_ => Paginator.loop_page_size_zero end_ fuel begin_ pages_ hne⟩
    rw [if_neg (Nat.not_lt_zero _), Nat.add_zero]
  · intro hc fuel
    unfold Paginate
    apply Paginator.loop_page_size_zero
    intro h
    exact hc (List.eq_nil_of_length_eq_zero h.symm)

end SearchEngine
